import Mathlib

/-!
Verification of the playlist merge core of the Jugnu repository
(src/merge.py) against its natural-language specification.

The Python source is shallowly embedded: Python strings are modelled as
lists of Unicode characters (`Str`), and every function of merge.py that
the claims touch is translated into an executable Lean definition keeping
the source's name.  The functions of the Python standard library that
merge.py calls (urllib.parse and pathlib helpers, str methods, re patterns)
are modelled as well, following the CPython 3.11 implementations; Unicode
case mapping and the regex word classes are modelled on their ASCII
portions, which is exact for every string handled by the claims.
-/

namespace Merge

/-- A Python `str`, modelled as a list of Unicode scalar values. -/
abbrev Str := List Char

/-- Converts a Lean string literal into the `Str` model. -/
def str (s : String) : Str := s.data

/-- Characters stripped by Python `str.strip()` (the ASCII/Latin-1 part of
`str.isspace`): space, tab, newline, carriage return, vertical tab, form
feed, the file/group/record/unit separators and NEL. -/
def isPyWs (c : Char) : Bool :=
  c = ' ' ∨ c = '\t' ∨ c = '\n' ∨ c = '\r' ∨ c = '\x0b' ∨ c = '\x0c' ∨
  (0x1c ≤ c.val ∧ c.val ≤ 0x1f) ∨ c.val = 0x85

/-- Python `str.lstrip()`. -/
def pyLStrip (s : Str) : Str := s.dropWhile isPyWs

/-- Python `str.rstrip()`. -/
def pyRStrip (s : Str) : Str := (s.reverse.dropWhile isPyWs).reverse

/-- Python `str.strip()`. -/
def pyStrip (s : Str) : Str := pyRStrip (pyLStrip s)

/-- Python `str.rstrip(chars)` for a one-character set, e.g. `rstrip(',')`
or `rstrip('/')`: removes every trailing occurrence of `c`. -/
def pyRStripChar (c : Char) (s : Str) : Str :=
  (s.reverse.dropWhile (· = c)).reverse

/-- Python `str.startswith(p)`. -/
def pyStartsWith (p s : Str) : Bool := p.isPrefixOf s

/-- Python `str.lower()` (ASCII case mapping). -/
def lowerStr (s : Str) : Str := s.map Char.toLower

/-- Case-insensitive prefix test, modelling an `re.IGNORECASE` literal:
true when lowering both sides makes `p` a prefix of `s`. -/
def ciIsPrefix (p s : Str) : Bool := (lowerStr p).isPrefixOf (lowerStr s)

/-- Line-break characters recognised by Python `str.splitlines` (besides
the `\r\n` pair, which is handled separately). -/
def isLineBreak (c : Char) : Bool :=
  c = '\n' ∨ c = '\r' ∨ c = '\x0b' ∨ c = '\x0c' ∨
  (0x1c ≤ c.val ∧ c.val ≤ 0x1e) ∨ c.val = 0x85 ∨
  c.val = 0x2028 ∨ c.val = 0x2029

/-- Worker for `pySplitlines`: accumulates the current line (reversed);
a `\r\n` pair counts as a single break. -/
def splitlinesGo (acc : Str) : Str → List Str
  | [] => if acc = [] then [] else [acc.reverse]
  | '\r' :: '\n' :: rest => acc.reverse :: splitlinesGo [] rest
  | c :: rest =>
      if isLineBreak c then acc.reverse :: splitlinesGo [] rest
      else splitlinesGo (c :: acc) rest

/-- Python `str.splitlines()`. -/
def pySplitlines (s : Str) : List Str := splitlinesGo [] s

/-- Worker for `splitOnChar`. -/
def splitOnCharGo (sep : Char) (acc : Str) : Str → List Str
  | [] => [acc.reverse]
  | c :: rest =>
      if c = sep then acc.reverse :: splitOnCharGo sep [] rest
      else splitOnCharGo sep (c :: acc) rest

/-- Python `str.split(sep)` for a one-character separator (every piece is
kept, including empty ones). -/
def pySplitChar (sep : Char) (s : Str) : List Str := splitOnCharGo sep [] s

/-- Python `str.split(sep, 1)` for a one-character separator: the part
before the first occurrence, and the part after it when it exists. -/
def pySplitFirst (sep : Char) (s : Str) : Str × Option Str :=
  let before := s.takeWhile (· ≠ sep)
  match s.dropWhile (· ≠ sep) with
  | [] => (before, none)
  | _ :: after => (before, some after)

/-- Python `str.find(c)`-style membership test used to guard splits. -/
def containsChar (c : Char) (s : Str) : Bool := s.contains c

/-- Python `str.replace(a, b)` for one-character arguments. -/
def replaceChar (a b : Char) (s : Str) : Str :=
  s.map fun c => if c = a then b else c

/-- Decimal rendering of a natural number, for the per-source statistics
strings built with Python f-strings. -/
def natToStr (n : Nat) : Str := (toString n).data

/-! ### The regex patterns of merge.py

Each compiled pattern of merge.py is modelled by a deterministic matcher;
every pattern below is backtracking-free (greedy character classes are
followed by characters they exclude), so the matchers compute exactly the
leftmost regex match. -/

/-- Model of `EXTINF_RE.match(s)`: the pattern `^\s*#EXTINF` (ignore case). -/
def extinfMatch (s : Str) : Bool :=
  ciIsPrefix (str "#extinf") (s.dropWhile isPyWs)

/-- Model of `EXTVLCOPT_RE.match(s)`: the pattern
`^\s*#EXTVLCOPT\s*:\s*(.*)$` (ignore case), returning the capture. -/
def extvlcoptMatch (s : Str) : Option Str :=
  let r := s.dropWhile isPyWs
  if ciIsPrefix (str "#extvlcopt") r then
    match (r.drop 10).dropWhile isPyWs with
    | ':' :: r2 => some (r2.dropWhile isPyWs)
    | _ => none
  else none

/-- Match of `USER_AGENT_OPT_RE` (`http-user-agent\s*=\s*(.*)`, ignore
case) anchored at the start of `s`. -/
def uaKeyMatchAt (s : Str) : Bool :=
  ciIsPrefix (str "http-user-agent") s &&
  match (s.drop 15).dropWhile isPyWs with
  | '=' :: _ => true
  | _ => false

/-- Model of `USER_AGENT_OPT_RE.search(s)`. -/
def uaKeySearch : Str → Bool
  | [] => false
  | c :: rest => uaKeyMatchAt (c :: rest) || uaKeySearch rest

/-- Match of `TVGID_RE` (`tvg-id\s*=\s*"([^\"]*)"`, ignore case) anchored
at the start of `s`, returning the capture. -/
def tvgMatchAt (s : Str) : Option Str :=
  if ciIsPrefix (str "tvg-id") s then
    match (s.drop 6).dropWhile isPyWs with
    | '=' :: r1 =>
      match r1.dropWhile isPyWs with
      | '"' :: r2 =>
          if containsChar '"' r2 then some (r2.takeWhile (· ≠ '"')) else none
      | _ => none
    | _ => none
  else none

/-- Model of `TVGID_RE.search(s)`: the leftmost match's capture. -/
def tvgSearch : Str → Option Str
  | [] => none
  | c :: rest =>
      match tvgMatchAt (c :: rest) with
      | some v => some v
      | none => tvgSearch rest

/-- Match of `GROUP_RE` (`group-title\s*=\s*"([^\"]*)"`, ignore case)
anchored at the start of `s`, returning the suffix after the match. -/
def groupMatchAt (s : Str) : Option Str :=
  if ciIsPrefix (str "group-title") s then
    match (s.drop 11).dropWhile isPyWs with
    | '=' :: r1 =>
      match r1.dropWhile isPyWs with
      | '"' :: r2 =>
          if containsChar '"' r2 then some ((r2.dropWhile (· ≠ '"')).drop 1)
          else none
      | _ => none
    | _ => none
  else none

/-- Model of `GROUP_RE.search(s)`. -/
def groupSearch : Str → Bool
  | [] => false
  | c :: rest =>
      match groupMatchAt (c :: rest) with
      | some _ => true
      | none => groupSearch rest

/-- Worker for `groupSub`; the fuel is a termination measure only (every
match consumes at least 14 characters, so `s.length + 1` always
suffices). -/
def groupSubGo (repl : Str) : Nat → Str → Str
  | 0, s => s
  | _ + 1, [] => []
  | fuel + 1, c :: rest =>
      match groupMatchAt (c :: rest) with
      | some after => repl ++ groupSubGo repl fuel after
      | none => c :: groupSubGo repl fuel rest

/-- Model of `GROUP_RE.sub(repl, s)` for the constant replacement used in
merge.py: rewrites every non-overlapping leftmost match. -/
def groupSub (repl s : Str) : Str := groupSubGo repl (s.length + 1) s

/-- Model of `re.sub` for a pattern of the form `[class]+` with a
one-character replacement: every maximal run of class characters becomes
one copy of `r`. -/
def subRuns (p : Char → Bool) (r : Char) : Str → Str
  | [] => []
  | c :: rest =>
      if p c then
        match rest with
        | c2 :: _ =>
            if p c2 then subRuns p r rest else r :: subRuns p r rest
        | [] => [r]
      else c :: subRuns p r rest

/-- Model of `re.sub(r'/+', '/', s)`. -/
def collapseSlashes (s : Str) : Str := subRuns (· = '/') '/' s

/-- Model of `re.sub(r'[_\-]+', ' ', s)`. -/
def subUnderDash (s : Str) : Str := subRuns (fun c => c = '_' ∨ c = '-') ' ' s

/-- Model of `re.sub(r'\s+', ' ', s)`. -/
def subWsRuns (s : Str) : Str := subRuns isPyWs ' ' s

/-! ### The record parser (`parse_entries`) -/

/-- One parsed playlist entry: the optional `#EXTINF` metadata line, the
`#EXTVLCOPT` option lines collected before the reference, and the
reference line itself. -/
structure RawEntry where
  extinf : Option Str
  options : List Str
  url : Str
deriving DecidableEq, Repr

/-- The inner scan of `parse_entries`: starting just after an `#EXTINF`
line, collects `#EXTVLCOPT` lines, skips blanks and other comments, and
returns the collected options, the reference line, and the lines after it
(the outer loop resumes at `j + 1`); `none` when the input ends first. -/
def scanUrlGo (options : List Str) : List Str → Option (List Str × Str × List Str)
  | [] => none
  | l :: rest =>
      let candStripped := pyStrip (pyRStripChar '\n' l)
      if candStripped = [] then scanUrlGo options rest
      else
        match extvlcoptMatch candStripped with
        | some _ => scanUrlGo (options ++ [candStripped]) rest
        | none =>
            if pyStartsWith (str "#") candStripped then scanUrlGo options rest
            else some (options, candStripped, rest)

/-- The outer loop of `parse_entries`; the fuel argument is a termination
measure only (each step consumes at least one line, so `lines.length + 1`
always suffices). -/
def parseGo : Nat → List Str → List RawEntry
  | 0, _ => []
  | _ + 1, [] => []
  | fuel + 1, l :: rest =>
      let ln := pyStrip l
      if ln = [] then parseGo fuel rest
      else if pyStartsWith (str "#") ln then
        if extinfMatch ln then
          match scanUrlGo [] rest with
          | some (opts, url, rest') => ⟨some ln, opts, url⟩ :: parseGo fuel rest'
          | none => parseGo fuel rest
        else parseGo fuel rest
      else ⟨none, [], ln⟩ :: parseGo fuel rest

/-- Model of `parse_entries(content)` from merge.py. -/
def parse_entries (content : Str) : List RawEntry :=
  let lines := (pySplitlines content).map (pyRStripChar '\n')
  parseGo (lines.length + 1) lines

/-! ### Metadata rewriting -/

/-- Model of `ensure_group_in_extinf(extinf, group)` from merge.py. -/
def ensure_group_in_extinf (extinf : Option Str) (group : Str) : Str :=
  match extinf with
  | none => str "#EXTINF:-1 group-title=\"" ++ group ++ str "\","
  | some e =>
      let p := pySplitFirst ',' e
      let header := pyStrip p.1
      let rest := p.2.getD []
      let repl := str "group-title=\"" ++ group ++ str "\""
      let header2 :=
        if groupSearch header then groupSub repl header
        else header ++ str " group-title=\"" ++ group ++ str "\""
      if rest ≠ [] then header2 ++ [','] ++ rest else header2

/-- Model of `get_tvg_id(extinf)` from merge.py, in the form it is used in
`main` (always applied to the non-empty string `extinf2`). -/
def get_tvg_id (extinf : Str) : Option Str :=
  if extinf = [] then none
  else
    match tvgSearch extinf with
    | some v => let v' := pyStrip v; if v' = [] then none else some v'
    | none => none

/-- Model of `make_user_agent_option(options, override_ua)` from merge.py. -/
def make_user_agent_option (options : List Str) (override_ua : Option Str) :
    List Str :=
  match override_ua with
  | none => options
  | some ua =>
      let uaLine := str "#EXTVLCOPT:http-user-agent=" ++ ua
      let step := fun (acc : List Str × Bool) (opt : Str) =>
        match extvlcoptMatch opt with
        | some content =>
            if uaKeySearch content then (acc.1 ++ [uaLine], true)
            else (acc.1 ++ [opt], acc.2)
        | none => (acc.1 ++ [opt], acc.2)
      let r := options.foldl step ([], false)
      if r.2 then r.1 else uaLine :: r.1

/-- Whether an auxiliary line matches the user-agent option key: it is an
`#EXTVLCOPT` directive whose content contains `http-user-agent` followed
by `=` (the match `make_user_agent_option` replaces). -/
def isUaOpt (o : Str) : Bool :=
  match extvlcoptMatch o with
  | some c => uaKeySearch c
  | none => false

/-! ### UTF-8 and percent-encoding (urllib.parse.quote/unquote)

merge.py normalizes query strings through `parse_qsl`/`urlencode`, which
decode and re-encode percent escapes.  The models below follow CPython
3.11: `quote_plus` encodes a character as the percent-escaped bytes of its
UTF-8 encoding (with `_.-~` and alphanumerics safe and space mapped to
`+`), and `unquote` decodes runs of escapes inside maximal ASCII chunks as
UTF-8 with `errors='replace'` (one replacement character per maximal
ill-formed subpart). -/

/-- The UTF-8 encoding of one Unicode scalar value, as a list of bytes. -/
def utf8EncodeChar (c : Char) : List Nat :=
  let n := c.toNat
  if n < 0x80 then [n]
  else if n < 0x800 then [0xc0 + n / 0x40, 0x80 + n % 0x40]
  else if n < 0x10000 then
    [0xe0 + n / 0x1000, 0x80 + (n / 0x40) % 0x40, 0x80 + n % 0x40]
  else
    [0xf0 + n / 0x40000, 0x80 + (n / 0x1000) % 0x40,
     0x80 + (n / 0x40) % 0x40, 0x80 + n % 0x40]

/-- The Unicode replacement character emitted by `errors='replace'`. -/
def replChar : Char := '�'

/-- Whether a byte is a UTF-8 continuation byte. -/
def isCont (b : Nat) : Bool := 0x80 ≤ b ∧ b ≤ 0xbf

/-- Worker for UTF-8 decoding with `errors='replace'`: well-formed
sequences decode to their scalar value, and each maximal ill-formed
subpart becomes one replacement character.  Every step consumes at least
one byte, so the fuel (a termination measure only) `l.length + 1` always
suffices. -/
def utf8DecodeGo : Nat → List Nat → Str
  | 0, _ => []
  | _ + 1, [] => []
  | fuel + 1, b :: rest =>
    if b < 0x80 then Char.ofNat b :: utf8DecodeGo fuel rest
    else if 0xc2 ≤ b ∧ b ≤ 0xdf then
      match rest with
      | b1 :: r1 =>
          if isCont b1 then
            Char.ofNat ((b - 0xc0) * 0x40 + (b1 - 0x80)) :: utf8DecodeGo fuel r1
          else replChar :: utf8DecodeGo fuel (b1 :: r1)
      | [] => [replChar]
    else if 0xe0 ≤ b ∧ b ≤ 0xef then
      match rest with
      | b1 :: r1 =>
          if (b = 0xe0 && (0xa0 ≤ b1 && b1 ≤ 0xbf)) ||
             (b = 0xed && (0x80 ≤ b1 && b1 ≤ 0x9f)) ||
             (b ≠ 0xe0 && b ≠ 0xed && isCont b1) then
            match r1 with
            | b2 :: r2 =>
                if isCont b2 then
                  Char.ofNat ((b - 0xe0) * 0x1000 + (b1 - 0x80) * 0x40 + (b2 - 0x80)) ::
                    utf8DecodeGo fuel r2
                else replChar :: utf8DecodeGo fuel (b2 :: r2)
            | [] => [replChar]
          else replChar :: utf8DecodeGo fuel (b1 :: r1)
      | [] => [replChar]
    else if 0xf0 ≤ b ∧ b ≤ 0xf4 then
      match rest with
      | b1 :: r1 =>
          if (b = 0xf0 && (0x90 ≤ b1 && b1 ≤ 0xbf)) ||
             (b = 0xf4 && (0x80 ≤ b1 && b1 ≤ 0x8f)) ||
             (b ≠ 0xf0 && b ≠ 0xf4 && isCont b1) then
            match r1 with
            | b2 :: r2 =>
                if isCont b2 then
                  match r2 with
                  | b3 :: r3 =>
                      if isCont b3 then
                        Char.ofNat ((b - 0xf0) * 0x40000 + (b1 - 0x80) * 0x1000 +
                          (b2 - 0x80) * 0x40 + (b3 - 0x80)) :: utf8DecodeGo fuel r3
                      else replChar :: utf8DecodeGo fuel (b3 :: r3)
                  | [] => [replChar]
                else replChar :: utf8DecodeGo fuel (b2 :: r2)
            | [] => [replChar]
          else replChar :: utf8DecodeGo fuel (b1 :: r1)
      | [] => [replChar]
    else replChar :: utf8DecodeGo fuel rest

/-- UTF-8 decoding with `errors='replace'` (`bytes.decode('utf-8',
'replace')`). -/
def utf8DecodeR (bs : List Nat) : Str := utf8DecodeGo (bs.length + 1) bs

/-- The numeric value of a hexadecimal digit, in either case. -/
def hexDigitVal (c : Char) : Option Nat :=
  if '0' ≤ c ∧ c ≤ '9' then some (c.toNat - 48)
  else if 'a' ≤ c ∧ c ≤ 'f' then some (c.toNat - 87)
  else if 'A' ≤ c ∧ c ≤ 'F' then some (c.toNat - 55)
  else none

/-- Upper-case hexadecimal digit for a value below 16, as produced by
CPython's quoter. -/
def hexUpper (n : Nat) : Char :=
  if n < 10 then Char.ofNat (48 + n) else Char.ofNat (55 + n)

/-- Characters never escaped by `urllib.parse.quote` (`_ALWAYS_SAFE`
restricted to the empty extra-safe set used by `quote_plus` inside
`urlencode`). -/
def alwaysSafe (c : Char) : Bool :=
  ('A' ≤ c ∧ c ≤ 'Z') ∨ ('a' ≤ c ∧ c ≤ 'z') ∨ ('0' ≤ c ∧ c ≤ '9') ∨
  c = '_' ∨ c = '.' ∨ c = '-' ∨ c = '~'

/-- Model of `urllib.parse.quote_plus(s)` with `safe=''` (the quoter used
by `urlencode`): safe characters pass, space becomes `+`, everything else
becomes the percent-escaped UTF-8 bytes. -/
def quotePlus (s : Str) : Str :=
  s.flatMap fun c =>
    if alwaysSafe c then [c]
    else if c = ' ' then ['+']
    else (utf8EncodeChar c).flatMap fun b => ['%', hexUpper (b / 16), hexUpper (b % 16)]

/-- Percent-decoding of one ASCII chunk into bytes, as in
`urllib.parse.unquote_to_bytes`: a `%` followed by two hex digits becomes
that byte, an invalid escape passes the `%` through literally, every other
character contributes its own code point. -/
def percentDecodeBytes : Str → List Nat
  | [] => []
  | '%' :: c1 :: c2 :: rest =>
      match hexDigitVal c1, hexDigitVal c2 with
      | some h, some l => (16 * h + l) :: percentDecodeBytes rest
      | _, _ => 0x25 :: percentDecodeBytes (c1 :: c2 :: rest)
  | c :: rest => c.toNat :: percentDecodeBytes rest

/-- Whether a character is ASCII (`str.isascii`). -/
def isAsciiChar (c : Char) : Bool := c.toNat ≤ 0x7f

/-- Worker for `unquote`: processes maximal ASCII chunks through
percent-decoding plus UTF-8 decoding and passes non-ASCII chunks through,
as CPython's `_asciire` split does.  The fuel is a termination measure
only (`s.length + 1` always suffices). -/
def unquoteGo : Nat → Str → Str
  | 0, s => s
  | _ + 1, [] => []
  | fuel + 1, c :: rest =>
      if isAsciiChar c then
        utf8DecodeR (percentDecodeBytes ((c :: rest).takeWhile isAsciiChar)) ++
          unquoteGo fuel ((c :: rest).dropWhile isAsciiChar)
      else
        (c :: rest).takeWhile (fun d => ¬ isAsciiChar d) ++
          unquoteGo fuel ((c :: rest).dropWhile (fun d => ¬ isAsciiChar d))

/-- Model of `urllib.parse.unquote(s)` with UTF-8 and `errors='replace'`. -/
def unquote (s : Str) : Str :=
  if containsChar '%' s then unquoteGo (s.length + 1) s else s

/-! ### Query-string handling (`parse_qsl` and `urlencode`) -/

/-- Model of `urllib.parse.parse_qsl(qs, keep_blank_values=True)` with the
default `&` separator: empty fields are skipped, a field without `=` gets
a blank value, and names and values are decoded with `+` mapped to space
before unquoting. -/
def parse_qsl (qs : Str) : List (Str × Str) :=
  let pieces := if qs = [] then [] else pySplitChar '&' qs
  pieces.foldr
    (fun nv acc =>
      if nv = [] then acc
      else
        let p := pySplitFirst '=' nv
        (unquote (replaceChar '+' ' ' p.1),
         unquote (replaceChar '+' ' ' (p.2.getD []))) :: acc)
    []

/-- Model of `urllib.parse.urlencode(pairs, doseq=True)` for string pairs:
each pair is quoted with `quote_plus` and joined with `&`. -/
def urlencodePairs (l : List (Str × Str)) : Str :=
  List.intercalate (str "&") (l.map fun kv => quotePlus kv.1 ++ ['='] ++ quotePlus kv.2)

/-! ### URL splitting and joining (urllib.parse, CPython 3.11) -/

/-- Result of `urlsplit`. -/
structure SplitResult where
  scheme : Str
  netloc : Str
  path : Str
  query : Str
  fragment : Str
deriving DecidableEq, Repr

/-- Result of `urlparse` (adds the params component split off the path). -/
structure ParseResult where
  scheme : Str
  netloc : Str
  path : Str
  params : Str
  query : Str
  fragment : Str
deriving DecidableEq, Repr

/-- The WHATWG C0-control-or-space class lstripped from URLs by
`urlsplit`. -/
def isC0OrSpace (c : Char) : Bool := c.val ≤ 0x20

/-- Removal of the unsafe bytes tab, carriage return and newline, done by
`urlsplit` on the whole URL. -/
def removeUnsafe (s : Str) : Str :=
  s.filter fun c => c ≠ '\t' ∧ c ≠ '\r' ∧ c ≠ '\n'

/-- The input sanitisation done at the top of `urlsplit`. -/
def cleanUrl (u : Str) : Str := removeUnsafe (u.dropWhile isC0OrSpace)

/-- Characters allowed in a scheme (`urllib.parse.scheme_chars`). -/
def isSchemeChar (c : Char) : Bool :=
  ('a' ≤ c ∧ c ≤ 'z') ∨ ('A' ≤ c ∧ c ≤ 'Z') ∨ ('0' ≤ c ∧ c ≤ '9') ∨
  c = '+' ∨ c = '-' ∨ c = '.'

/-- ASCII letter test (`url[0].isascii() and url[0].isalpha()`). -/
def isAsciiAlpha (c : Char) : Bool :=
  ('a' ≤ c ∧ c ≤ 'z') ∨ ('A' ≤ c ∧ c ≤ 'Z')

/-- The scheme detection of `urlsplit`: chars before the first `:` must be
scheme characters starting with an ASCII letter, else the default scheme
is kept and the URL is untouched. -/
def splitScheme (deflt : Str) (u : Str) : Str × Str :=
  let pre := u.takeWhile (· ≠ ':')
  match u.dropWhile (· ≠ ':') with
  | _ :: rest =>
      match pre with
      | c :: _ =>
          if isAsciiAlpha c ∧ pre.all isSchemeChar then (lowerStr pre, rest)
          else (deflt, u)
      | [] => (deflt, u)
  | [] => (deflt, u)

/-- Delimiters ending the netloc in `_splitnetloc`. -/
def netlocOk (c : Char) : Bool := c ≠ '/' ∧ c ≠ '?' ∧ c ≠ '#'

/-- Model of `urlsplit(url, scheme=deflt)` (fragments allowed; the IPv6
bracket and netloc validation, which can only raise, is omitted). -/
def urlsplitD (deflt : Str) (u : Str) : SplitResult :=
  let u0 := cleanUrl u
  let sp := splitScheme deflt u0
  let scheme := sp.1
  let u1 := sp.2
  let hasNetloc := u1.take 2 = str "//"
  let netloc := if hasNetloc then (u1.drop 2).takeWhile netlocOk else []
  let u2 := if hasNetloc then (u1.drop 2).dropWhile netlocOk else u1
  let pf := pySplitFirst '#' u2
  let fragment := pf.2.getD []
  let pq := pySplitFirst '?' pf.1
  ⟨scheme, netloc, pq.1, pq.2.getD [], fragment⟩

/-- Scheme list `uses_params` of urllib.parse. -/
def uses_params : List Str :=
  [str "", str "ftp", str "hdl", str "prospero", str "http", str "imap",
   str "https", str "shttp", str "rtsp", str "rtsps", str "rtspu",
   str "sip", str "sips", str "mms", str "sftp", str "tel"]

/-- Scheme list `uses_relative` of urllib.parse. -/
def uses_relative : List Str :=
  [str "", str "ftp", str "http", str "gopher", str "nntp", str "imap",
   str "wais", str "file", str "https", str "shttp", str "mms",
   str "prospero", str "rtsp", str "rtsps", str "rtspu", str "sftp",
   str "svn", str "svn+ssh", str "ws", str "wss"]

/-- Scheme list `uses_netloc` of urllib.parse. -/
def uses_netloc : List Str :=
  [str "", str "ftp", str "http", str "gopher", str "nntp", str "telnet",
   str "imap", str "wais", str "file", str "mms", str "https", str "shttp",
   str "snews", str "prospero", str "rtsp", str "rtsps", str "rtspu",
   str "rsync", str "svn", str "svn+ssh", str "sftp", str "nfs", str "git",
   str "git+ssh", str "ws", str "wss"]

/-- Model of `_splitparams(p)`: split the params off the last path
segment (first `;` at or after the last `/`). -/
def splitParamsFn (p : Str) : Str × Str :=
  if containsChar '/' p then
    let b := (p.reverse.takeWhile (· ≠ '/')).reverse
    let a := p.take (p.length - b.length)
    if containsChar ';' b then
      (a ++ b.takeWhile (· ≠ ';'), (b.dropWhile (· ≠ ';')).drop 1)
    else (p, [])
  else
    if containsChar ';' p then
      (p.takeWhile (· ≠ ';'), (p.dropWhile (· ≠ ';')).drop 1)
    else (p, [])

/-- Model of `urlparse(url, scheme=deflt)`. -/
def urlparseD (deflt : Str) (u : Str) : ParseResult :=
  let s := urlsplitD deflt u
  if s.scheme ∈ uses_params ∧ containsChar ';' s.path then
    let pp := splitParamsFn s.path
    ⟨s.scheme, s.netloc, pp.1, pp.2, s.query, s.fragment⟩
  else ⟨s.scheme, s.netloc, s.path, [], s.query, s.fragment⟩

/-- Model of `urlparse(url)`. -/
def urlparse (u : Str) : ParseResult := urlparseD [] u

/-- Model of `urlunsplit((scheme, netloc, path, query, fragment))`
following CPython 3.11 (the netloc marker is re-added for schemes in
`uses_netloc`). -/
def urlunsplit (scheme netloc path query fragment : Str) : Str :=
  let url := path
  let url :=
    if netloc ≠ [] ∨ (scheme ≠ [] ∧ scheme ∈ uses_netloc ∧ url.take 2 ≠ str "//") then
      let url' := if url ≠ [] ∧ url.take 1 ≠ str "/" then '/' :: url else url
      str "//" ++ netloc ++ url'
    else url
  let url := if scheme ≠ [] then scheme ++ [':'] ++ url else url
  let url := if query ≠ [] then url ++ ['?'] ++ query else url
  if fragment ≠ [] then url ++ ['#'] ++ fragment else url

/-- Model of `urlunparse`: re-attaches params to the path, then unsplits. -/
def urlunparse (scheme netloc path params query fragment : Str) : Str :=
  let path := if params ≠ [] then path ++ [';'] ++ params else path
  urlunsplit scheme netloc path query fragment

/-- The `segments[1:-1] = filter(None, segments[1:-1])` step of
`urljoin`: empty segments are removed except in first and last position. -/
def filterMid (l : List Str) : List Str :=
  match l with
  | [] => []
  | [x] => [x]
  | x :: xs =>
      match xs.getLast? with
      | some lastSeg => x :: (xs.dropLast.filter (· ≠ ([] : Str)) ++ [lastSeg])
      | none => [x]

/-- Model of `urljoin(base, url)` following CPython 3.11. -/
def urljoin (base url : Str) : Str :=
  if base = [] then url
  else if url = [] then base
  else
    let b := urlparseD [] base
    let r := urlparseD b.scheme url
    if r.scheme ≠ b.scheme ∨ r.scheme ∉ uses_relative then url
    else if r.scheme ∈ uses_netloc ∧ r.netloc ≠ [] then
      urlunparse r.scheme r.netloc r.path r.params r.query r.fragment
    else
      let netloc := if r.scheme ∈ uses_netloc then b.netloc else r.netloc
      if r.path = [] ∧ r.params = [] then
        let query := if r.query = [] then b.query else r.query
        urlunparse r.scheme netloc b.path b.params query r.fragment
      else
        let baseParts := pySplitChar '/' b.path
        let baseParts :=
          if baseParts.getLast? ≠ some ([] : Str) then baseParts.dropLast
          else baseParts
        let segments :=
          if r.path.take 1 = str "/" then pySplitChar '/' r.path
          else filterMid (baseParts ++ pySplitChar '/' r.path)
        let resolved := segments.foldl
          (fun acc seg =>
            if seg = str ".." then acc.dropLast
            else if seg = str "." then acc
            else acc ++ [seg]) []
        let resolved :=
          if segments.getLast? = some (str ".") ∨ segments.getLast? = some (str "..")
          then resolved ++ [([] : Str)] else resolved
        let joined := List.intercalate (str "/") resolved
        let path := if joined = [] then str "/" else joined
        urlunparse r.scheme netloc path r.params r.query r.fragment

/-! ### URL normalization for deduplication -/

/-- The auth-like query keys dropped during normalization
(`AUTH_QUERY_KEYS` in merge.py). -/
def AUTH_QUERY_KEYS : List Str :=
  [str "token", str "auth", str "st", str "exp", str "sig",
   str "signature", str "access_token", str "expires"]

/-- Lexicographic (code-point) strict order on strings, as Python `<`. -/
def strLtB : Str → Str → Bool
  | [], [] => false
  | [], _ :: _ => true
  | _ :: _, [] => false
  | a :: xs, b :: ys =>
      if a.val < b.val then true
      else if b.val < a.val then false
      else strLtB xs ys

/-- Python tuple order on query pairs. -/
def pairLtB (x y : Str × Str) : Bool :=
  strLtB x.1 y.1 || (x.1 = y.1 && strLtB x.2 y.2)

/-- Stable insertion into a sorted list (insert after equal elements). -/
def insertSorted (x : Str × Str) : List (Str × Str) → List (Str × Str)
  | [] => [x]
  | y :: t => if pairLtB x y then x :: y :: t else y :: insertSorted x t

/-- Model of Python `list.sort()` on query pairs: a stable sort by the
tuple order, here as a sequential insertion sort (stable sorts for a fixed
total preorder agree, so this computes exactly what timsort returns). -/
def pySort (l : List (Str × Str)) : List (Str × Str) :=
  l.foldl (fun acc x => insertSorted x acc) []

/-- Model of `normalize_url_for_dedupe(url, base)` from merge.py. -/
def normalize_url_for_dedupe (url : Str) (base : Option Str) : Str :=
  let url := pyStrip url
  let url :=
    match base with
    | some b => if b ≠ [] ∧ (urlparse url).scheme = [] then urljoin b url else url
    | none => url
  let parsed := urlparse url
  let scheme := lowerStr parsed.scheme
  let netloc := lowerStr parsed.netloc
  let q := parse_qsl parsed.query
  let qf := q.filter fun kv => lowerStr kv.1 ∉ AUTH_QUERY_KEYS
  let qs := pySort qf
  let query := urlencodePairs qs
  let path := collapseSlashes parsed.path
  let nw := urlunparse scheme netloc path [] query []
  if nw.getLast? = some '/' ∧ nw.length > 1 then pyRStripChar '/' nw else nw

/-- Characters that survive the strip/clean steps of
`normalize_url_for_dedupe` unchanged and cannot trigger the params split:
not `;`, not Python whitespace, not a WHATWG C0-control-or-space byte. -/
def cleanChar (c : Char) : Bool :=
  (c != ';') && !(isPyWs c) && !(isC0OrSpace c)

/-- The rebuild-and-strip tail of `normalize_url_for_dedupe`: reassemble
the processed components with empty params and fragment, then strip
trailing slashes when the result ends in one and is longer than one
character. -/
def buildNorm (scheme netloc path query : Str) : Str :=
  let nw := urlunparse scheme netloc path [] query []
  if nw.getLast? = some '/' ∧ nw.length > 1 then pyRStripChar '/' nw else nw

/-! ### pathlib helpers and group names -/

/-- The components of `PurePosixPath(p)`: split on `/`, dropping empty and
`.` segments (sufficient for the `.name`/`.stem` accesses merge.py
makes). -/
def pathParts (p : Str) : List Str :=
  (pySplitChar '/' p).filter fun s => s ≠ [] ∧ s ≠ str "."

/-- Model of `PurePosixPath(p).name`: the last component, or empty. -/
def pathName (p : Str) : Str := ((pathParts p).getLast?).getD []

/-- The stem of a file name as computed by `PurePosixPath.stem`: the name
up to the last dot, unless that dot is in first or final position. -/
def stemOfName (name : Str) : Str :=
  if containsChar '.' name then
    let after := (name.reverse.takeWhile (· ≠ '.')).reverse
    let i := name.length - after.length - 1
    if 0 < i ∧ i < name.length - 1 then name.take i else name
  else name

/-- Model of `group_name_from_source(src)` from merge.py. -/
def group_name_from_source (src : Str) : Str :=
  let low := lowerStr src
  let last :=
    if pyStartsWith (str "http://") low ∨ pyStartsWith (str "https://") low then
      let u := urlparse src
      unquote (if pathName u.path ≠ [] then pathName u.path else u.netloc)
    else pathName src
  let name := stemOfName (pathName last)
  let name := pyStrip (subWsRuns (subUnderDash name))
  if name = [] then str "Playlist" else name

/-! ### The merge coordinator (the loop of `main`)

`main`'s I/O collaborators (reading sources.txt, HTTP fetching, file
writing, logging) are external to the core: a run is modelled over a list
of `SourceInput`s, each carrying the configured source id and the result
the fetch collaborator produced — `none` for a failed fetch, or the text
together with the optional base URL (`resp.url` for remote sources,
`None` for local files).  The global `seen` set is modelled as the
insertion-ordered list of its elements; membership is string equality
exactly as for a Python set of strings. -/

/-- One source of a merge run, with the outcome of its fetch. -/
structure SourceInput where
  src : Str
  fetched : Option (Str × Option Str)
deriving DecidableEq, Repr

/-- The user agent forced on every entry (`DEFAULT_USER_AGENT`). -/
def DEFAULT_USER_AGENT : Str :=
  str "Mozilla/5.0 (Windows NT 10.0; Win64; x64) AppleWebKit/537.36 (KHTML, like Gecko) Chrome/121.0.0.0 ygx/69.1 Safari/537.36"

/-- The mutable state of `main`'s loop: the accumulated output records,
the dedup seen-set (insertion ordered), and the per-source stats dict
(insertion ordered, as a Python dict). -/
structure MergeState where
  merged : List (Str × List Str × Str)
  seen : List Str
  stats : List (Str × Str)
deriving DecidableEq, Repr

/-- The state at the start of `main`. -/
def initState : MergeState := ⟨[], [], []⟩

/-- Python dict assignment `d[k] = v`: overwrite in place when the key
exists, else append. -/
def pyDictSet (k v : Str) (d : List (Str × Str)) : List (Str × Str) :=
  if d.any (fun p => p.1 = k) then
    d.map fun p => if p.1 = k then (k, v) else p
  else d ++ [(k, v)]

/-- The dedup key of one entry, as computed in `main`: the stripped
`tvg-id` of the group-rewritten EXTINF line when present and non-empty,
else the normalized reference URL. -/
def entryKey (grp : Str) (base : Option Str) (e : RawEntry) : Str :=
  let url := pyStrip e.url
  let normKey := normalize_url_for_dedupe url base
  let extinf2 := ensure_group_in_extinf e.extinf grp
  match get_tvg_id extinf2 with
  | some t => t
  | none => normKey

/-- The display title appended for bare references (entries without an
EXTINF line): the stem of the last path segment of the base-resolved URL,
with underscore/dash runs turned into spaces, stripped. -/
def bareDisplay (base : Option Str) (url : Str) : Str :=
  let joined := urljoin (base.getD []) url
  pyStrip (subUnderDash (stemOfName (pathName (urlparse joined).path)))

/-- The output record built for an accepted entry in `main`: the EXTINF
line with the group forced (and, for bare references, the derived display
title appended after stripping the trailing comma), the option lines with
the user agent forced, and the reference line as parsed. -/
def renderEntry (grp : Str) (base : Option Str) (e : RawEntry) :
    Str × List Str × Str :=
  let url := pyStrip e.url
  let extinf2 := ensure_group_in_extinf e.extinf grp
  let optsFinal := make_user_agent_option e.options (some DEFAULT_USER_AGENT)
  let extinf3 :=
    match e.extinf with
    | none =>
        let display := bareDisplay base url
        if display ≠ [] then pyRStripChar ',' extinf2 ++ display else extinf2
    | some _ => extinf2
  (extinf3, optsFinal, url)

/-- The body of `main`'s per-entry loop, threading the state and the
per-source `added` counter. -/
def processEntry (grp : Str) (base : Option Str) (st : MergeState × Nat)
    (e : RawEntry) : MergeState × Nat :=
  let url := pyStrip e.url
  if url = [] then st
  else
    let key := entryKey grp base e
    if key ∈ st.1.seen then st
    else
      ({ st.1 with
          seen := st.1.seen ++ [key],
          merged := st.1.merged ++ [renderEntry grp base e] },
       st.2 + 1)

/-- The body of `main`'s per-source loop: a failed fetch only records the
`fetch_failed` annotation; otherwise the source is parsed and every entry
run through the normalize/dedup pipeline, and the found/added counts are
recorded. -/
def processSource (st : MergeState) (s : SourceInput) : MergeState :=
  match s.fetched with
  | none => { st with stats := pyDictSet s.src (str "fetch_failed") st.stats }
  | some (content, base) =>
      let grp := group_name_from_source s.src
      let entries := parse_entries content
      let r := entries.foldl (processEntry grp base) (st, 0)
      let statVal := str "ok_found=" ++ natToStr entries.length ++
        str "_added=" ++ natToStr r.2
      { r.1 with stats := pyDictSet s.src statVal r.1.stats }

/-- The merge run of `main` over an ordered list of sources. -/
def runMerge (sources : List SourceInput) : MergeState :=
  sources.foldl processSource initState

/-! ## Declarative characterization of the dedup resolver

`firstByKey` is the declarative "first record per key wins" filter: a
keyed record survives exactly when its key is neither in the initial seen
set nor the key of any earlier surviving (equivalently: any earlier)
record.  The theorems below relate the stateful loop of `main` to this
filter. -/

/-- Keeps the first record of each key: a record is dropped when its key
was already seen (initially, or on an earlier kept record). -/
def firstByKey {α : Type} : List Str → List (Str × α) → List (Str × α)
  | _, [] => []
  | s, (k, a) :: t =>
      if k ∈ s then firstByKey s t else (k, a) :: firstByKey (k :: s) t

/-- The entries of one source that reach the dedup decision (non-blank
reference), each with its dedup key and its rendered output record. -/
def keyedValid (grp : Str) (base : Option Str) (es : List RawEntry) :
    List (Str × (Str × List Str × Str)) :=
  (es.filter fun e => pyStrip e.url ≠ []).map
    fun e => (entryKey grp base e, renderEntry grp base e)

/-- All keyed records of a run, flattened in processing order (source
order, then in-source entry order); failed sources contribute nothing. -/
def keyedRecords (sources : List SourceInput) : List (Str × (Str × List Str × Str)) :=
  sources.flatMap fun s =>
    match s.fetched with
    | none => []
    | some (content, base) =>
        keyedValid (group_name_from_source s.src) base (parse_entries content)

theorem firstByKey_congr {α : Type} (s₁ s₂ : List Str)
    (h : ∀ x, x ∈ s₁ ↔ x ∈ s₂) :
    ∀ l : List (Str × α), firstByKey s₁ l = firstByKey s₂ l := by
  intro l
  induction l generalizing s₁ s₂ with
  | nil => rfl
  | cons p t ih =>
      obtain ⟨k, a⟩ := p
      by_cases hk : k ∈ s₁
      · simp [firstByKey, hk, (h k).mp hk, ih s₁ s₂ h]
      · have hk2 : k ∉ s₂ := fun hx => hk ((h k).mpr hx)
        simp only [firstByKey, if_neg hk, if_neg hk2]
        have : ∀ x, x ∈ k :: s₁ ↔ x ∈ k :: s₂ := by
          intro x; simp [List.mem_cons, h x]
        rw [ih _ _ this]

theorem firstByKey_append {α : Type} (b : List (Str × α)) :
    ∀ (a : List (Str × α)) (s : List Str),
      firstByKey s (a ++ b) =
        firstByKey s a ++ firstByKey (a.map Prod.fst ++ s) b := by
  intro a
  induction a with
  | nil => intro s; simp [firstByKey]
  | cons p t ih =>
      intro s
      obtain ⟨k, x⟩ := p
      by_cases hk : k ∈ s
      · have hmem : ∀ y, y ∈ t.map Prod.fst ++ s ↔
            y ∈ (((k, x) :: t).map Prod.fst ++ s) := by
          intro y
          simp only [List.map_cons, List.mem_append, List.mem_cons]
          constructor
          · rintro (hy | hy)
            · exact Or.inl (Or.inr hy)
            · exact Or.inr hy
          · rintro (hy | hy)
            · rcases hy with hy | hy
              · exact Or.inr (hy ▸ hk)
              · exact Or.inl hy
            · exact Or.inr hy
        calc firstByKey s (((k, x) :: t) ++ b) = firstByKey s (t ++ b) := by
              simp [firstByKey, hk]
          _ = firstByKey s t ++ firstByKey (t.map Prod.fst ++ s) b := ih s
          _ = firstByKey s ((k, x) :: t) ++
                firstByKey (((k, x) :: t).map Prod.fst ++ s) b := by
              rw [firstByKey_congr _ _ hmem b]
              simp [firstByKey, hk]
      · have hmem : ∀ y, y ∈ t.map Prod.fst ++ k :: s ↔
            y ∈ (((k, x) :: t).map Prod.fst ++ s) := by
          intro y
          simp only [List.map_cons, List.mem_append, List.mem_cons]
          tauto
        calc firstByKey s (((k, x) :: t) ++ b)
            = (k, x) :: firstByKey (k :: s) (t ++ b) := by
              simp [firstByKey, hk]
          _ = (k, x) :: (firstByKey (k :: s) t ++
                firstByKey (t.map Prod.fst ++ k :: s) b) := by rw [ih (k :: s)]
          _ = firstByKey s ((k, x) :: t) ++
                firstByKey (((k, x) :: t).map Prod.fst ++ s) b := by
              rw [firstByKey_congr _ _ hmem b]
              simp [firstByKey, hk]

theorem entries_foldl_spec (grp : Str) (base : Option Str) :
    ∀ (es : List RawEntry) (m : List (Str × List Str × Str)) (S : List Str)
      (t : List (Str × Str)) (n : Nat) (s : List Str),
      (∀ x, x ∈ S ↔ x ∈ s) →
      es.foldl (processEntry grp base) (⟨m, S, t⟩, n) =
        (⟨m ++ (firstByKey s (keyedValid grp base es)).map Prod.snd,
          S ++ (firstByKey s (keyedValid grp base es)).map Prod.fst, t⟩,
         n + (firstByKey s (keyedValid grp base es)).length) := by
  intro es
  induction es with
  | nil => intro m S t n s _; simp [keyedValid, firstByKey]
  | cons e es ih =>
      intro m S t n s hS
      by_cases hurl : pyStrip e.url = []
      · have hstep : processEntry grp base (⟨m, S, t⟩, n) e = (⟨m, S, t⟩, n) := by
          simp [processEntry, hurl]
        have hkv : keyedValid grp base (e :: es) = keyedValid grp base es := by
          simp [keyedValid, hurl]
        simpa [hstep, hkv] using ih m S t n s hS
      · have hkv : keyedValid grp base (e :: es) =
            (entryKey grp base e, renderEntry grp base e) :: keyedValid grp base es := by
          simp [keyedValid, hurl]
        by_cases hseen : entryKey grp base e ∈ S
        · have hstep : processEntry grp base (⟨m, S, t⟩, n) e = (⟨m, S, t⟩, n) := by
            simp [processEntry, hurl, hseen]
          have hs' : entryKey grp base e ∈ s := (hS _).mp hseen
          simp only [List.foldl_cons, hstep, hkv, firstByKey, if_pos hs']
          exact ih m S t n s hS
        · have hstep : processEntry grp base (⟨m, S, t⟩, n) e =
              (⟨m ++ [renderEntry grp base e], S ++ [entryKey grp base e], t⟩, n + 1) := by
            simp [processEntry, hurl, hseen]
          have hs' : entryKey grp base e ∉ s := fun hx => hseen ((hS _).mpr hx)
          have hS' : ∀ x, x ∈ S ++ [entryKey grp base e] ↔ x ∈ entryKey grp base e :: s := by
            intro x
            simp only [List.mem_append, List.mem_singleton, List.mem_cons, hS x]
            tauto
          simp only [List.foldl_cons, hstep, hkv, firstByKey, if_neg hs']
          rw [ih _ _ _ _ _ hS']
          simp [List.append_assoc]
          omega

/-- Per-source step, declaratively: a failed source touches only the
stats dict; a fetched source appends the first-per-key survivors of its
valid entries (relative to any seen set with the same members). -/
theorem processSource_spec (st : MergeState) (src : SourceInput) (s : List Str)
    (hS : ∀ x, x ∈ st.seen ↔ x ∈ s) :
    (processSource st src).merged =
      st.merged ++ (firstByKey s (keyedRecords [src])).map Prod.snd ∧
    (processSource st src).seen =
      st.seen ++ (firstByKey s (keyedRecords [src])).map Prod.fst := by
  obtain ⟨m, S, t⟩ := st
  match hf : src.fetched with
  | none =>
      simp [processSource, hf, keyedRecords, firstByKey]
  | some (content, base) =>
      have := entries_foldl_spec (group_name_from_source src.src) base
        (parse_entries content) m S t 0 s hS
      simp [processSource, hf, keyedRecords, this]

theorem keys_of_firstByKey {α : Type} {x : Str} :
    ∀ {s : List Str} {l : List (Str × α)},
      x ∈ (firstByKey s l).map Prod.fst → x ∈ l.map Prod.fst := by
  intro s l
  induction l generalizing s with
  | nil => simp [firstByKey]
  | cons p t ih =>
      obtain ⟨k, a⟩ := p
      by_cases hk : k ∈ s
      · intro hx
        simp only [firstByKey, if_pos hk] at hx
        simp only [List.map_cons, List.mem_cons]
        exact Or.inr (ih hx)
      · intro hx
        simp only [firstByKey, if_neg hk, List.map_cons, List.mem_cons] at hx
        simp only [List.map_cons, List.mem_cons]
        rcases hx with hx | hx
        · exact Or.inl hx
        · exact Or.inr (ih hx)

theorem mem_keys_firstByKey {α : Type} {x : Str} :
    ∀ {s : List Str} {l : List (Str × α)},
      x ∈ l.map Prod.fst → x ∉ s → x ∈ (firstByKey s l).map Prod.fst := by
  intro s l
  induction l generalizing s with
  | nil => intro hx _; simp at hx
  | cons p t ih =>
      obtain ⟨k, a⟩ := p
      intro hx hs
      simp only [List.map_cons, List.mem_cons] at hx
      by_cases hk : k ∈ s
      · simp only [firstByKey, if_pos hk]
        rcases hx with hx | hx
        · exact absurd (hx ▸ hk) hs
        · exact ih hx hs
      · simp only [firstByKey, if_neg hk, List.map_cons, List.mem_cons]
        rcases hx with hx | hx
        · exact Or.inl hx
        · by_cases hxk : x = k
          · exact Or.inl hxk
          · refine Or.inr (ih hx ?_)
            simp only [List.mem_cons]
            rintro (h | h)
            · exact hxk h
            · exact hs h

/-- The merge run, declaratively: starting from a state whose seen set
has the same members as `s`, the run appends exactly the first-per-key
survivors of all keyed records, and records their keys in order. -/
theorem runMerge_fold_spec :
    ∀ (sources : List SourceInput) (st : MergeState) (s : List Str),
      (∀ x, x ∈ st.seen ↔ x ∈ s) →
      (sources.foldl processSource st).merged =
        st.merged ++ (firstByKey s (keyedRecords sources)).map Prod.snd ∧
      (sources.foldl processSource st).seen =
        st.seen ++ (firstByKey s (keyedRecords sources)).map Prod.fst := by
  intro sources
  induction sources with
  | nil => intro st s _; simp [keyedRecords, firstByKey]
  | cons src rest ih =>
      intro st s hS
      have hsplit : keyedRecords (src :: rest) =
          keyedRecords [src] ++ keyedRecords rest := by
        simp [keyedRecords]
      have hstep := processSource_spec st src s hS
      have hS' : ∀ x, x ∈ (processSource st src).seen ↔
          x ∈ (keyedRecords [src]).map Prod.fst ++ s := by
        intro x
        rw [hstep.2]
        simp only [List.mem_append, hS x]
        constructor
        · rintro (hx | hx)
          · exact Or.inr hx
          · exact Or.inl (keys_of_firstByKey hx)
        · rintro (hx | hx)
          · by_cases hxs : x ∈ s
            · exact Or.inl hxs
            · exact Or.inr (mem_keys_firstByKey hx hxs)
          · exact Or.inl hx
      have hrest := ih (processSource st src) ((keyedRecords [src]).map Prod.fst ++ s) hS'
      constructor
      · rw [List.foldl_cons, hrest.1, hstep.1, hsplit, firstByKey_append]
        simp [List.append_assoc]
      · rw [List.foldl_cons, hrest.2, hstep.2, hsplit, firstByKey_append]
        simp [List.append_assoc]

theorem runMerge_spec (sources : List SourceInput) :
    (runMerge sources).merged =
      (firstByKey [] (keyedRecords sources)).map Prod.snd ∧
    (runMerge sources).seen =
      (firstByKey [] (keyedRecords sources)).map Prod.fst := by
  have h := runMerge_fold_spec sources initState []
    (by intro x; simp [initState])
  simpa [runMerge, initState] using h

/-- C1: over a fixed ordered list of sources, the merged output keeps
exactly the first record of each identity key in overall processing order
(source order, then in-source entry order): every later record whose key
is equal to an earlier one's is rejected, and the seen set is updated
exactly on accept — it equals the ordered list of the accepted records'
keys. -/
theorem C1_dedup_totality (sources : List SourceInput) :
    (runMerge sources).merged =
      (firstByKey [] (keyedRecords sources)).map Prod.snd ∧
    (runMerge sources).seen =
      (firstByKey [] (keyedRecords sources)).map Prod.fst :=
  runMerge_spec sources

/-! ## Failed sources (claim C9) -/

theorem pyDictSet_mem_self (k v : Str) (d : List (Str × Str)) :
    (k, v) ∈ pyDictSet k v d := by
  unfold pyDictSet
  by_cases h : d.any (fun p => p.1 = k)
  · simp only [if_pos h]
    rcases List.any_eq_true.mp h with ⟨p, hp, hpk⟩
    refine List.mem_map.mpr ⟨p, hp, ?_⟩
    simp [of_decide_eq_true hpk]
  · simp [if_neg h]

theorem pyDictSet_mem_of_ne (k w src v : Str) (d : List (Str × Str))
    (hne : k ≠ src) (hmem : (src, v) ∈ d) : (src, v) ∈ pyDictSet k w d := by
  unfold pyDictSet
  by_cases h : d.any (fun p => p.1 = k)
  · simp only [if_pos h]
    refine List.mem_map.mpr ⟨(src, v), hmem, ?_⟩
    rw [if_neg (fun hh : (src, v).1 = k => hne hh.symm)]
  · simp only [if_neg h, List.mem_append]
    exact Or.inl hmem

theorem stats_mem_preserved (src v : Str) :
    ∀ (sources : List SourceInput) (st : MergeState),
      (src, v) ∈ st.stats → src ∉ sources.map SourceInput.src →
      (src, v) ∈ (sources.foldl processSource st).stats := by
  intro sources
  induction sources with
  | nil => intro st h _; exact h
  | cons s rest ih =>
      intro st h hni
      simp only [List.map_cons, List.mem_cons] at hni
      push_neg at hni
      refine ih _ ?_ hni.2
      have hne : s.src ≠ src := fun hh => hni.1 hh.symm
      match hf : s.fetched with
      | none => simpa [processSource, hf] using pyDictSet_mem_of_ne _ _ _ _ _ hne h
      | some (content, base) =>
          have hst : (src, v) ∈
              ((parse_entries content).foldl
                (processEntry (group_name_from_source s.src) base) (st, 0)).1.stats := by
            have := entries_foldl_spec (group_name_from_source s.src) base
              (parse_entries content) st.merged st.seen st.stats 0 st.seen
              (by intro x; rfl)
            rw [this]
            exact h
          simpa [processSource, hf] using pyDictSet_mem_of_ne _ _ _ _ _ hne hst

/-- C9: a source whose fetch failed contributes no records and leaves the
seen set untouched — the merged output of the whole run equals the output
of the run with that source removed, so all subsequent sources are still
processed and merged normally — and its per-source annotation is the
failure marker `fetch_failed` (provided no later source reuses the same
source id, which would overwrite the dict entry). -/
theorem C9_failed_source (pre post : List SourceInput) (srcId : Str)
    (h : srcId ∉ post.map SourceInput.src) :
    (runMerge (pre ++ ⟨srcId, none⟩ :: post)).merged =
      (runMerge (pre ++ post)).merged ∧
    (runMerge (pre ++ ⟨srcId, none⟩ :: post)).seen =
      (runMerge (pre ++ post)).seen ∧
    (srcId, str "fetch_failed") ∈ (runMerge (pre ++ ⟨srcId, none⟩ :: post)).stats := by
  have hkeyed : keyedRecords (pre ++ ⟨srcId, none⟩ :: post) =
      keyedRecords (pre ++ post) := by
    simp [keyedRecords]
  refine ⟨?_, ?_, ?_⟩
  · rw [(runMerge_spec _).1, (runMerge_spec _).1, hkeyed]
  · rw [(runMerge_spec _).2, (runMerge_spec _).2, hkeyed]
  · have hsplit : pre ++ ⟨srcId, none⟩ :: post =
        (pre ++ [⟨srcId, none⟩]) ++ post := by simp
    rw [runMerge, hsplit, List.foldl_append]
    refine stats_mem_preserved _ _ post _ ?_ h
    rw [List.foldl_append]
    simp only [List.foldl_cons, List.foldl_nil]
    have : processSource (pre.foldl processSource initState) ⟨srcId, none⟩ =
        { pre.foldl processSource initState with
            stats := pyDictSet srcId (str "fetch_failed")
              (pre.foldl processSource initState).stats } := by
      simp [processSource]
    rw [this]
    exact pyDictSet_mem_self _ _ _

theorem C9_failed_source_witness :
    (str "bad.m3u" ∉
      ([⟨str "b.m3u", some (str "http://x/2", none)⟩] : List SourceInput).map
        SourceInput.src) ∧
    ((runMerge ([⟨str "a.m3u", some (str "http://x/1", none)⟩] ++
        ⟨str "bad.m3u", none⟩ :: [⟨str "b.m3u", some (str "http://x/2", none)⟩])).merged =
      (runMerge ([⟨str "a.m3u", some (str "http://x/1", none)⟩] ++
        [⟨str "b.m3u", some (str "http://x/2", none)⟩])).merged ∧
     (runMerge ([⟨str "a.m3u", some (str "http://x/1", none)⟩] ++
        ⟨str "bad.m3u", none⟩ :: [⟨str "b.m3u", some (str "http://x/2", none)⟩])).seen =
      (runMerge ([⟨str "a.m3u", some (str "http://x/1", none)⟩] ++
        [⟨str "b.m3u", some (str "http://x/2", none)⟩])).seen ∧
     (str "bad.m3u", str "fetch_failed") ∈
      (runMerge ([⟨str "a.m3u", some (str "http://x/1", none)⟩] ++
        ⟨str "bad.m3u", none⟩ :: [⟨str "b.m3u", some (str "http://x/2", none)⟩])).stats) :=
  ⟨by decide, C9_failed_source _ _ _ (by decide)⟩

/-! ## User-agent injection (claim C7) -/

theorem ua_step_foldl (ua : Str) :
    ∀ (opts acc : List Str) (flag : Bool),
      opts.foldl
        (fun (acc : List Str × Bool) (opt : Str) =>
          match extvlcoptMatch opt with
          | some content =>
              if uaKeySearch content then
                (acc.1 ++ [str "#EXTVLCOPT:http-user-agent=" ++ ua], true)
              else (acc.1 ++ [opt], acc.2)
          | none => (acc.1 ++ [opt], acc.2)) (acc, flag) =
      (acc ++ opts.map
        (fun o => if isUaOpt o then str "#EXTVLCOPT:http-user-agent=" ++ ua else o),
       flag || opts.any isUaOpt) := by
  intro opts
  induction opts with
  | nil => intro acc flag; simp
  | cons o t ih =>
      intro acc flag
      match hm : extvlcoptMatch o with
      | some content =>
          by_cases hua : uaKeySearch content
          · simp only [List.foldl_cons, hm, if_pos hua, ih, List.map_cons,
              List.any_cons, isUaOpt, hm, hua]
            simp [List.append_assoc]
          · simp only [List.foldl_cons, hm, if_neg hua, ih, List.map_cons,
              List.any_cons, isUaOpt, hm]
            simp [List.append_assoc, hua]
      | none =>
          simp only [List.foldl_cons, hm, ih, List.map_cons,
            List.any_cons, isUaOpt, hm]
          simp [List.append_assoc]

/-- C7 (amended): with user-agent injection enabled, every auxiliary line
matching the user-agent option key is replaced in place by the configured
directive — so the output carries as many copies of the directive as
there were matching lines, which is one only when the input had at most
one — and when no line matches, the directive is inserted at the front;
all other auxiliary lines keep their relative order. -/
theorem C7_ua_replacement (opts : List Str) (ua : Str) :
    make_user_agent_option opts (some ua) =
      if opts.any isUaOpt then
        opts.map fun o =>
          if isUaOpt o then str "#EXTVLCOPT:http-user-agent=" ++ ua else o
      else (str "#EXTVLCOPT:http-user-agent=" ++ ua) :: opts := by
  simp only [make_user_agent_option]
  rw [ua_step_foldl ua opts [] false]
  simp only [Bool.false_or, List.nil_append]
  by_cases hany : opts.any isUaOpt
  · simp [hany]
  · have hall : ∀ o ∈ opts, isUaOpt o = false := by
      intro o ho
      cases h' : isUaOpt o
      · rfl
      · exact absurd (List.any_eq_true.mpr ⟨o, ho, h'⟩) hany
    have hmap : ∀ (l : List Str), (∀ o ∈ l, isUaOpt o = false) →
        (l.map fun o =>
          if isUaOpt o then str "#EXTVLCOPT:http-user-agent=" ++ ua else o) = l := by
      intro l
      induction l with
      | nil => intro _; rfl
      | cons o t iht =>
          intro hl
          have h1 := hl o (List.mem_cons_self o t)
          simp [h1, iht fun x hx => hl x (List.mem_cons_of_mem _ hx)]
    simp [hany, hmap opts hall]

/-! ## String-level helper lemmas -/

theorem dropWhile_eq_self_of_forall {p : Char → Bool} :
    ∀ {l : Str}, (∀ x ∈ l, p x = false) → l.dropWhile p = l := by
  intro l h
  cases l with
  | nil => rfl
  | cons a t => simp [List.dropWhile_cons, h a (List.mem_cons_self a t)]

theorem list_map_id_of {α : Type} (f : α → α) :
    ∀ l : List α, (∀ x ∈ l, f x = x) → l.map f = l := by
  intro l
  induction l with
  | nil => intro _; rfl
  | cons a t ih =>
      intro h
      simp only [List.map_cons, h a (List.mem_cons_self a t), List.cons.injEq, true_and]
      exact ih fun x hx => h x (List.mem_cons_of_mem _ hx)

theorem pyRStripChar_eq_self {c : Char} {l : Str} (h : c ∉ l) :
    pyRStripChar c l = l := by
  unfold pyRStripChar
  rw [dropWhile_eq_self_of_forall, List.reverse_reverse]
  intro x hx
  have hxl : x ∈ l := List.mem_reverse.mp hx
  by_cases e : x = c
  · exact absurd (e ▸ hxl) h
  · simp [e]

theorem pyLStrip_head (s : Str) :
    pyLStrip s = [] ∨ ∃ c t, pyLStrip s = c :: t ∧ isPyWs c = false := by
  induction s with
  | nil => left; rfl
  | cons a t ih =>
      by_cases h : isPyWs a
      · simpa [pyLStrip, List.dropWhile_cons, h] using ih
      · right
        refine ⟨a, t, ?_, by simp [h]⟩
        simp [pyLStrip, List.dropWhile_cons, h]

theorem pyRStrip_cons {c : Char} (t : Str) (h : isPyWs c = false) :
    ∃ t', pyRStrip (c :: t) = c :: t' := by
  unfold pyRStrip
  rw [show (c :: t).reverse = t.reverse ++ [c] by simp]
  rw [List.dropWhile_append]
  by_cases he : (t.reverse.dropWhile isPyWs).isEmpty
  · rw [if_pos he]
    exact ⟨[], by simp [List.dropWhile_cons, h]⟩
  · rw [if_neg he]
    exact ⟨(t.reverse.dropWhile isPyWs).reverse, by simp⟩

theorem pyStrip_head (s : Str) :
    pyStrip s = [] ∨ ∃ c t, pyStrip s = c :: t ∧ isPyWs c = false := by
  unfold pyStrip
  rcases pyLStrip_head s with h | ⟨c, t, heq, hns⟩
  · left; rw [h]; rfl
  · rw [heq]
    rcases pyRStrip_cons t hns with ⟨t', ht'⟩
    right; exact ⟨c, t', ht', hns⟩

theorem pyStrip_dropWhile (s : Str) :
    (pyStrip s).dropWhile isPyWs = pyStrip s := by
  rcases pyStrip_head s with h | ⟨c, t, heq, hns⟩
  · rw [h]; rfl
  · rw [heq]; simp [List.dropWhile_cons, hns]

theorem startsWith_hash_ne_nil {s : Str} (h : pyStartsWith (str "#") s = true) :
    s ≠ [] := by
  cases s with
  | nil => simp [pyStartsWith, str, List.isPrefixOf] at h
  | cons a t => exact fun hc => absurd hc (by simp)

theorem startsWith_hash_iff {s : Str} :
    pyStartsWith (str "#") s = true ↔ ∃ t, s = '#' :: t := by
  constructor
  · intro h
    cases s with
    | nil => simp [pyStartsWith, str, List.isPrefixOf] at h
    | cons a t =>
        refine ⟨t, ?_⟩
        have : ('#' == a) = true := by
          simpa [pyStartsWith, str, List.isPrefixOf] using h
        rw [show a = '#' from (eq_of_beq this).symm]
  · rintro ⟨t, rfl⟩
    simp [pyStartsWith, str, List.isPrefixOf]

theorem toLower_eq_of_small {c d : Char} (hd : d.toNat < 97)
    (h : c.toLower = d) : c = d := by
  unfold Char.toLower at h
  by_cases hc : c.toNat ≥ 65 ∧ c.toNat ≤ 90
  · rw [if_pos hc] at h
    have hv : (c.toNat + 32).isValidChar := by
      left; omega
    have h2 : (Char.ofNat (c.toNat + 32)).toNat = c.toNat + 32 := by
      unfold Char.ofNat; rw [dif_pos hv]; rfl
    rw [h] at h2
    omega
  · rwa [if_neg hc] at h

theorem extvlcoptMatch_none_of_no_hash {s : Str}
    (hd : s.dropWhile isPyWs = s) (h : pyStartsWith (str "#") s = false) :
    extvlcoptMatch s = none := by
  unfold extvlcoptMatch
  rw [hd]
  cases s with
  | nil => rfl
  | cons a t =>
      have ha : a ≠ '#' := by
        intro e
        rw [e] at h
        rw [startsWith_hash_iff.mpr ⟨t, rfl⟩] at h
        simp at h
      have hci : ciIsPrefix (str "#extvlcopt") (a :: t) = false := by
        unfold ciIsPrefix lowerStr
        rw [show (str "#extvlcopt").map Char.toLower = '#' :: str "extvlcopt" by decide]
        simp only [List.map_cons, List.isPrefixOf]
        cases hab : ('#' == Char.toLower a) with
        | false => simp
        | true =>
            have : Char.toLower a = '#' := (eq_of_beq hab).symm
            exact absurd (toLower_eq_of_small (by decide) this) ha
      simp [hci]

/-! ## The splitlines model on break-free lines -/

theorem splitlinesGo_nonbreak (acc : Str) (c : Char) (rest : Str)
    (h : isLineBreak c = false) :
    splitlinesGo acc (c :: rest) = splitlinesGo (c :: acc) rest := by
  rw [splitlinesGo.eq_def]
  split
  · next heq => simp at heq
  · next r2 heq =>
      exfalso
      cases heq
      simp [isLineBreak] at h
  · next c' rest' _ heq =>
      cases heq
      simp [h]

theorem splitlinesGo_newline (acc rest : Str) :
    splitlinesGo acc ('\n' :: rest) = acc.reverse :: splitlinesGo [] rest := by
  rw [splitlinesGo.eq_def]
  split
  · next heq => simp at heq
  · next r2 heq => simp at heq
  · next c' rest' _ heq =>
      cases heq
      simp [isLineBreak]

theorem splitlinesGo_chunk (l : Str) :
    ∀ (acc s : Str), (∀ c ∈ l, isLineBreak c = false) →
      splitlinesGo acc (l ++ s) = splitlinesGo (l.reverse ++ acc) s := by
  induction l with
  | nil => intro acc s _; simp
  | cons c t ih =>
      intro acc s h
      rw [List.cons_append, splitlinesGo_nonbreak _ _ _ (h c (List.mem_cons_self c t))]
      rw [ih (c :: acc) s fun x hx => h x (List.mem_cons_of_mem _ hx)]
      simp

theorem pySplitlines_join :
    ∀ ls : List Str, (∀ l ∈ ls, ∀ c ∈ l, isLineBreak c = false) →
      ls.getLast? ≠ some ([] : Str) →
      pySplitlines (List.intercalate (str "\n") ls) = ls := by
  intro ls
  induction ls with
  | nil => intro _ _; rfl
  | cons x t ih =>
      intro hnb hlast
      cases t with
      | nil =>
          have hx : x ≠ [] := by
            intro e
            exact hlast (by rw [e]; rfl)
          unfold pySplitlines
          rw [show List.intercalate (str "\n") [x] = x by simp [List.intercalate]]
          rw [show (x : Str) = x ++ [] by simp]
          rw [splitlinesGo_chunk x [] [] (hnb x (List.mem_cons_self x []))]
          simp [splitlinesGo, hx]
      | cons y t2 =>
          have hint : List.intercalate (str "\n") (x :: y :: t2) =
              x ++ '\n' :: List.intercalate (str "\n") (y :: t2) := by
            simp [List.intercalate, List.intersperse, str]
          unfold pySplitlines
          rw [hint, splitlinesGo_chunk x [] _ (hnb x (List.mem_cons_self x _)),
            List.append_nil, splitlinesGo_newline, List.reverse_reverse]
          have := ih (fun l hl => hnb l (List.mem_cons_of_mem _ hl))
            (by simpa using hlast)
          unfold pySplitlines at this
          rw [this]

/-! ## The record parser on metadata runs (claim C5) -/

theorem parseGo_nil (f : Nat) : parseGo f [] = [] := by
  cases f <;> rfl

theorem scanUrlGo_skip :
    ∀ (ms : List Str) (opts : List Str) (u : Str),
      (∀ x ∈ ms, pyStartsWith (str "#") (pyStrip x) = true ∧
        extvlcoptMatch (pyStrip x) = none ∧ ('\n' : Char) ∉ x) →
      pyStrip u ≠ [] → pyStartsWith (str "#") (pyStrip u) = false →
      ('\n' : Char) ∉ u →
      scanUrlGo opts (ms ++ [u]) = some (opts, pyStrip u, []) := by
  intro ms
  induction ms with
  | nil =>
      intro opts u _ hu1 hu2 hu3
      have hstrip : pyStrip (pyRStripChar '\n' u) = pyStrip u := by
        rw [pyRStripChar_eq_self hu3]
      have hvl : extvlcoptMatch (pyStrip u) = none :=
        extvlcoptMatch_none_of_no_hash (pyStrip_dropWhile u) hu2
      simp [scanUrlGo, hstrip, hu1, hvl, hu2]
  | cons x ms ih =>
      intro opts u hms hu1 hu2 hu3
      obtain ⟨hx2, hx3, hx4⟩ := hms x (List.mem_cons_self x ms)
      have hx1 : pyStrip x ≠ [] := startsWith_hash_ne_nil hx2
      have hstrip : pyStrip (pyRStripChar '\n' x) = pyStrip x := by
        rw [pyRStripChar_eq_self hx4]
      rw [List.cons_append]
      simp only [scanUrlGo, hstrip, hx1, if_neg hx1, hx3, hx2, if_pos hx2]
      exact ih opts u (fun y hy => hms y (List.mem_cons_of_mem _ hy)) hu1 hu2 hu3

/-- C5 (amended): when several consecutive metadata lines are followed by
one reference line, the parser attaches the EARLIEST metadata line (the
one that opened the record) to that reference; the later metadata lines
encountered before the reference are skipped as plain comments and
dropped without emitting a record. -/
theorem C5_earliest_metadata_wins (m : Str) (ms : List Str) (u : Str)
    (hm1 : extinfMatch (pyStrip m) = true)
    (hm2 : pyStartsWith (str "#") (pyStrip m) = true)
    (hms : ∀ x ∈ ms, extinfMatch (pyStrip x) = true ∧
      pyStartsWith (str "#") (pyStrip x) = true ∧
      extvlcoptMatch (pyStrip x) = none)
    (hu1 : pyStrip u ≠ []) (hu2 : pyStartsWith (str "#") (pyStrip u) = false)
    (hnb : ∀ l ∈ m :: ms ++ [u], ∀ c ∈ l, isLineBreak c = false) :
    parse_entries (List.intercalate (str "\n") (m :: ms ++ [u])) =
      [⟨some (pyStrip m), [], pyStrip u⟩] := by
  have hu0 : u ≠ [] := by
    intro e
    exact hu1 (by rw [e]; rfl)
  have hlines : pySplitlines (List.intercalate (str "\n") (m :: ms ++ [u])) =
      m :: ms ++ [u] := by
    refine pySplitlines_join _ hnb ?_
    rw [show m :: ms ++ [u] = (m :: ms) ++ [u] by simp, List.getLast?_concat]
    simp [hu0]
  have hnonl : ∀ l ∈ m :: ms ++ [u], ('\n' : Char) ∉ l := by
    intro l hl hc
    have := hnb l hl '\n' hc
    simp [isLineBreak] at this
  have hmap : (pySplitlines (List.intercalate (str "\n") (m :: ms ++ [u]))).map
      (pyRStripChar '\n') = m :: ms ++ [u] := by
    rw [hlines]
    exact list_map_id_of _ _ fun l hl => pyRStripChar_eq_self (hnonl l hl)
  have hscan : scanUrlGo [] (ms ++ [u]) = some ([], pyStrip u, []) := by
    refine scanUrlGo_skip ms [] u ?_ hu1 hu2
      (hnonl u (by simp))
    intro x hx
    obtain ⟨_, h2, h3⟩ := hms x hx
    exact ⟨h2, h3, hnonl x (by simp [hx])⟩
  have hm0 : pyStrip m ≠ [] := startsWith_hash_ne_nil hm2
  have hpe : parse_entries (List.intercalate (str "\n") (m :: ms ++ [u])) =
      parseGo ((m :: ms ++ [u]).length + 1) (m :: ms ++ [u]) := by
    unfold parse_entries
    rw [hmap]
  rw [hpe, show (m :: ms ++ [u]).length = ms.length + 2 by simp]
  show parseGo (ms.length + 2 + 1) (m :: (ms ++ [u])) = _
  simp only [parseGo, hm0, if_neg hm0, hm2, if_pos hm2, hm1, if_pos hm1, hscan]
  simp

theorem C5_earliest_metadata_wins_witness :
    (extinfMatch (pyStrip (str "#EXTINF:-1,A")) = true ∧
     pyStartsWith (str "#") (pyStrip (str "#EXTINF:-1,A")) = true ∧
     (∀ x ∈ [str "#EXTINF:-1,B"], extinfMatch (pyStrip x) = true ∧
       pyStartsWith (str "#") (pyStrip x) = true ∧
       extvlcoptMatch (pyStrip x) = none) ∧
     pyStrip (str "http://x/1") ≠ [] ∧
     pyStartsWith (str "#") (pyStrip (str "http://x/1")) = false ∧
     (∀ l ∈ str "#EXTINF:-1,A" :: [str "#EXTINF:-1,B"] ++ [str "http://x/1"],
       ∀ c ∈ l, isLineBreak c = false)) ∧
    parse_entries (List.intercalate (str "\n")
        (str "#EXTINF:-1,A" :: [str "#EXTINF:-1,B"] ++ [str "http://x/1"])) =
      [⟨some (pyStrip (str "#EXTINF:-1,A")), [], pyStrip (str "http://x/1")⟩] :=
  ⟨⟨by decide, by decide, by decide, by decide, by decide, by decide⟩,
   C5_earliest_metadata_wins _ _ _ (by decide) (by decide) (by decide)
     (by decide) (by decide) (by decide)⟩

/-- C5 (counterexample): with two consecutive metadata lines before a
reference, the parser attaches the FIRST line (title A), not the most
recent one (title B), so the claim that the most recent metadata line
attaches is false. -/
theorem C5_counterexample :
    parse_entries (str "#EXTINF:-1,A\n#EXTINF:-1,B\nhttp://x/1") =
      [⟨some (str "#EXTINF:-1,A"), [], str "http://x/1"⟩] ∧
    str "#EXTINF:-1,A" ≠ str "#EXTINF:-1,B" := by decide

/-! ## The emitted reference is never rewritten (claim C4) -/

theorem mem_of_mem_firstByKey {α : Type} {x : Str × α} :
    ∀ {s : List Str} {l : List (Str × α)}, x ∈ firstByKey s l → x ∈ l := by
  intro s l
  induction l generalizing s with
  | nil => intro h; simp [firstByKey] at h
  | cons p t ih =>
      intro h
      obtain ⟨k, a⟩ := p
      by_cases hk : k ∈ s
      · simp only [firstByKey, if_pos hk] at h
        exact List.mem_cons_of_mem _ (ih h)
      · simp only [firstByKey, if_neg hk, List.mem_cons] at h
        rcases h with h | h
        · exact h ▸ List.mem_cons_self _ _
        · exact List.mem_cons_of_mem _ (ih h)

/-- C4 (amended): the reference line emitted into the merged output is
always the parsed entry's reference (whitespace-stripped), never the
base-resolved absolute form; base+relative resolution enters only the
dedup key (for records without an identifier attribute, the key is
`normalize_url_for_dedupe` of the reference with the source's base). -/
theorem C4_reference_not_rewritten (sources : List SourceInput)
    (r : Str × List Str × Str) (hr : r ∈ (runMerge sources).merged) :
    ∃ s ∈ sources, ∃ content base e,
      s.fetched = some (content, base) ∧ e ∈ parse_entries content ∧
      r.2.2 = pyStrip e.url ∧
      (get_tvg_id (ensure_group_in_extinf e.extinf
          (group_name_from_source s.src)) = none →
        entryKey (group_name_from_source s.src) base e =
          normalize_url_for_dedupe (pyStrip e.url) base) := by
  rw [(runMerge_spec sources).1] at hr
  obtain ⟨kr, hkr, hsnd⟩ := List.mem_map.mp hr
  have hmem : kr ∈ keyedRecords sources := mem_of_mem_firstByKey hkr
  obtain ⟨s, hs, hin⟩ := List.mem_flatMap.mp hmem
  rcases hfetch : s.fetched with _ | ⟨content, base⟩
  · rw [hfetch] at hin
    simp at hin
  · rw [hfetch] at hin
    simp only [keyedValid, List.mem_map, List.mem_filter] at hin
    obtain ⟨e, ⟨he, hurl⟩, hkr2⟩ := hin
    refine ⟨s, hs, content, base, e, hfetch, he, ?_, ?_⟩
    · rw [← hsnd, ← hkr2]
      rfl
    · intro hid
      simp [entryKey, hid]

theorem C4_reference_not_rewritten_witness :
    ((str "#EXTINF:-1 group-title=\"src\",S",
      [str "#EXTVLCOPT:http-user-agent=" ++ DEFAULT_USER_AGENT],
      str "stream.ts") ∈
     (runMerge [⟨str "src.m3u", some (str "#EXTINF:-1,S\nstream.ts",
        some (str "http://cdn/live/index.m3u8"))⟩]).merged) ∧
    (∃ s ∈ [(⟨str "src.m3u", some (str "#EXTINF:-1,S\nstream.ts",
        some (str "http://cdn/live/index.m3u8"))⟩ : SourceInput)],
      ∃ content base e,
        s.fetched = some (content, base) ∧ e ∈ parse_entries content ∧
        (str "#EXTINF:-1 group-title=\"src\",S",
          [str "#EXTVLCOPT:http-user-agent=" ++ DEFAULT_USER_AGENT],
          str "stream.ts").2.2 = pyStrip e.url ∧
        (get_tvg_id (ensure_group_in_extinf e.extinf
            (group_name_from_source s.src)) = none →
          entryKey (group_name_from_source s.src) base e =
            normalize_url_for_dedupe (pyStrip e.url) base)) :=
  ⟨by decide,
   C4_reference_not_rewritten _ _ (by decide)⟩

/-- C4 (counterexample): with base locator http://cdn/live/index.m3u8 and
relative reference stream.ts, the emitted reference line stays
"stream.ts" — it is NOT rewritten to the absolute form — while the dedup
key (the seen set) records the resolved "http://cdn/live/stream.ts". -/
theorem C4_counterexample :
    ((runMerge [⟨str "src.m3u", some (str "#EXTINF:-1,S\nstream.ts",
        some (str "http://cdn/live/index.m3u8"))⟩]).merged.map
      fun r => r.2.2) = [str "stream.ts"] ∧
    (runMerge [⟨str "src.m3u", some (str "#EXTINF:-1,S\nstream.ts",
        some (str "http://cdn/live/index.m3u8"))⟩]).seen =
      [str "http://cdn/live/stream.ts"] ∧
    str "stream.ts" ≠ str "http://cdn/live/stream.ts" := by decide

/-! ## The normalized reference form (claim C6) -/

theorem dropWhile_head_prop (p : Char → Bool) (l : Str) :
    l.dropWhile p = [] ∨
      ∃ a t, l.dropWhile p = a :: t ∧ p a = false := by
  induction l with
  | nil => left; rfl
  | cons c t ih =>
      by_cases h : p c
      · simpa [List.dropWhile_cons, h] using ih
      · right
        exact ⟨c, t, by simp [List.dropWhile_cons, h], by simp [h]⟩

theorem pyRStripChar_getLast_ne (c : Char) (l : Str) :
    (pyRStripChar c l).getLast? ≠ some c := by
  unfold pyRStripChar
  rcases dropWhile_head_prop (· = c) l.reverse with h | ⟨a, t, heq, ha⟩
  · rw [h]
    simp
  · rw [heq, List.getLast?_reverse, List.head?_cons]
    intro e
    injection e with e2
    rw [e2] at ha
    simp at ha

theorem strip_result_slash (nw : Str) :
    (if nw.getLast? = some '/' ∧ nw.length > 1 then pyRStripChar '/' nw
     else nw).getLast? = some '/' →
    (if nw.getLast? = some '/' ∧ nw.length > 1 then pyRStripChar '/' nw
     else nw) = str "/" := by
  by_cases hc : nw.getLast? = some '/' ∧ nw.length > 1
  · rw [if_pos hc]
    intro h
    exact absurd h (pyRStripChar_getLast_ne '/' nw)
  · rw [if_neg hc]
    intro h
    push_neg at hc
    have hlen := hc h
    match nw, h with
    | [a], h =>
        have : a = '/' := by simpa using h
        rw [this]
        rfl
    | a :: b :: t, _ => simp at hlen

/-- C6 (amended): the ByReference key is the reference with scheme and
host lower-cased, repeated path separators collapsed, auth-like query
keys (exact lowercase match) dropped, remaining pairs sorted by (key,
value), the fragment dropped — and a trailing separator stripped UNLESS
the whole normalized string is the single separator (the root slash of a
non-empty URL is stripped too): the result ends in a separator only when
it is exactly "/"; consequently two references differing only in an
auth-like parameter such as token receive the same key and the later one
is deduplicated. -/
theorem C6_normalized_reference (u : Str) (b : Option Str) :
    ((normalize_url_for_dedupe u b).getLast? = some '/' →
      normalize_url_for_dedupe u b = str "/") ∧
    normalize_url_for_dedupe (str "HTTP://X//a///b?b=2&a=1#frag") none =
      str "http://x/a/b?a=1&b=2" ∧
    normalize_url_for_dedupe (str "http://x/1?token=zzz&id=2") none =
      normalize_url_for_dedupe (str "http://x/1?id=2") none ∧
    (parse_entries
      (str "#EXTINF:-1,A\nhttp://x/1?token=zzz&id=2\nhttp://x/1?id=2")).length = 2 ∧
    (runMerge [⟨str "s.m3u",
      some (str "#EXTINF:-1,A\nhttp://x/1?token=zzz&id=2\nhttp://x/1?id=2",
        none)⟩]).merged.length = 1 := by
  refine ⟨?_, by decide, by decide, by decide, by decide⟩
  intro h
  exact strip_result_slash _ h

theorem C6_normalized_reference_witness :
    ((normalize_url_for_dedupe (str "/") none).getLast? = some '/') ∧
    normalize_url_for_dedupe (str "/") none = str "/" :=
  ⟨by decide, (C6_normalized_reference (str "/") none).1 (by decide)⟩

/-- C6 (counterexample): the root trailing separator IS stripped
(normalize("http://x/") = "http://x", though the path is root), and the
remaining query pairs are sorted by (key, value), not merely by key with
original order preserved among equal keys — both contradicting the
claim's description of the normalization. -/
theorem C6_counterexample :
    normalize_url_for_dedupe (str "http://x/") none = str "http://x" ∧
    str "http://x" ≠ str "http://x/" ∧
    normalize_url_for_dedupe (str "http://x/p?a=2&a=1") none =
      str "http://x/p?a=1&a=2" ∧
    str "http://x/p?a=1&a=2" ≠ str "http://x/p?a=2&a=1" := by decide

/-! ## Bare references (claim C8) -/

/-- C8 (amended): a non-blank line that does not start with the comment
prefix, met while no metadata context is open, synthesizes a record with
no metadata line and empty auxiliary lines; its rendered output takes its
title not from the constant "Unknown" but from the display name derived
from the last path segment of the base-resolved reference (appended after
the synthesized group header when non-empty). -/
theorem C8_bare_reference (u : Str) (rest : List Str) (fuel : Nat)
    (h1 : pyStrip u ≠ []) (h2 : pyStartsWith (str "#") (pyStrip u) = false) :
    parseGo (fuel + 1) (u :: rest) =
      ⟨none, [], pyStrip u⟩ :: parseGo fuel rest ∧
    ∀ (grp : Str) (base : Option Str),
      renderEntry grp base ⟨none, [], u⟩ =
        (if bareDisplay base (pyStrip u) ≠ [] then
          pyRStripChar ',' (ensure_group_in_extinf none grp) ++
            bareDisplay base (pyStrip u)
         else ensure_group_in_extinf none grp,
         make_user_agent_option [] (some DEFAULT_USER_AGENT), pyStrip u) := by
  constructor
  · simp [parseGo, h1, h2]
  · intro grp base
    simp [renderEntry]

theorem C8_bare_reference_witness :
    (pyStrip (str "http://x/my_stream.ts") ≠ [] ∧
     pyStartsWith (str "#") (pyStrip (str "http://x/my_stream.ts")) = false) ∧
    (parseGo (0 + 1) [str "http://x/my_stream.ts"] =
      ⟨none, [], pyStrip (str "http://x/my_stream.ts")⟩ :: parseGo 0 [] ∧
    ∀ (grp : Str) (base : Option Str),
      renderEntry grp base ⟨none, [], str "http://x/my_stream.ts"⟩ =
        (if bareDisplay base (pyStrip (str "http://x/my_stream.ts")) ≠ [] then
          pyRStripChar ',' (ensure_group_in_extinf none grp) ++
            bareDisplay base (pyStrip (str "http://x/my_stream.ts"))
         else ensure_group_in_extinf none grp,
         make_user_agent_option [] (some DEFAULT_USER_AGENT),
         pyStrip (str "http://x/my_stream.ts"))) :=
  ⟨⟨by decide, by decide⟩,
   C8_bare_reference (str "http://x/my_stream.ts") [] 0 (by decide) (by decide)⟩

/-- C8 (counterexample): a bare reference produces a record whose title is
derived from the reference's file stem ("my stream"), not the constant
"Unknown": the full run emits the EXTINF line with that derived display
name appended, and the derived display differs from "Unknown". -/
theorem C8_counterexample :
    (runMerge [⟨str "s.txt", some (str "http://x/my_stream.ts", none)⟩]).merged =
      [(str "#EXTINF:-1 group-title=\"s\"my stream",
        [str "#EXTVLCOPT:http-user-agent=" ++ DEFAULT_USER_AGENT],
        str "http://x/my_stream.ts")] ∧
    bareDisplay none (str "http://x/my_stream.ts") = str "my stream" ∧
    str "my stream" ≠ str "Unknown" := by decide

/-! ## Identifier keys keep their case (claim C2) -/

/-- C2 (amended): when the group-rewritten metadata line carries an
identifier attribute whose extracted value strips to a non-empty string,
the dedup key is that raw stripped value — no lowercasing is applied — so
whenever the value is not already lowercase the key differs from the
lowercased value, and records whose identifier values differ only in
letter case receive different keys. -/
theorem C2_key_keeps_case (grp : Str) (base : Option Str) (e : RawEntry)
    (v : Str)
    (hsearch : tvgSearch (ensure_group_in_extinf e.extinf grp) = some v)
    (hv : pyStrip v ≠ []) :
    entryKey grp base e = pyStrip v ∧
    (pyStrip v ≠ lowerStr (pyStrip v) →
      entryKey grp base e ≠ lowerStr (pyStrip v)) := by
  have hne : ensure_group_in_extinf e.extinf grp ≠ [] := by
    intro h0
    rw [h0] at hsearch
    simp [tvgSearch] at hsearch
  have hget : get_tvg_id (ensure_group_in_extinf e.extinf grp) =
      some (pyStrip v) := by
    unfold get_tvg_id
    rw [if_neg hne, hsearch]
    simp [hv]
  have hkey : entryKey grp base e = pyStrip v := by
    simp [entryKey, hget]
  exact ⟨hkey, fun hne2 => by rw [hkey]; exact hne2⟩

theorem C2_key_keeps_case_witness :
    (tvgSearch (ensure_group_in_extinf
        (some (str "#EXTINF:-1 tvg-id=\"AbC\",T")) (str "G")) =
      some (str "AbC") ∧ pyStrip (str "AbC") ≠ []) ∧
    (entryKey (str "G") none
        ⟨some (str "#EXTINF:-1 tvg-id=\"AbC\",T"), [], str "http://x/1"⟩ =
      pyStrip (str "AbC") ∧
     (pyStrip (str "AbC") ≠ lowerStr (pyStrip (str "AbC")) →
      entryKey (str "G") none
          ⟨some (str "#EXTINF:-1 tvg-id=\"AbC\",T"), [], str "http://x/1"⟩ ≠
        lowerStr (pyStrip (str "AbC")))) :=
  ⟨⟨by decide, by decide⟩,
   C2_key_keeps_case (str "G") none
     ⟨some (str "#EXTINF:-1 tvg-id=\"AbC\",T"), [], str "http://x/1"⟩
     (str "AbC") (by decide) (by decide)⟩

/-- C2 (counterexample): the identity key of a record with identifier
value "AbC" is "AbC" itself, not the lowercased "abc" the claim
prescribes, and a record with identifier "abc" gets the different key
"abc" — so two records whose identifiers differ only in case do NOT
receive the same identity key. -/
theorem C2_counterexample :
    entryKey (str "G") none
      ⟨some (str "#EXTINF:-1 tvg-id=\"AbC\",T"), [], str "http://x/1"⟩ =
      str "AbC" ∧
    entryKey (str "G") none
      ⟨some (str "#EXTINF:-1 tvg-id=\"abc\",T"), [], str "http://x/2"⟩ =
      str "abc" ∧
    lowerStr (str "AbC") = str "abc" ∧
    str "AbC" ≠ str "abc" := by decide

/-! ## ById and ByReference keys share one namespace (claim C3) -/

/-- C3 (amended): identity keys are plain strings with no variant tag: a
record keyed by its identifier value v and a later record keyed by its
normalized reference get EQUAL keys whenever the two strings coincide,
and the later record is then rejected as a duplicate of the earlier one. -/
theorem C3_keys_share_namespace (grp : Str) (base : Option Str)
    (e1 e2 : RawEntry) (v : Str)
    (h1 : get_tvg_id (ensure_group_in_extinf e1.extinf grp) = some v)
    (h2 : get_tvg_id (ensure_group_in_extinf e2.extinf grp) = none)
    (h3 : normalize_url_for_dedupe (pyStrip e2.url) base = v)
    (h4 : pyStrip e1.url ≠ []) (h5 : pyStrip e2.url ≠ []) :
    entryKey grp base e1 = entryKey grp base e2 ∧
    ([e1, e2].foldl (processEntry grp base) (initState, 0)).1.merged =
      [renderEntry grp base e1] := by
  have hk1 : entryKey grp base e1 = v := by simp [entryKey, h1]
  have hk2 : entryKey grp base e2 = v := by simp [entryKey, h2, h3]
  refine ⟨hk1.trans hk2.symm, ?_⟩
  have hstep1 : processEntry grp base (initState, 0) e1 =
      ({ merged := [renderEntry grp base e1], seen := [v], stats := [] }, 1) := by
    simp [processEntry, h4, initState, hk1]
  have hstep2 : processEntry grp base
      ({ merged := [renderEntry grp base e1], seen := [v],
         stats := ([] : List (Str × Str)) }, 1) e2 =
      ({ merged := [renderEntry grp base e1], seen := [v], stats := [] }, 1) := by
    simp [processEntry, h5, hk2]
  simp [List.foldl_cons, hstep1, hstep2]

theorem C3_keys_share_namespace_witness :
    (get_tvg_id (ensure_group_in_extinf
        (some (str "#EXTINF:-1 tvg-id=\"http://x/1\",A")) (str "G")) =
      some (str "http://x/1") ∧
     get_tvg_id (ensure_group_in_extinf none (str "G")) = none ∧
     normalize_url_for_dedupe (pyStrip (str "http://x/1")) none =
      str "http://x/1" ∧
     pyStrip (str "http://y/s") ≠ [] ∧ pyStrip (str "http://x/1") ≠ []) ∧
    (entryKey (str "G") none
        ⟨some (str "#EXTINF:-1 tvg-id=\"http://x/1\",A"), [], str "http://y/s"⟩ =
      entryKey (str "G") none ⟨none, [], str "http://x/1"⟩ ∧
     ([(⟨some (str "#EXTINF:-1 tvg-id=\"http://x/1\",A"), [], str "http://y/s"⟩ : RawEntry),
       ⟨none, [], str "http://x/1"⟩].foldl
        (processEntry (str "G") none) (initState, 0)).1.merged =
      [renderEntry (str "G") none
        ⟨some (str "#EXTINF:-1 tvg-id=\"http://x/1\",A"), [], str "http://y/s"⟩]) :=
  ⟨⟨by decide, by decide, by decide, by decide, by decide⟩,
   C3_keys_share_namespace (str "G") none
     ⟨some (str "#EXTINF:-1 tvg-id=\"http://x/1\",A"), [], str "http://y/s"⟩
     ⟨none, [], str "http://x/1"⟩ (str "http://x/1")
     (by decide) (by decide) (by decide) (by decide) (by decide)⟩

/-- C3 (counterexample): a run whose first record is keyed by the
identifier value "http://x/1" (ById derivation) and whose second, bare
record is keyed by the normalized reference "http://x/1" (ByReference
derivation) treats the two as duplicates: two parsed entries, one merged
record — refuting the claim that the two derivations can never collide. -/
theorem C3_counterexample :
    (parse_entries
      (str "#EXTINF:-1 tvg-id=\"http://x/1\",A\nhttp://y/s\nhttp://x/1")).length = 2 ∧
    (runMerge [⟨str "s.m3u",
      some (str "#EXTINF:-1 tvg-id=\"http://x/1\",A\nhttp://y/s\nhttp://x/1",
        none)⟩]).merged.length = 1 := by decide

/-- C7 (counterexample): in a run over a source whose single record
carries two `http-user-agent` option lines, the merged record's auxiliary
lines contain the injected user-agent directive twice — not exactly
once. -/
theorem C7_counterexample :
    ((runMerge [⟨str "s.m3u",
        some (str "#EXTINF:-1,A\n#EXTVLCOPT:http-user-agent=a\n#EXTVLCOPT:http-user-agent=b\nhttp://x/1",
          none)⟩]).merged.map
      fun r => r.2.1.count (str "#EXTVLCOPT:http-user-agent=" ++ DEFAULT_USER_AGENT)) =
    [2] := by decide


/-! ## C10: idempotence of URL normalization -/

theorem char_eq_lit (c d : Char) : c = d ↔ c.toNat = d.toNat := by
  constructor
  · intro h; rw [h]
  · intro h; exact Char.ext (UInt32.ext (by simpa using h))

theorem isPyWs_iff (c : Char) : isPyWs c = true ↔
    c.toNat = 32 ∨ (9 ≤ c.toNat ∧ c.toNat ≤ 13) ∨
    (28 ≤ c.toNat ∧ c.toNat ≤ 31) ∨ c.toNat = 133 := by
  have e1 : (c = ' ') ↔ c.toNat = 32 := char_eq_lit c ' '
  have e2 : (c = '\t') ↔ c.toNat = 9 := char_eq_lit c '\t'
  have e3 : (c = '\n') ↔ c.toNat = 10 := char_eq_lit c '\n'
  have e4 : (c = '\r') ↔ c.toNat = 13 := char_eq_lit c '\r'
  have e5 : (c = '\x0b') ↔ c.toNat = 11 := char_eq_lit c '\x0b'
  have e6 : (c = '\x0c') ↔ c.toNat = 12 := char_eq_lit c '\x0c'
  have e7 : (0x1c ≤ c.val ∧ c.val ≤ 0x1f) ↔ (28 ≤ c.toNat ∧ c.toNat ≤ 31) := Iff.rfl
  have e8 : (c.val = 0x85) ↔ c.toNat = 133 := by
    constructor
    · intro h; have := congrArg UInt32.toNat h; simpa using this
    · intro h; exact UInt32.ext (by simpa using h)
  unfold isPyWs
  rw [decide_eq_true_iff, e1, e2, e3, e4, e5, e6, e7, e8]
  omega

theorem isC0_iff (c : Char) : isC0OrSpace c = true ↔ c.toNat ≤ 32 := by
  unfold isC0OrSpace
  rw [decide_eq_true_iff]
  exact Iff.rfl

theorem cleanChar_iff (c : Char) :
    cleanChar c = true ↔ 32 < c.toNat ∧ c.toNat ≠ 59 ∧ c.toNat ≠ 133 := by
  have h1 : isPyWs c = false ↔
      ¬ (c.toNat = 32 ∨ (9 ≤ c.toNat ∧ c.toNat ≤ 13) ∨
         (28 ≤ c.toNat ∧ c.toNat ≤ 31) ∨ c.toNat = 133) := by
    rw [← isPyWs_iff]; simp
  have h2 : isC0OrSpace c = false ↔ ¬ (c.toNat ≤ 32) := by
    rw [← isC0_iff]; simp
  have h3 : (c ≠ ';') ↔ ¬ (c.toNat = 59) := not_congr (char_eq_lit c ';')
  simp only [cleanChar, Bool.and_eq_true, bne_iff_ne, Bool.not_eq_true']
  rw [h3, h1, h2]
  omega

theorem alwaysSafe_iff (c : Char) : alwaysSafe c = true ↔
    (65 ≤ c.toNat ∧ c.toNat ≤ 90) ∨ (97 ≤ c.toNat ∧ c.toNat ≤ 122) ∨
    (48 ≤ c.toNat ∧ c.toNat ≤ 57) ∨ c.toNat = 95 ∨ c.toNat = 46 ∨
    c.toNat = 45 ∨ c.toNat = 126 := by
  have e1 : (c = '_') ↔ c.toNat = 95 := char_eq_lit c '_'
  have e2 : (c = '.') ↔ c.toNat = 46 := char_eq_lit c '.'
  have e3 : (c = '-') ↔ c.toNat = 45 := char_eq_lit c '-'
  have e4 : (c = '~') ↔ c.toNat = 126 := char_eq_lit c '~'
  unfold alwaysSafe
  rw [decide_eq_true_iff, e1, e2, e3, e4]
  exact Iff.rfl

theorem isSchemeChar_iff (c : Char) : isSchemeChar c = true ↔
    (97 ≤ c.toNat ∧ c.toNat ≤ 122) ∨ (65 ≤ c.toNat ∧ c.toNat ≤ 90) ∨
    (48 ≤ c.toNat ∧ c.toNat ≤ 57) ∨ c.toNat = 43 ∨ c.toNat = 45 ∨
    c.toNat = 46 := by
  have e1 : (c = '+') ↔ c.toNat = 43 := char_eq_lit c '+'
  have e2 : (c = '-') ↔ c.toNat = 45 := char_eq_lit c '-'
  have e3 : (c = '.') ↔ c.toNat = 46 := char_eq_lit c '.'
  unfold isSchemeChar
  rw [decide_eq_true_iff, e1, e2, e3]
  exact Iff.rfl

theorem isAsciiAlpha_iff (c : Char) : isAsciiAlpha c = true ↔
    (97 ≤ c.toNat ∧ c.toNat ≤ 122) ∨ (65 ≤ c.toNat ∧ c.toNat ≤ 90) := by
  unfold isAsciiAlpha
  rw [decide_eq_true_iff]
  exact Iff.rfl

theorem netlocOk_iff (c : Char) : netlocOk c = true ↔
    c.toNat ≠ 47 ∧ c.toNat ≠ 63 ∧ c.toNat ≠ 35 := by
  have e1 : (c ≠ '/') ↔ ¬ (c.toNat = 47) := not_congr (char_eq_lit c '/')
  have e2 : (c ≠ '?') ↔ ¬ (c.toNat = 63) := not_congr (char_eq_lit c '?')
  have e3 : (c ≠ '#') ↔ ¬ (c.toNat = 35) := not_congr (char_eq_lit c '#')
  unfold netlocOk
  rw [decide_eq_true_iff, e1, e2, e3]

theorem toLower_toNat_upper {c : Char} (h1 : 65 ≤ c.toNat) (h2 : c.toNat ≤ 90) :
    (Char.toLower c).toNat = c.toNat + 32 := by
  unfold Char.toLower
  rw [if_pos ⟨h1, h2⟩]
  have hv : (c.toNat + 32).isValidChar := by left; omega
  unfold Char.ofNat
  rw [dif_pos hv]
  rfl

theorem toLower_eq_self {c : Char} (h : ¬ (65 ≤ c.toNat ∧ c.toNat ≤ 90)) :
    Char.toLower c = c := by
  unfold Char.toLower
  rw [if_neg h]

theorem toLower_range (c : Char) :
    Char.toLower c = c ∨
    (65 ≤ c.toNat ∧ c.toNat ≤ 90 ∧ (Char.toLower c).toNat = c.toNat + 32) := by
  by_cases h : 65 ≤ c.toNat ∧ c.toNat ≤ 90
  · right; exact ⟨h.1, h.2, toLower_toNat_upper h.1 h.2⟩
  · left; exact toLower_eq_self h

theorem toLower_idem (c : Char) :
    Char.toLower (Char.toLower c) = Char.toLower c := by
  rcases toLower_range c with h | ⟨h1, h2, h3⟩
  · rw [h, h]
  · exact toLower_eq_self (by omega)

theorem lowerStr_idem (s : Str) : lowerStr (lowerStr s) = lowerStr s := by
  unfold lowerStr
  rw [List.map_map]
  exact List.map_congr_left fun c _ => toLower_idem c

/-! ### List and strip toolkit for the normalization analysis -/

theorem takeWhile_all {p : Char → Bool} :
    ∀ (a : Str), (∀ c ∈ a, p c = true) → a.takeWhile p = a := by
  intro a
  induction a with
  | nil => intro _; rfl
  | cons x t ih =>
      intro h
      rw [List.takeWhile_cons, if_pos (h x (List.mem_cons_self x t))]
      rw [ih fun c hc => h c (List.mem_cons_of_mem _ hc)]

theorem takeWhile_append_all {p : Char → Bool} :
    ∀ (a b : Str), (∀ c ∈ a, p c = true) →
      (a ++ b).takeWhile p = a ++ b.takeWhile p := by
  intro a b
  induction a with
  | nil => intro _; rfl
  | cons x t ih =>
      intro h
      rw [List.cons_append, List.takeWhile_cons,
        if_pos (h x (List.mem_cons_self x t)), List.cons_append]
      rw [ih fun c hc => h c (List.mem_cons_of_mem _ hc)]

theorem dropWhile_append_all {p : Char → Bool} :
    ∀ (a b : Str), (∀ c ∈ a, p c = true) →
      (a ++ b).dropWhile p = b.dropWhile p := by
  intro a b
  induction a with
  | nil => intro _; rfl
  | cons x t ih =>
      intro h
      rw [List.cons_append, List.dropWhile_cons,
        if_pos (h x (List.mem_cons_self x t))]
      exact ih fun c hc => h c (List.mem_cons_of_mem _ hc)

theorem dropWhile_ne_first (c : Char) :
    ∀ (t : Str), c ∈ t → ∃ rest, t.dropWhile (· ≠ c) = c :: rest := by
  intro t
  induction t with
  | nil => intro h; exact absurd h (List.not_mem_nil c)
  | cons a t' ih =>
      intro h
      by_cases e : a = c
      · subst e
        exact ⟨t', by simp [List.dropWhile_cons]⟩
      · have hm : c ∈ t' := by
          rcases List.mem_cons.mp h with h1 | h1
          · exact absurd h1.symm e
          · exact h1
        rcases ih hm with ⟨rest, hr⟩
        exact ⟨rest, by simp only [List.dropWhile_cons]; rw [if_pos (by simp [e]), hr]⟩

theorem pySplitFirst_none {c : Char} {s : Str} (h : c ∉ s) :
    pySplitFirst c s = (s, none) := by
  have hall : ∀ x ∈ s, (fun x => decide (x ≠ c)) x = true := by
    intro x hx
    simp only [decide_eq_true_iff]
    exact fun e => h (e ▸ hx)
  unfold pySplitFirst
  rw [List.dropWhile_eq_nil_iff.mpr hall, takeWhile_all s hall]

theorem pySplitFirst_found {c : Char} (a b : Str) (h : c ∉ a) :
    pySplitFirst c (a ++ c :: b) = (a, some b) := by
  have hall : ∀ x ∈ a, (fun x => decide (x ≠ c)) x = true := by
    intro x hx
    simp only [decide_eq_true_iff]
    exact fun e => h (e ▸ hx)
  unfold pySplitFirst
  rw [takeWhile_append_all a (c :: b) hall, dropWhile_append_all a (c :: b) hall,
    List.takeWhile_cons, List.dropWhile_cons]
  simp

theorem pyRStripChar_no_strip {c : Char} {s : Str} (h : s.getLast? ≠ some c) :
    pyRStripChar c s = s := by
  unfold pyRStripChar
  cases hs : s.reverse with
  | nil => simpa using congrArg List.reverse hs
  | cons a t =>
      have hsa : s = (a :: t).reverse := by
        rw [← hs, List.reverse_reverse]
      have hane : a ≠ c := by
        intro e
        apply h
        rw [hsa, e]
        simp
      rw [List.dropWhile_cons, if_neg (by simp [hane])]
      exact hsa.symm

theorem pyRStripChar_all {c : Char} {s : Str} (h : ∀ a ∈ s, a = c) :
    pyRStripChar c s = [] := by
  unfold pyRStripChar
  have : s.reverse.dropWhile (· = c) = [] := by
    rw [List.dropWhile_eq_nil_iff]
    intro x hx
    simp [h x (List.mem_reverse.mp hx)]
  rw [this]
  rfl

theorem pyRStripChar_append_nonnil {c : Char} (x : Str) {y : Str}
    (hy : pyRStripChar c y ≠ []) :
    pyRStripChar c (x ++ y) = x ++ pyRStripChar c y := by
  unfold pyRStripChar at *
  rw [List.reverse_append, List.dropWhile_append]
  have he : (y.reverse.dropWhile (· = c)).isEmpty = false := by
    cases hc : (y.reverse.dropWhile (· = c)).isEmpty
    · rfl
    · exact absurd (by simpa using (List.isEmpty_iff.mp hc)) hy
  rw [he]
  simp

theorem pyRStripChar_append_all {c : Char} (x : Str) {y : Str}
    (h : ∀ a ∈ y, a = c) :
    pyRStripChar c (x ++ y) = pyRStripChar c x := by
  unfold pyRStripChar
  rw [List.reverse_append, List.dropWhile_append]
  have : y.reverse.dropWhile (· = c) = [] := by
    rw [List.dropWhile_eq_nil_iff]
    intro a ha
    simp [h a (List.mem_reverse.mp ha)]
  rw [this]
  simp

theorem pyRStripChar_subset {c : Char} {s : Str} :
    ∀ x ∈ pyRStripChar c s, x ∈ s := by
  intro x hx
  unfold pyRStripChar at hx
  have h1 : x ∈ List.dropWhile (· = c) s.reverse := List.mem_reverse.mp hx
  exact List.mem_reverse.mp ((List.dropWhile_sublist (· = c)).subset h1)

theorem pyRStripChar_eq_nil {c : Char} {s : Str}
    (h : pyRStripChar c s = []) : ∀ a ∈ s, a = c := by
  intro a ha
  unfold pyRStripChar at h
  have h2 : s.reverse.dropWhile (· = c) = [] := by
    have := congrArg List.reverse h
    simpa using this
  have := List.dropWhile_eq_nil_iff.mp h2 a (List.mem_reverse.mpr ha)
  simpa using this

theorem pyStrip_eq_self {s : Str} (h : ∀ c ∈ s, isPyWs c = false) :
    pyStrip s = s := by
  unfold pyStrip pyLStrip pyRStrip
  rw [dropWhile_eq_self_of_forall h,
    dropWhile_eq_self_of_forall fun x hx => h x (List.mem_reverse.mp hx),
    List.reverse_reverse]

theorem cleanUrl_eq_self {s : Str}
    (h : ∀ c ∈ s, isPyWs c = false ∧ isC0OrSpace c = false) :
    cleanUrl s = s := by
  unfold cleanUrl removeUnsafe
  rw [dropWhile_eq_self_of_forall fun x hx => (h x hx).2]
  rw [List.filter_eq_self.mpr ?_]
  intro a ha
  rw [decide_eq_true_iff]
  have hw := (h a ha).1
  have h9 : a.toNat ≠ 9 ∧ a.toNat ≠ 13 ∧ a.toNat ≠ 10 := by
    have := (not_congr (isPyWs_iff a)).mp (by simp [hw])
    omega
  refine ⟨?_, ?_, ?_⟩
  · exact fun e => absurd ((char_eq_lit a '\t').mp e) h9.1
  · exact fun e => absurd ((char_eq_lit a '\r').mp e) h9.2.1
  · exact fun e => absurd ((char_eq_lit a '\n').mp e) h9.2.2

/-! ### The scheme splitter -/

theorem splitScheme_no_colon {s : Str} (h : ':' ∉ s) :
    splitScheme [] s = ([], s) := by
  have hall : ∀ x ∈ s, (fun x => decide (x ≠ ':')) x = true := by
    intro x hx
    simp only [decide_eq_true_iff]
    exact fun e => h (e ▸ hx)
  unfold splitScheme
  rw [List.dropWhile_eq_nil_iff.mpr hall]

theorem splitScheme_decomp_nil (rest : Str) :
    splitScheme [] (':' :: rest) = ([], ':' :: rest) := by
  unfold splitScheme
  rw [List.takeWhile_cons, List.dropWhile_cons]
  simp

theorem splitScheme_decomp_cons (c : Char) (t rest : Str) (hcolon : ':' ∉ c :: t) :
    splitScheme [] ((c :: t) ++ ':' :: rest) =
      if isAsciiAlpha c = true ∧ (c :: t).all isSchemeChar = true
      then (lowerStr (c :: t), rest) else ([], (c :: t) ++ ':' :: rest) := by
  have hallne : ∀ x ∈ c :: t, (fun x => decide (x ≠ ':')) x = true := by
    intro x hx
    simp only [decide_eq_true_iff]
    exact fun e => hcolon (e ▸ hx)
  have h1 : ((c :: t) ++ ':' :: rest).takeWhile (· ≠ ':') = c :: t := by
    rw [takeWhile_append_all _ _ hallne, List.takeWhile_cons]
    simp
  have h2 : ((c :: t) ++ ':' :: rest).dropWhile (· ≠ ':') = ':' :: rest := by
    rw [dropWhile_append_all _ _ hallne, List.dropWhile_cons]
    simp
  unfold splitScheme
  rw [h1, h2]

theorem splitScheme_found {pre : Str} (rest : Str) (c : Char) (t : Str)
    (hpre : pre = c :: t) (hcolon : ':' ∉ pre)
    (halpha : isAsciiAlpha c = true) (hall : pre.all isSchemeChar = true) :
    splitScheme [] (pre ++ ':' :: rest) = (lowerStr pre, rest) := by
  subst hpre
  rw [splitScheme_decomp_cons _ _ _ hcolon]
  exact if_pos ⟨halpha, hall⟩

theorem splitScheme_head_bad {c : Char} {t : Str} (h : isAsciiAlpha c = false) :
    splitScheme [] (c :: t) = ([], c :: t) := by
  by_cases hc : c = ':'
  · subst hc
    exact splitScheme_decomp_nil t
  · by_cases hcol : ':' ∈ c :: t
    · have hct : ':' ∈ t := by
        rcases List.mem_cons.mp hcol with h1 | h1
        · exact absurd h1.symm hc
        · exact h1
      rcases dropWhile_ne_first ':' t hct with ⟨rest, hr⟩
      have hnc : ':' ∉ c :: t.takeWhile (· ≠ ':') := by
        intro hm
        rcases List.mem_cons.mp hm with h1 | h1
        · exact hc h1.symm
        · have := List.mem_takeWhile_imp h1
          simp at this
      have hdec : c :: t = (c :: t.takeWhile (· ≠ ':')) ++ ':' :: rest := by
        rw [List.cons_append]
        congr 1
        conv_lhs => rw [← List.takeWhile_append_dropWhile (· ≠ ':') t]
        rw [hr]
      rw [hdec, splitScheme_decomp_cons _ _ _ hnc]
      rw [if_neg fun hco => by rw [h] at hco; exact absurd hco.1 (by simp)]
    · exact splitScheme_no_colon hcol

theorem noScheme_of_head_bad {s : Str}
    (h : s = [] ∨ ∃ c t, s = c :: t ∧ isAsciiAlpha c = false) :
    (splitScheme [] s).1 = [] := by
  rcases h with rfl | ⟨c, t, rfl, hc⟩
  · rfl
  · rw [splitScheme_head_bad hc]

theorem noScheme_take {t u s : Str} (hs : s = t ++ u)
    (h : (splitScheme [] s).1 = []) : (splitScheme [] t).1 = [] := by
  by_cases hcol : ':' ∈ t
  · rcases dropWhile_ne_first ':' t hcol with ⟨rest, hr⟩
    cases hpre : t.takeWhile (· ≠ ':') with
    | nil =>
        have hts : t = ':' :: rest := by
          conv_lhs => rw [← List.takeWhile_append_dropWhile (· ≠ ':') t]
          rw [hr, hpre]
          rfl
        rw [hts, splitScheme_decomp_nil]
    | cons c t' =>
        have hts : t = (c :: t') ++ ':' :: rest := by
          conv_lhs => rw [← List.takeWhile_append_dropWhile (· ≠ ':') t]
          rw [hr, hpre]
        have hnc : ':' ∉ c :: t' := by
          intro hm
          have hm2 : ':' ∈ t.takeWhile (· ≠ ':') := by rw [hpre]; exact hm
          have := List.mem_takeWhile_imp hm2
          simp at this
        have hss : s = (c :: t') ++ ':' :: (rest ++ u) := by
          rw [hs, hts]
          simp
        rw [hss, splitScheme_decomp_cons _ _ _ hnc] at h
        rw [hts, splitScheme_decomp_cons _ _ _ hnc]
        by_cases hcond : isAsciiAlpha c = true ∧ (c :: t').all isSchemeChar = true
        · rw [if_pos hcond] at h
          exact absurd h (by simp [lowerStr])
        · rw [if_neg hcond]
  · rw [splitScheme_no_colon hcol]

theorem noScheme_append {t : Str} (u : Str) (h : (splitScheme [] t).1 = [])
    (hu : ':' ∉ u) : (splitScheme [] (t ++ u)).1 = [] := by
  by_cases hcol : ':' ∈ t
  · rcases dropWhile_ne_first ':' t hcol with ⟨rest, hr⟩
    cases hpre : t.takeWhile (· ≠ ':') with
    | nil =>
        have hts : t = ':' :: rest := by
          conv_lhs => rw [← List.takeWhile_append_dropWhile (· ≠ ':') t]
          rw [hr, hpre]
          rfl
        rw [hts, List.cons_append, splitScheme_decomp_nil]
    | cons c t' =>
        have hts : t = (c :: t') ++ ':' :: rest := by
          conv_lhs => rw [← List.takeWhile_append_dropWhile (· ≠ ':') t]
          rw [hr, hpre]
        have hnc : ':' ∉ c :: t' := by
          intro hm
          have hm2 : ':' ∈ t.takeWhile (· ≠ ':') := by rw [hpre]; exact hm
          have := List.mem_takeWhile_imp hm2
          simp at this
        have hss : t ++ u = (c :: t') ++ ':' :: (rest ++ u) := by
          rw [hts]
          simp
        rw [hts, splitScheme_decomp_cons _ _ _ hnc] at h
        rw [hss, splitScheme_decomp_cons _ _ _ hnc]
        by_cases hcond : isAsciiAlpha c = true ∧ (c :: t').all isSchemeChar = true
        · rw [if_pos hcond] at h
          exact absurd h (by simp [lowerStr])
        · rw [if_neg hcond]
  · by_cases hcu : ':' ∈ t ++ u
    · exact absurd hcu (by
        intro hm
        rcases List.mem_append.mp hm with h1 | h1
        · exact hcol h1
        · exact hu h1)
    · rw [splitScheme_no_colon hcu]

/-! ### Slash collapsing -/

theorem subRuns_cons_neg {p : Char → Bool} {r c : Char} (h : p c = false)
    (rest : Str) : subRuns p r (c :: rest) = c :: subRuns p r rest := by
  rw [subRuns.eq_def]
  simp [h]

theorem subRuns_singleton_pos {p : Char → Bool} {r c : Char} (h : p c = true) :
    subRuns p r [c] = [r] := by
  rw [subRuns.eq_def]
  simp [h]

theorem subRuns_cons2_pos_pos {p : Char → Bool} {r c c2 : Char}
    (h : p c = true) (h2 : p c2 = true) (t : Str) :
    subRuns p r (c :: c2 :: t) = subRuns p r (c2 :: t) := by
  rw [subRuns.eq_def]
  simp [h, h2]

theorem subRuns_cons2_pos_neg {p : Char → Bool} {r c c2 : Char}
    (h : p c = true) (h2 : p c2 = false) (t : Str) :
    subRuns p r (c :: c2 :: t) = r :: subRuns p r (c2 :: t) := by
  rw [subRuns.eq_def]
  simp [h, h2]

theorem subRuns_length_le (p : Char → Bool) (r : Char) :
    ∀ l : Str, (subRuns p r l).length ≤ l.length := by
  intro l
  induction l with
  | nil => simp [subRuns]
  | cons c t ih =>
      cases hc : p c with
      | false =>
          rw [subRuns_cons_neg hc]
          simpa using ih
      | true =>
          cases t with
          | nil => simp [subRuns_singleton_pos hc]
          | cons c2 t2 =>
              cases hc2 : p c2 with
              | false =>
                  rw [subRuns_cons2_pos_neg hc hc2]
                  simpa using ih
              | true =>
                  rw [subRuns_cons2_pos_pos hc hc2]
                  exact le_trans ih (by simp)

theorem collapse_subset : ∀ l : Str, ∀ x ∈ collapseSlashes l, x ∈ l := by
  intro l
  unfold collapseSlashes
  induction l with
  | nil => simp [subRuns]
  | cons c t ih =>
      intro x hx
      by_cases hc : c = '/'
      · subst hc
        cases t with
        | nil =>
            rw [subRuns_singleton_pos (by simp)] at hx
            simpa using hx
        | cons c2 t2 =>
            by_cases hc2 : c2 = '/'
            · subst hc2
              rw [subRuns_cons2_pos_pos (by simp) (by simp)] at hx
              exact List.mem_cons_of_mem _ (ih x hx)
            · rw [subRuns_cons2_pos_neg (by simp) (by simp [hc2])] at hx
              rcases List.mem_cons.mp hx with h1 | h1
              · exact h1 ▸ List.mem_cons_self _ _
              · exact List.mem_cons_of_mem _ (ih x h1)
      · rw [subRuns_cons_neg (by simp [hc])] at hx
        rcases List.mem_cons.mp hx with h1 | h1
        · exact h1 ▸ List.mem_cons_self _ _
        · exact List.mem_cons_of_mem _ (ih x h1)

theorem collapse_fixed_iff :
    ∀ l : Str, (collapseSlashes l = l ↔
      List.Chain' (fun a b => ¬ (a = '/' ∧ b = '/')) l) := by
  intro l
  unfold collapseSlashes
  induction l with
  | nil => simp [subRuns]
  | cons c t ih =>
      cases t with
      | nil =>
          constructor
          · intro _
            simp
          · intro _
            by_cases hc : c = '/'
            · subst hc
              rw [subRuns_singleton_pos (by simp)]
            · rw [subRuns_cons_neg (by simp [hc])]
              rfl
      | cons c2 t2 =>
          by_cases hc : c = '/'
          · by_cases hc2 : c2 = '/'
            · subst hc
              subst hc2
              rw [subRuns_cons2_pos_pos (by simp) (by simp)]
              constructor
              · intro he
                exfalso
                have hlen := subRuns_length_le (· = '/') '/' ('/' :: t2)
                rw [he] at hlen
                simp at hlen
              · intro hch
                rw [List.chain'_cons] at hch
                exact absurd ⟨rfl, rfl⟩ hch.1
            · subst hc
              rw [subRuns_cons2_pos_neg (by simp) (by simp [hc2]),
                List.chain'_cons]
              constructor
              · intro he
                injection he with _ h2
                exact ⟨fun hco => hc2 hco.2, ih.mp h2⟩
              · rintro ⟨_, hch⟩
                rw [ih.mpr hch]
          · rw [subRuns_cons_neg (by simp [hc]), List.chain'_cons]
            constructor
            · intro he
              injection he with _ h2
              exact ⟨fun hco => hc hco.1, ih.mp h2⟩
            · rintro ⟨_, hch⟩
              rw [ih.mpr hch]

theorem chain_slash_reverse (l : Str) :
    List.Chain' (fun a b => ¬ (a = '/' ∧ b = '/')) l.reverse ↔
    List.Chain' (fun a b => ¬ (a = '/' ∧ b = '/')) l := by
  rw [List.chain'_reverse]
  constructor
  · intro h
    exact h.imp fun a b hab hc => hab ⟨hc.2, hc.1⟩
  · intro h
    exact h.imp fun a b hab hc => hab ⟨hc.2, hc.1⟩

theorem collapse_fixed_rstrip {l : Str} (h : collapseSlashes l = l) :
    collapseSlashes (pyRStripChar '/' l) = pyRStripChar '/' l := by
  rw [collapse_fixed_iff] at h ⊢
  unfold pyRStripChar
  rw [chain_slash_reverse]
  have h2 : List.Chain' (fun a b => ¬ (a = '/' ∧ b = '/')) l.reverse :=
    (chain_slash_reverse l).mpr h
  have hsplit := List.takeWhile_append_dropWhile (· = '/') l.reverse
  rw [← hsplit] at h2
  exact (List.chain'_append.mp h2).2.1

theorem collapse_fixed_cons {l : Str} (h : collapseSlashes l = l)
    (hl : l.head? ≠ some '/') :
    collapseSlashes ('/' :: l) = '/' :: l := by
  cases l with
  | nil => rfl
  | cons c t =>
      have hc : ¬ (c = '/') := by
        intro e
        exact hl (by rw [e]; rfl)
      unfold collapseSlashes at *
      rw [subRuns_cons2_pos_neg (by simp) (by simp [hc])]
      rw [h]

theorem collapse_fixed_no_dslash {l : Str} (h : collapseSlashes l = l) :
    l.take 2 ≠ str "//" := by
  intro he
  cases l with
  | nil => simp [str] at he
  | cons a t =>
      cases t with
      | nil => simp [str] at he
      | cons b t2 =>
          have hab : a = '/' ∧ b = '/' := by
            have h2 := he
            simp [str] at h2
            exact ⟨h2.1, h2.2⟩
          rcases hab with ⟨rfl, rfl⟩
          rw [collapse_fixed_iff, List.chain'_cons] at h
          exact h.1 ⟨rfl, rfl⟩

theorem collapse_fixed_end_slash {l : Str} (h : collapseSlashes l = l)
    (hl : l.getLast? = some '/') :
    ∃ m, l = m ++ ['/'] ∧ pyRStripChar '/' l = m ∧
      (m = [] ∨ m.getLast? ≠ some '/') := by
  have hne : l ≠ [] := by
    intro e
    rw [e] at hl
    simp at hl
  have hdec : l.dropLast ++ [l.getLast hne] = l := List.dropLast_append_getLast hne
  have hlast : l.getLast hne = '/' := by
    have hor := List.getLast?_eq_getLast l hne
    rw [hl] at hor
    exact (Option.some.inj hor).symm
  rw [hlast] at hdec
  have hch : List.Chain' (fun a b => ¬ (a = '/' ∧ b = '/')) l :=
    (collapse_fixed_iff l).mp h
  have hbound : ∀ x ∈ l.dropLast.getLast?, x ≠ '/' := by
    rw [← hdec] at hch
    intro x hx e
    have := (List.chain'_append.mp hch).2.2 x hx '/' (by rfl)
    exact this ⟨e, rfl⟩
  refine ⟨l.dropLast, hdec.symm, ?_, ?_⟩
  · unfold pyRStripChar
    conv_lhs => rw [← hdec]
    rw [List.reverse_append]
    have hrev : (['/'] : Str).reverse = ['/'] := rfl
    rw [hrev]
    rw [show (['/'] : Str) ++ l.dropLast.reverse = '/' :: l.dropLast.reverse from rfl]
    rw [List.dropWhile_cons, if_pos (by simp)]
    cases hm : l.dropLast.reverse with
    | nil =>
        have := congrArg List.reverse hm
        simpa using this
    | cons y r2 =>
        have hy : y ≠ '/' := by
          apply hbound
          rw [← List.head?_reverse]
          rw [hm]
          rfl
        rw [List.dropWhile_cons, if_neg (by simp [hy])]
        rw [← hm, List.reverse_reverse]
  · cases hm : l.dropLast.getLast? with
    | none =>
        left
        exact List.getLast?_eq_none_iff.mp hm
    | some y =>
        right
        have hy : y ≠ '/' := hbound y (by rw [hm]; rfl)
        intro e
        exact hy (Option.some.inj e)

theorem collapse_head : ∀ l : Str, (collapseSlashes l).head? = l.head? := by
  intro l
  unfold collapseSlashes
  induction l with
  | nil => rfl
  | cons c t ih =>
      by_cases hc : c = '/'
      · subst hc
        cases t with
        | nil => rw [subRuns_singleton_pos (by simp)]
        | cons c2 t2 =>
            by_cases hc2 : c2 = '/'
            · subst hc2
              rw [subRuns_cons2_pos_pos (by simp) (by simp)]
              rw [ih]
              rfl
            · rw [subRuns_cons2_pos_neg (by simp) (by simp [hc2])]
              rfl
      · rw [subRuns_cons_neg (by simp [hc])]
        rfl

/-! ### The query-pair sort -/

theorem char_val_eq_of_not_lt {c d : Char} (h1 : ¬ c.val < d.val)
    (h2 : ¬ d.val < c.val) : c = d := by
  have b1 : ¬ c.toNat < d.toNat := h1
  have b2 : ¬ d.toNat < c.toNat := h2
  have : c.toNat = d.toNat := by omega
  exact Char.ext (UInt32.ext (by simpa using this))

theorem uval_not_lt_self (c : Char) : ¬ c.val < c.val :=
  fun h => lt_irrefl c.toNat h

theorem uval_lt_asymm {c d : Char} (h : c.val < d.val) : ¬ d.val < c.val := by
  intro h2
  have a1 : c.toNat < d.toNat := h
  have a2 : d.toNat < c.toNat := h2
  omega

theorem uval_lt_trans {c d e : Char} (h1 : c.val < d.val)
    (h2 : d.val < e.val) : c.val < e.val := by
  have a1 : c.toNat < d.toNat := h1
  have a2 : d.toNat < e.toNat := h2
  show c.toNat < e.toNat
  omega

theorem strLtB_cons (c d : Char) (t u : Str) :
    strLtB (c :: t) (d :: u) =
      if c.val < d.val then true
      else if d.val < c.val then false else strLtB t u := rfl

theorem strLtB_irrefl : ∀ a : Str, strLtB a a = false := by
  intro a
  induction a with
  | nil => rfl
  | cons c t ih =>
      rw [strLtB_cons, if_neg (uval_not_lt_self c), if_neg (uval_not_lt_self c)]
      exact ih

theorem strLtB_asymm : ∀ a b : Str, strLtB a b = true → strLtB b a = false := by
  intro a
  induction a with
  | nil =>
      intro b h
      cases b with
      | nil => exact absurd h (by simp [strLtB])
      | cons c t => rfl
  | cons c t ih =>
      intro b h
      cases b with
      | nil => exact absurd h (by simp [strLtB])
      | cons d u =>
          rw [strLtB_cons] at h ⊢
          by_cases h1 : c.val < d.val
          · rw [if_neg (uval_lt_asymm h1), if_pos h1]
          · rw [if_neg h1] at h
            by_cases h2 : d.val < c.val
            · rw [if_pos h2] at h
              exact absurd h (by simp)
            · rw [if_neg h2] at h
              rw [if_neg h2, if_neg h1]
              exact ih u h

theorem strLtB_trans : ∀ a b c : Str,
    strLtB a b = true → strLtB b c = true → strLtB a c = true := by
  intro a
  induction a with
  | nil =>
      intro b c h1 h2
      cases b with
      | nil => exact absurd h1 (by simp [strLtB])
      | cons d u =>
          cases c with
          | nil => exact absurd h2 (by simp [strLtB])
          | cons e v => rfl
  | cons x t ih =>
      intro b c h1 h2
      cases b with
      | nil => exact absurd h1 (by simp [strLtB])
      | cons d u =>
          cases c with
          | nil => exact absurd h2 (by simp [strLtB])
          | cons e v =>
              rw [strLtB_cons] at h1 h2 ⊢
              by_cases p1 : x.val < d.val
              · by_cases p2 : d.val < e.val
                · rw [if_pos (uval_lt_trans p1 p2)]
                · rw [if_neg p2] at h2
                  by_cases p3 : e.val < d.val
                  · rw [if_pos p3] at h2
                    exact absurd h2 (by simp)
                  · have hde : d = e := char_val_eq_of_not_lt p2 p3
                    rw [if_pos (hde ▸ p1)]
              · rw [if_neg p1] at h1
                by_cases p4 : d.val < x.val
                · rw [if_pos p4] at h1
                  exact absurd h1 (by simp)
                · rw [if_neg p4] at h1
                  have hxd : x = d := char_val_eq_of_not_lt p1 p4
                  subst hxd
                  by_cases p2 : x.val < e.val
                  · rw [if_pos p2]
                  · rw [if_neg p2] at h2 ⊢
                    by_cases p3 : e.val < x.val
                    · rw [if_pos p3] at h2
                      exact absurd h2 (by simp)
                    · rw [if_neg p3] at h2 ⊢
                      exact ih u v h1 h2

theorem strLtB_conn : ∀ a b : Str,
    strLtB a b = false → strLtB b a = false → a = b := by
  intro a
  induction a with
  | nil =>
      intro b h1 h2
      cases b with
      | nil => rfl
      | cons d u => exact absurd h1 (by simp [strLtB])
  | cons c t ih =>
      intro b h1 h2
      cases b with
      | nil => exact absurd h2 (by simp [strLtB])
      | cons d u =>
          rw [strLtB_cons] at h1 h2
          by_cases p1 : c.val < d.val
          · rw [if_pos p1] at h1
            exact absurd h1 (by simp)
          · by_cases p2 : d.val < c.val
            · rw [if_pos p2] at h2
              exact absurd h2 (by simp)
            · rw [if_neg p1, if_neg p2] at h1
              rw [if_neg p2, if_neg p1] at h2
              rw [char_val_eq_of_not_lt p1 p2, ih u h1 h2]

theorem strLtB_eq_false_of_eq {a b : Str} (h : a = b) : strLtB a b = false := by
  subst h
  exact strLtB_irrefl a

theorem pairLtB_asymm {x y : Str × Str} (h : pairLtB x y = true) :
    pairLtB y x = false := by
  unfold pairLtB at *
  rcases Bool.or_eq_true_iff.mp h with h1 | h1
  · rw [strLtB_asymm _ _ h1]
    simp only [Bool.false_or, Bool.and_eq_false_iff]
    by_cases he : y.1 = x.1
    · rw [he] at h1
      exact absurd h1 (by rw [strLtB_irrefl]; simp)
    · left
      simp [he]
  · rcases Bool.and_eq_true_iff.mp h1 with ⟨he, hv⟩
    have he2 : x.1 = y.1 := by simpa using he
    rw [he2, strLtB_irrefl]
    simp only [Bool.false_or, Bool.and_eq_false_iff]
    right
    exact strLtB_asymm _ _ hv

theorem pairLtB_trans {x y z : Str × Str} (h1 : pairLtB x y = true)
    (h2 : pairLtB y z = true) : pairLtB x z = true := by
  unfold pairLtB at *
  rcases Bool.or_eq_true_iff.mp h1 with ha | ha
  · rcases Bool.or_eq_true_iff.mp h2 with hb | hb
    · rw [strLtB_trans _ _ _ ha hb]
      rfl
    · rcases Bool.and_eq_true_iff.mp hb with ⟨he, _⟩
      have he2 : y.1 = z.1 := by simpa using he
      rw [← he2, ha]
      rfl
  · rcases Bool.and_eq_true_iff.mp ha with ⟨he, hv⟩
    have he2 : x.1 = y.1 := by simpa using he
    rcases Bool.or_eq_true_iff.mp h2 with hb | hb
    · rw [he2, hb]
      rfl
    · rcases Bool.and_eq_true_iff.mp hb with ⟨hf, hw⟩
      have hf2 : y.1 = z.1 := by simpa using hf
      have : x.1 = z.1 := he2.trans hf2
      rw [this, strLtB_trans _ _ _ hv hw]
      simp

theorem pairLtB_conn {x y : Str × Str} (h1 : pairLtB x y = false)
    (h2 : pairLtB y x = false) : x = y := by
  unfold pairLtB at *
  rcases Bool.or_eq_false_iff.mp h1 with ⟨ha, hb⟩
  rcases Bool.or_eq_false_iff.mp h2 with ⟨hc, hd⟩
  have he : x.1 = y.1 := strLtB_conn _ _ ha hc
  rw [Bool.and_eq_false_iff] at hb hd
  have hv : strLtB x.2 y.2 = false := by
    rcases hb with hb | hb
    · exact absurd he (by simpa using hb)
    · exact hb
  have hw : strLtB y.2 x.2 = false := by
    rcases hd with hd | hd
    · exact absurd he.symm (by simpa using hd)
    · exact hd
  have h2eq : x.2 = y.2 := strLtB_conn _ _ hv hw
  exact Prod.ext he h2eq

theorem insertSorted_mem (x : Str × Str) :
    ∀ (l : List (Str × Str)) (y : Str × Str),
      y ∈ insertSorted x l ↔ y = x ∨ y ∈ l := by
  intro l
  induction l with
  | nil =>
      intro y
      simp [insertSorted]
  | cons z t ih =>
      intro y
      unfold insertSorted
      by_cases hp : pairLtB x z = true
      · rw [if_pos hp]
        simp only [List.mem_cons]
      · rw [if_neg hp]
        simp only [List.mem_cons, ih y]
        tauto

theorem insertSorted_sorted (x : Str × Str) :
    ∀ l : List (Str × Str),
      List.Pairwise (fun a b => pairLtB b a = false) l →
      List.Pairwise (fun a b => pairLtB b a = false) (insertSorted x l) := by
  intro l
  induction l with
  | nil =>
      intro _
      simp [insertSorted]
  | cons z t ih =>
      intro hp
      rw [List.pairwise_cons] at hp
      unfold insertSorted
      by_cases hc : pairLtB x z = true
      · rw [if_pos hc]
        rw [List.pairwise_cons]
        constructor
        · intro y hy
          rcases List.mem_cons.mp hy with rfl | hy2
          · exact pairLtB_asymm hc
          · cases hq : pairLtB y x with
            | false => rfl
            | true =>
                exfalso
                have hyz : pairLtB y z = true := pairLtB_trans hq hc
                have := hp.1 y hy2
                rw [this] at hyz
                exact absurd hyz (by simp)
        · exact List.pairwise_cons.mpr hp
      · rw [if_neg hc]
        rw [List.pairwise_cons]
        constructor
        · intro y hy
          rcases (insertSorted_mem x t y).mp hy with rfl | hy2
          · exact Bool.eq_false_iff.mpr fun hq => hc hq
          · exact hp.1 y hy2
        · exact ih hp.2

theorem insertSorted_append_last (x : Str × Str) :
    ∀ l : List (Str × Str), (∀ y ∈ l, pairLtB x y = false) →
      insertSorted x l = l ++ [x] := by
  intro l
  induction l with
  | nil => intro _; rfl
  | cons z t ih =>
      intro h
      unfold insertSorted
      rw [if_neg (by rw [h z (List.mem_cons_self z t)]; simp)]
      rw [ih fun y hy => h y (List.mem_cons_of_mem _ hy)]
      rfl

theorem pySort_go_mem :
    ∀ (l acc : List (Str × Str)) (y : Str × Str),
      y ∈ l.foldl (fun acc x => insertSorted x acc) acc ↔ y ∈ acc ∨ y ∈ l := by
  intro l
  induction l with
  | nil =>
      intro acc y
      simp
  | cons z t ih =>
      intro acc y
      rw [List.foldl_cons, ih, insertSorted_mem]
      simp only [List.mem_cons]
      tauto

theorem pySort_mem (l : List (Str × Str)) (y : Str × Str) :
    y ∈ pySort l ↔ y ∈ l := by
  unfold pySort
  rw [pySort_go_mem]
  simp

theorem pySort_go_sorted :
    ∀ (l acc : List (Str × Str)),
      List.Pairwise (fun a b => pairLtB b a = false) acc →
      List.Pairwise (fun a b => pairLtB b a = false)
        (l.foldl (fun acc x => insertSorted x acc) acc) := by
  intro l
  induction l with
  | nil =>
      intro acc h
      simpa using h
  | cons z t ih =>
      intro acc h
      rw [List.foldl_cons]
      exact ih _ (insertSorted_sorted z acc h)

theorem pySort_sorted (l : List (Str × Str)) :
    List.Pairwise (fun a b => pairLtB b a = false) (pySort l) := by
  unfold pySort
  exact pySort_go_sorted l [] (by simp)

theorem pySort_go_of_sorted :
    ∀ (l acc : List (Str × Str)),
      List.Pairwise (fun a b => pairLtB b a = false) (acc ++ l) →
      l.foldl (fun acc x => insertSorted x acc) acc = acc ++ l := by
  intro l
  induction l with
  | nil =>
      intro acc _
      simp
  | cons z t ih =>
      intro acc h
      rw [List.foldl_cons]
      have hcross : ∀ y ∈ acc, pairLtB z y = false := by
        intro y hy
        have := (List.pairwise_append.mp h).2.2 y hy z (List.mem_cons_self z t)
        exact this
      rw [insertSorted_append_last z acc hcross]
      have h2 : List.Pairwise (fun a b => pairLtB b a = false)
          ((acc ++ [z]) ++ t) := by
        rw [List.append_assoc]
        simpa using h
      rw [ih (acc ++ [z]) h2]
      simp

theorem pySort_of_sorted (l : List (Str × Str))
    (h : List.Pairwise (fun a b => pairLtB b a = false) l) :
    pySort l = l := by
  unfold pySort
  have := pySort_go_of_sorted l [] (by simpa using h)
  simpa using this

/-! ### UTF-8 round trip -/

theorem char_valid_range (c : Char) :
    c.toNat < 55296 ∨ (57344 ≤ c.toNat ∧ c.toNat < 1114112) := by
  have h : c.toNat.isValidChar := c.valid
  unfold Nat.isValidChar at h
  omega

theorem ofNat_toNat_valid {n : Nat} (h : n.isValidChar) :
    (Char.ofNat n).toNat = n := by
  unfold Char.ofNat
  rw [dif_pos h]
  rfl

theorem ofNat_toNat_self (c : Char) : Char.ofNat c.toNat = c :=
  Char.ext (UInt32.ext (by
    simpa using ofNat_toNat_valid (c.valid : c.toNat.isValidChar)))

theorem utf8_dec1 {n : Nat} (h : n < 0x80) (f : Nat) (bs : List Nat) :
    utf8DecodeGo (f + 1) (n :: bs) = Char.ofNat n :: utf8DecodeGo f bs := by
  simp only [utf8DecodeGo]
  rw [if_pos h]

theorem utf8_dec2 {n b1 : Nat} (h1 : 0xc2 ≤ n) (h2 : n ≤ 0xdf)
    (hb1 : 0x80 ≤ b1) (hb2 : b1 ≤ 0xbf) (f : Nat) (bs : List Nat) :
    utf8DecodeGo (f + 1) (n :: b1 :: bs) =
      Char.ofNat ((n - 0xc0) * 0x40 + (b1 - 0x80)) :: utf8DecodeGo f bs := by
  have e1 : (n < 0x80) = False := by simp; omega
  have e2 : (0xc2 ≤ n ∧ n ≤ 0xdf) = True := by simp [h1, h2]
  have e3 : isCont b1 = true := by
    unfold isCont
    rw [decide_eq_true_iff]
    exact ⟨hb1, hb2⟩
  simp only [utf8DecodeGo, e1, e2, e3, if_true, if_false]

theorem utf8_dec3 {n b1 b2 : Nat} (h1 : 0xe0 ≤ n) (h2 : n ≤ 0xef)
    (hg : ((n = 0xe0 && (0xa0 ≤ b1 && b1 ≤ 0xbf)) ||
           (n = 0xed && (0x80 ≤ b1 && b1 ≤ 0x9f)) ||
           (n ≠ 0xe0 && n ≠ 0xed && isCont b1)) = true)
    (hc2 : isCont b2 = true) (f : Nat) (bs : List Nat) :
    utf8DecodeGo (f + 1) (n :: b1 :: b2 :: bs) =
      Char.ofNat ((n - 0xe0) * 0x1000 + (b1 - 0x80) * 0x40 + (b2 - 0x80)) ::
        utf8DecodeGo f bs := by
  have e1 : (n < 0x80) = False := by simp; omega
  have e2 : (0xc2 ≤ n ∧ n ≤ 0xdf) = False := by simp; omega
  have e3 : (0xe0 ≤ n ∧ n ≤ 0xef) = True := by simp [h1, h2]
  simp only [utf8DecodeGo, e1, e2, e3, hg, hc2, if_true, if_false]

theorem utf8_dec4 {n b1 b2 b3 : Nat} (h1 : 0xf0 ≤ n) (h2 : n ≤ 0xf4)
    (hg : ((n = 0xf0 && (0x90 ≤ b1 && b1 ≤ 0xbf)) ||
           (n = 0xf4 && (0x80 ≤ b1 && b1 ≤ 0x8f)) ||
           (n ≠ 0xf0 && n ≠ 0xf4 && isCont b1)) = true)
    (hc2 : isCont b2 = true) (hc3 : isCont b3 = true) (f : Nat) (bs : List Nat) :
    utf8DecodeGo (f + 1) (n :: b1 :: b2 :: b3 :: bs) =
      Char.ofNat ((n - 0xf0) * 0x40000 + (b1 - 0x80) * 0x1000 +
        (b2 - 0x80) * 0x40 + (b3 - 0x80)) :: utf8DecodeGo f bs := by
  have e1 : (n < 0x80) = False := by simp; omega
  have e2 : (0xc2 ≤ n ∧ n ≤ 0xdf) = False := by simp; omega
  have e3 : (0xe0 ≤ n ∧ n ≤ 0xef) = False := by simp; omega
  have e4 : (0xf0 ≤ n ∧ n ≤ 0xf4) = True := by simp [h1, h2]
  simp only [utf8DecodeGo, e1, e2, e3, e4, hg, hc2, hc3, if_true, if_false]

theorem utf8_decode_enc (c : Char) (f : Nat) (bs : List Nat) :
    utf8DecodeGo (f + 1) (utf8EncodeChar c ++ bs) = c :: utf8DecodeGo f bs := by
  have hv := char_valid_range c
  unfold utf8EncodeChar
  by_cases h1 : c.toNat < 0x80
  · rw [if_pos h1, List.singleton_append, utf8_dec1 h1, ofNat_toNat_self]
  · rw [if_neg h1]
    by_cases h2 : c.toNat < 0x800
    · rw [if_pos h2]
      rw [show ([0xc0 + c.toNat / 0x40, 0x80 + c.toNat % 0x40] : List Nat) ++ bs =
        (0xc0 + c.toNat / 0x40) :: (0x80 + c.toNat % 0x40) :: bs from rfl]
      rw [utf8_dec2 (by omega) (by omega) (by omega) (by omega)]
      have harith : (0xc0 + c.toNat / 0x40 - 0xc0) * 0x40 +
          (0x80 + c.toNat % 0x40 - 0x80) = c.toNat := by omega
      rw [harith, ofNat_toNat_self]
    · rw [if_neg h2]
      by_cases h3 : c.toNat < 0x10000
      · rw [if_pos h3]
        rw [show ([0xe0 + c.toNat / 0x1000, 0x80 + (c.toNat / 0x40) % 0x40,
            0x80 + c.toNat % 0x40] : List Nat) ++ bs =
          (0xe0 + c.toNat / 0x1000) :: (0x80 + (c.toNat / 0x40) % 0x40) ::
            (0x80 + c.toNat % 0x40) :: bs from rfl]
        rw [utf8_dec3 (by omega) (by omega) ?hg ?hc2]
        · have harith : (0xe0 + c.toNat / 0x1000 - 0xe0) * 0x1000 +
              (0x80 + (c.toNat / 0x40) % 0x40 - 0x80) * 0x40 +
              (0x80 + c.toNat % 0x40 - 0x80) = c.toNat := by omega
          rw [harith, ofNat_toNat_self]
        case hg =>
          simp only [Bool.or_eq_true, Bool.and_eq_true, decide_eq_true_iff,
            bne_iff_ne, ne_eq, isCont, decide_not, Bool.not_eq_true',
            decide_eq_false_iff_not]
          omega
        case hc2 =>
          unfold isCont
          rw [decide_eq_true_iff]
          omega
      · rw [if_neg h3]
        rw [show ([0xf0 + c.toNat / 0x40000, 0x80 + (c.toNat / 0x1000) % 0x40,
            0x80 + (c.toNat / 0x40) % 0x40, 0x80 + c.toNat % 0x40] : List Nat) ++ bs =
          (0xf0 + c.toNat / 0x40000) :: (0x80 + (c.toNat / 0x1000) % 0x40) ::
            (0x80 + (c.toNat / 0x40) % 0x40) :: (0x80 + c.toNat % 0x40) :: bs from rfl]
        rw [utf8_dec4 (by omega) (by omega) ?hg ?hc2 ?hc3]
        · have harith : (0xf0 + c.toNat / 0x40000 - 0xf0) * 0x40000 +
              (0x80 + (c.toNat / 0x1000) % 0x40 - 0x80) * 0x1000 +
              (0x80 + (c.toNat / 0x40) % 0x40 - 0x80) * 0x40 +
              (0x80 + c.toNat % 0x40 - 0x80) = c.toNat := by omega
          rw [harith, ofNat_toNat_self]
        case hg =>
          simp only [Bool.or_eq_true, Bool.and_eq_true, decide_eq_true_iff,
            bne_iff_ne, ne_eq, isCont, decide_not, Bool.not_eq_true',
            decide_eq_false_iff_not]
          omega
        case hc2 =>
          unfold isCont
          rw [decide_eq_true_iff]
          omega
        case hc3 =>
          unfold isCont
          rw [decide_eq_true_iff]
          omega

theorem utf8EncodeChar_ne_nil (c : Char) : utf8EncodeChar c ≠ [] := by
  unfold utf8EncodeChar
  by_cases h1 : c.toNat < 0x80
  · rw [if_pos h1]
    simp
  · rw [if_neg h1]
    by_cases h2 : c.toNat < 0x800
    · rw [if_pos h2]
      simp
    · rw [if_neg h2]
      by_cases h3 : c.toNat < 0x10000
      · rw [if_pos h3]
        simp
      · rw [if_neg h3]
        simp

theorem utf8EncodeChar_bytes_lt (c : Char) : ∀ b ∈ utf8EncodeChar c, b < 256 := by
  have hv := char_valid_range c
  unfold utf8EncodeChar
  by_cases h1 : c.toNat < 0x80
  · rw [if_pos h1]
    intro b hb
    simp at hb
    omega
  · rw [if_neg h1]
    by_cases h2 : c.toNat < 0x800
    · rw [if_pos h2]
      intro b hb
      simp at hb
      rcases hb with rfl | rfl <;> omega
    · rw [if_neg h2]
      by_cases h3 : c.toNat < 0x10000
      · rw [if_pos h3]
        intro b hb
        simp at hb
        rcases hb with rfl | rfl | rfl <;> omega
      · rw [if_neg h3]
        intro b hb
        simp at hb
        rcases hb with rfl | rfl | rfl | rfl <;> omega

theorem utf8_decode_flat (x : List Char) :
    ∀ f, x.length ≤ f → utf8DecodeGo f (x.flatMap utf8EncodeChar) = x := by
  induction x with
  | nil =>
      intro f _
      cases f with
      | zero => rfl
      | succ f' => rfl
  | cons c t ih =>
      intro f hf
      cases f with
      | zero => simp at hf
      | succ f' =>
          rw [List.flatMap_cons, utf8_decode_enc c f' (t.flatMap utf8EncodeChar)]
          rw [ih f' (by simpa using hf)]

theorem length_le_flatMap_enc (x : List Char) :
    x.length ≤ (x.flatMap utf8EncodeChar).length := by
  induction x with
  | nil => simp
  | cons c t ih =>
      rw [List.flatMap_cons, List.length_append]
      have hne := utf8EncodeChar_ne_nil c
      have : 1 ≤ (utf8EncodeChar c).length := by
        cases he : utf8EncodeChar c with
        | nil => exact absurd he hne
        | cons a l => simp
      simp only [List.length_cons]
      omega

theorem utf8DecodeR_flat (x : List Char) :
    utf8DecodeR (x.flatMap utf8EncodeChar) = x := by
  unfold utf8DecodeR
  apply utf8_decode_flat
  have := length_le_flatMap_enc x
  omega

/-! ### Percent decoding of the quoter output -/

theorem hexDigitVal_hexUpper (n : Nat) (h : n < 16) :
    hexDigitVal (hexUpper n) = some n := by
  interval_cases n <;> decide

theorem hexUpper_toNat (n : Nat) (h : n < 16) :
    (48 ≤ (hexUpper n).toNat ∧ (hexUpper n).toNat ≤ 57) ∨
    (65 ≤ (hexUpper n).toNat ∧ (hexUpper n).toNat ≤ 70) := by
  interval_cases n <;> decide

theorem percentDecode_cons_ne (c : Char) (rest : Str) (h : c ≠ '%') :
    percentDecodeBytes (c :: rest) = c.toNat :: percentDecodeBytes rest := by
  rw [percentDecodeBytes.eq_def]
  split
  · next heq => exact absurd heq (by simp)
  · next c1 c2 r heq =>
      exfalso
      injection heq with h1 _
      exact h h1
  · next c' r _ heq2 =>
      injection heq2 with h1 h2
      rw [h1, h2]

theorem percentDecode_escape (h1 h2 : Char) (v1 v2 : Nat) (rest : Str)
    (e1 : hexDigitVal h1 = some v1) (e2 : hexDigitVal h2 = some v2) :
    percentDecodeBytes ('%' :: h1 :: h2 :: rest) =
      (16 * v1 + v2) :: percentDecodeBytes rest := by
  rw [percentDecodeBytes.eq_def]
  split
  · next heq => exact absurd heq (by simp)
  · next c1 c2 r heq =>
      injection heq with ha hrest
      injection hrest with hb hrest2
      injection hrest2 with hc hrest3
      rw [← hb, ← hc, ← hrest3, e1, e2]
  · next c' r hnm heq2 =>
      exfalso
      injection heq2 with ha hr
      exact hnm h1 h2 rest ha.symm hr.symm

theorem percentDecode_triples (bs : List Nat) (hbs : ∀ b ∈ bs, b < 256) :
    ∀ rest : Str,
      percentDecodeBytes
        ((bs.flatMap fun b => ['%', hexUpper (b / 16), hexUpper (b % 16)]) ++ rest) =
      bs ++ percentDecodeBytes rest := by
  induction bs with
  | nil =>
      intro rest
      simp
  | cons b t ih =>
      intro rest
      have hb : b < 256 := hbs b (List.mem_cons_self b t)
      rw [List.flatMap_cons]
      rw [show (['%', hexUpper (b / 16), hexUpper (b % 16)] ++
          t.flatMap fun b => ['%', hexUpper (b / 16), hexUpper (b % 16)]) ++ rest =
        '%' :: hexUpper (b / 16) :: hexUpper (b % 16) ::
          ((t.flatMap fun b => ['%', hexUpper (b / 16), hexUpper (b % 16)]) ++ rest) by
        simp]
      rw [percentDecode_escape _ _ (b / 16) (b % 16) _
        (hexDigitVal_hexUpper _ (by omega)) (hexDigitVal_hexUpper _ (by omega))]
      rw [ih (fun x hx => hbs x (List.mem_cons_of_mem _ hx)) rest]
      have : 16 * (b / 16) + b % 16 = b := by omega
      rw [this]
      rfl

/-! ### The quoter and unquoter round trip -/

theorem containsChar_iff {c : Char} {s : Str} : containsChar c s = true ↔ c ∈ s := by
  unfold containsChar
  exact List.elem_iff

theorem quotePlus_char_class {s : Str} : ∀ x ∈ quotePlus s,
    (65 ≤ x.toNat ∧ x.toNat ≤ 90) ∨ (97 ≤ x.toNat ∧ x.toNat ≤ 122) ∨
    (48 ≤ x.toNat ∧ x.toNat ≤ 57) ∨ x.toNat = 95 ∨ x.toNat = 46 ∨
    x.toNat = 45 ∨ x.toNat = 126 ∨ x.toNat = 43 ∨ x.toNat = 37 := by
  intro x hx
  unfold quotePlus at hx
  rw [List.mem_flatMap] at hx
  rcases hx with ⟨c, _, hxc⟩
  by_cases h1 : alwaysSafe c = true
  · rw [if_pos h1] at hxc
    simp at hxc
    subst hxc
    have := (alwaysSafe_iff x).mp h1
    tauto
  · rw [if_neg h1] at hxc
    by_cases h2 : c = ' '
    · rw [if_pos h2] at hxc
      simp at hxc
      subst hxc
      have : ('+' : Char).toNat = 43 := rfl
      tauto
    · rw [if_neg h2] at hxc
      rw [List.mem_flatMap] at hxc
      rcases hxc with ⟨b, hb, hxb⟩
      have hblt : b < 256 := utf8EncodeChar_bytes_lt c b hb
      simp only [List.mem_cons, List.not_mem_nil, or_false] at hxb
      rcases hxb with rfl | rfl | rfl
      · have : ('%' : Char).toNat = 37 := rfl
        tauto
      · have := hexUpper_toNat (b / 16) (by omega)
        omega
      · have := hexUpper_toNat (b % 16) (by omega)
        omega

theorem pd_quote : ∀ s : Str,
    percentDecodeBytes (replaceChar '+' ' ' (quotePlus s)) =
      s.flatMap utf8EncodeChar := by
  intro s
  induction s with
  | nil => rfl
  | cons c t ih =>
      unfold quotePlus replaceChar at ih ⊢
      rw [List.flatMap_cons, List.map_append, List.flatMap_cons]
      by_cases h1 : alwaysSafe c = true
      · rw [if_pos h1]
        have hcp : c ≠ '+' := fun e => absurd (e ▸ h1) (by decide)
        have hpc : c ≠ '%' := fun e => absurd (e ▸ h1) (by decide)
        rw [show List.map (fun d => if d = '+' then ' ' else d) [c] = [c] by
          simp [hcp]]
        rw [List.singleton_append, percentDecode_cons_ne c _ hpc, ih]
        have hlt : c.toNat < 0x80 := by
          have := (alwaysSafe_iff c).mp h1
          omega
        rw [show utf8EncodeChar c = [c.toNat] by
          unfold utf8EncodeChar
          rw [if_pos hlt]]
        rw [List.singleton_append]
      · rw [if_neg h1]
        by_cases h2 : c = ' '
        · rw [if_pos h2]
          rw [show List.map (fun d => if d = '+' then ' ' else d) ['+'] = [' '] by
            simp]
          rw [List.singleton_append, percentDecode_cons_ne ' ' _ (by decide), ih]
          subst h2
          rw [show utf8EncodeChar ' ' = [32] from rfl, List.singleton_append]
          rfl
        · rw [if_neg h2]
          have hmap : List.map (fun d => if d = '+' then ' ' else d)
              ((utf8EncodeChar c).flatMap fun b =>
                ['%', hexUpper (b / 16), hexUpper (b % 16)]) =
              (utf8EncodeChar c).flatMap fun b =>
                ['%', hexUpper (b / 16), hexUpper (b % 16)] := by
            apply list_map_id_of
            intro d hd
            rw [List.mem_flatMap] at hd
            rcases hd with ⟨b, hb, hdb⟩
            have hblt := utf8EncodeChar_bytes_lt c b hb
            simp only [List.mem_cons, List.not_mem_nil, or_false] at hdb
            have hdp : d ≠ '+' := by
              rcases hdb with rfl | rfl | rfl
              · decide
              · have hr := hexUpper_toNat (b / 16) (by omega)
                intro e
                rw [char_eq_lit, show ('+' : Char).toNat = 43 from rfl] at e
                omega
              · have hr := hexUpper_toNat (b % 16) (by omega)
                intro e
                rw [char_eq_lit, show ('+' : Char).toNat = 43 from rfl] at e
                omega
            simp [hdp]
          rw [hmap,
            percentDecode_triples (utf8EncodeChar c) (utf8EncodeChar_bytes_lt c),
            ih]

theorem unquoteGo_nil : ∀ f, unquoteGo f [] = [] := by
  intro f
  cases f with
  | zero => rfl
  | succ f' => rfl

theorem replace_quote_no_escape : ∀ k : Str,
    '%' ∉ replaceChar '+' ' ' (quotePlus k) →
    replaceChar '+' ' ' (quotePlus k) = k := by
  intro k
  induction k with
  | nil => intro _; rfl
  | cons c t ih =>
      intro hnp
      unfold quotePlus replaceChar at hnp ih ⊢
      rw [List.flatMap_cons, List.map_append] at hnp ⊢
      have hnp1 : '%' ∉ List.map (fun d => if d = '+' then ' ' else d)
          (t.flatMap fun c =>
            if alwaysSafe c then [c]
            else if c = ' ' then ['+']
            else (utf8EncodeChar c).flatMap fun b =>
              ['%', hexUpper (b / 16), hexUpper (b % 16)]) :=
        fun hm => hnp (List.mem_append.mpr (Or.inr hm))
      by_cases h1 : alwaysSafe c = true
      · rw [if_pos h1]
        have hcp : c ≠ '+' := fun e => absurd (e ▸ h1) (by decide)
        rw [show List.map (fun d => if d = '+' then ' ' else d) [c] = [c] by
          simp [hcp]]
        rw [ih hnp1, List.singleton_append]
      · rw [if_neg h1]
        by_cases h2 : c = ' '
        · rw [if_pos h2]
          rw [show List.map (fun d => if d = '+' then ' ' else d) ['+'] = [' '] by
            simp]
          rw [ih hnp1, List.singleton_append, h2]
        · exfalso
          apply hnp
          apply List.mem_append.mpr
          left
          rw [if_neg h1, if_neg h2]
          cases henc : utf8EncodeChar c with
          | nil => exact absurd henc (utf8EncodeChar_ne_nil c)
          | cons b bs =>
              exact List.mem_map.mpr ⟨'%',
                List.mem_flatMap.mpr ⟨b, by simp, by simp⟩, by decide⟩

theorem unquote_quote (k : Str) :
    unquote (replaceChar '+' ' ' (quotePlus k)) = k := by
  unfold unquote
  by_cases hp : containsChar '%' (replaceChar '+' ' ' (quotePlus k)) = true
  · rw [if_pos hp]
    have hascii : ∀ x ∈ replaceChar '+' ' ' (quotePlus k), isAsciiChar x = true := by
      intro x hx
      unfold replaceChar at hx
      rw [List.mem_map] at hx
      rcases hx with ⟨y, hy, rfl⟩
      have hcl := quotePlus_char_class y hy
      by_cases hy2 : y = '+'
      · rw [if_pos hy2]
        decide
      · rw [if_neg hy2]
        unfold isAsciiChar
        rw [decide_eq_true_iff]
        omega
    cases hs : replaceChar '+' ' ' (quotePlus k) with
    | nil =>
        rw [hs] at hp
        exact absurd hp (by decide)
    | cons c rest =>
        rw [hs] at hascii
        simp only [unquoteGo]
        rw [if_pos (hascii c (List.mem_cons_self c rest))]
        rw [takeWhile_all _ hascii]
        rw [List.dropWhile_eq_nil_iff.mpr hascii]
        rw [unquoteGo_nil, ← hs, pd_quote k, utf8DecodeR_flat]
        simp
  · rw [if_neg hp]
    apply replace_quote_no_escape
    intro hm
    exact hp (containsChar_iff.mpr hm)

/-! ### Splitting the urlencoded query back into pairs -/

theorem intercalate_single (sep x : Str) : List.intercalate sep [x] = x := by
  simp [List.intercalate]

theorem intercalate_cons2 (sep x y : Str) (t : List Str) :
    List.intercalate sep (x :: y :: t) =
      x ++ sep ++ List.intercalate sep (y :: t) := by
  simp [List.intercalate, List.intersperse]

theorem intercalate_cons_ne_nil (sep x : Str) (xs : List Str) (hx : x ≠ []) :
    List.intercalate sep (x :: xs) ≠ [] := by
  cases xs with
  | nil =>
      rw [intercalate_single]
      exact hx
  | cons y t =>
      rw [intercalate_cons2]
      simp [hx]

theorem splitGo_no_sep (sep : Char) :
    ∀ (s acc : Str), sep ∉ s → splitOnCharGo sep acc s = [acc.reverse ++ s] := by
  intro s
  induction s with
  | nil =>
      intro acc _
      simp [splitOnCharGo]
  | cons c t ih =>
      intro acc hns
      have hc : c ≠ sep := fun e => hns (by rw [← e]; exact List.mem_cons_self _ _)
      simp only [splitOnCharGo]
      rw [if_neg hc, ih (c :: acc) fun hm => hns (List.mem_cons_of_mem _ hm)]
      simp

theorem splitGo_sep (sep : Char) :
    ∀ (s acc rest : Str), sep ∉ s →
      splitOnCharGo sep acc (s ++ sep :: rest) =
        (acc.reverse ++ s) :: splitOnCharGo sep [] rest := by
  intro s
  induction s with
  | nil =>
      intro acc rest _
      simp only [List.nil_append, splitOnCharGo]
      simp
  | cons c t ih =>
      intro acc rest hns
      have hc : c ≠ sep := fun e => hns (by rw [← e]; exact List.mem_cons_self _ _)
      rw [List.cons_append]
      simp only [splitOnCharGo]
      rw [if_neg hc, ih (c :: acc) rest fun hm => hns (List.mem_cons_of_mem _ hm)]
      simp

theorem pySplitChar_intercalate (sep : Char) :
    ∀ (xs : List Str) (x : Str), sep ∉ x → (∀ p ∈ xs, sep ∉ p) →
      pySplitChar sep (List.intercalate [sep] (x :: xs)) = x :: xs := by
  intro xs
  induction xs with
  | nil =>
      intro x hx _
      rw [intercalate_single]
      unfold pySplitChar
      rw [splitGo_no_sep sep x [] hx]
      simp
  | cons y t ih =>
      intro x hx hall
      rw [intercalate_cons2]
      unfold pySplitChar
      rw [show x ++ [sep] ++ List.intercalate [sep] (y :: t) =
          x ++ sep :: List.intercalate [sep] (y :: t) by simp]
      rw [splitGo_sep sep x [] _ hx]
      simp only [List.reverse_nil, List.nil_append]
      have hih := ih y (hall y (List.mem_cons_self y t))
        fun p hp => hall p (List.mem_cons_of_mem _ hp)
      unfold pySplitChar at hih
      rw [hih]

theorem quotePlus_no_eq {s : Str} : '=' ∉ quotePlus s := by
  intro hm
  have h := quotePlus_char_class '=' hm
  rw [show ('=' : Char).toNat = 61 from rfl] at h
  omega

theorem quotePlus_no_amp {s : Str} : '&' ∉ quotePlus s := by
  intro hm
  have h := quotePlus_char_class '&' hm
  rw [show ('&' : Char).toNat = 38 from rfl] at h
  omega

theorem qsl_fold (l : List (Str × Str)) :
    (l.map fun kv => quotePlus kv.1 ++ ['='] ++ quotePlus kv.2).foldr
      (fun nv acc =>
        if nv = [] then acc
        else
          let p := pySplitFirst '=' nv
          (unquote (replaceChar '+' ' ' p.1),
           unquote (replaceChar '+' ' ' (p.2.getD []))) :: acc) [] = l := by
  induction l with
  | nil => rfl
  | cons kv t ih =>
      have hne : quotePlus kv.1 ++ ['='] ++ quotePlus kv.2 ≠ [] := by simp
      have hsf : pySplitFirst '=' (quotePlus kv.1 ++ ['='] ++ quotePlus kv.2) =
          (quotePlus kv.1, some (quotePlus kv.2)) := by
        rw [List.append_assoc,
          show (['='] : Str) ++ quotePlus kv.2 = '=' :: quotePlus kv.2 from rfl]
        exact pySplitFirst_found _ _ quotePlus_no_eq
      simp only [List.map_cons, List.foldr_cons, if_neg hne, hsf, Option.getD_some]
      rw [unquote_quote, unquote_quote, ih]

theorem parse_qsl_urlencode (l : List (Str × Str)) :
    parse_qsl (urlencodePairs l) = l := by
  cases l with
  | nil => rfl
  | cons kv t =>
      unfold parse_qsl urlencodePairs
      rw [List.map_cons]
      have hqne : List.intercalate (str "&")
          ((quotePlus kv.1 ++ ['='] ++ quotePlus kv.2) ::
            (t.map fun kv => quotePlus kv.1 ++ ['='] ++ quotePlus kv.2)) ≠ [] :=
        intercalate_cons_ne_nil _ _ _ (by simp)
      rw [if_neg hqne]
      rw [show str "&" = ['&'] from rfl]
      have hamp1 : '&' ∉ quotePlus kv.1 ++ ['='] ++ quotePlus kv.2 := by
        intro hm
        rcases List.mem_append.mp hm with hm1 | hm1
        · rcases List.mem_append.mp hm1 with hm2 | hm2
          · exact quotePlus_no_amp hm2
          · simp at hm2
        · exact quotePlus_no_amp hm1
      have hampall : ∀ p ∈ t.map fun kv => quotePlus kv.1 ++ ['='] ++ quotePlus kv.2,
          '&' ∉ p := by
        intro p hp hm
        rw [List.mem_map] at hp
        rcases hp with ⟨kv2, _, rfl⟩
        rcases List.mem_append.mp hm with hm1 | hm1
        · rcases List.mem_append.mp hm1 with hm2 | hm2
          · exact quotePlus_no_amp hm2
          · simp at hm2
        · exact quotePlus_no_amp hm1
      rw [pySplitChar_intercalate '&' _ _ hamp1 hampall]
      have hfold := qsl_fold (kv :: t)
      rw [List.map_cons] at hfold
      exact hfold

/-! ### Character facts for the rebuilt URL -/

theorem schemeChar_props {c : Char} (h : isSchemeChar c = true) :
    cleanChar c = true ∧ c ≠ '#' ∧ c ≠ '?' ∧ c ≠ ':' ∧ c ≠ '/' := by
  have hc := (isSchemeChar_iff c).mp h
  refine ⟨(cleanChar_iff c).mpr (by omega), ?_, ?_, ?_, ?_⟩
  · intro e
    rw [char_eq_lit, show ('#' : Char).toNat = 35 from rfl] at e
    omega
  · intro e
    rw [char_eq_lit, show ('?' : Char).toNat = 63 from rfl] at e
    omega
  · intro e
    rw [char_eq_lit, show (':' : Char).toNat = 58 from rfl] at e
    omega
  · intro e
    rw [char_eq_lit, show ('/' : Char).toNat = 47 from rfl] at e
    omega

theorem mem_intercalate {x : Char} {sep : Str} :
    ∀ xs : List Str, x ∈ List.intercalate sep xs → x ∈ sep ∨ ∃ p ∈ xs, x ∈ p := by
  intro xs
  induction xs with
  | nil =>
      intro h
      simp [List.intercalate] at h
  | cons a t ih =>
      cases t with
      | nil =>
          rw [intercalate_single]
          intro h
          right
          exact ⟨a, by simp, h⟩
      | cons b t2 =>
          rw [intercalate_cons2]
          intro h
          rcases List.mem_append.mp h with h1 | h1
          · rcases List.mem_append.mp h1 with h2 | h2
            · right
              exact ⟨a, by simp, h2⟩
            · left
              exact h2
          · rcases ih h1 with h2 | ⟨p, hp, hxp⟩
            · left
              exact h2
            · right
              exact ⟨p, List.mem_cons_of_mem _ hp, hxp⟩

theorem urlencode_char_class (pairs : List (Str × Str)) :
    ∀ x ∈ urlencodePairs pairs,
      (65 ≤ x.toNat ∧ x.toNat ≤ 90) ∨ (97 ≤ x.toNat ∧ x.toNat ≤ 122) ∨
      (48 ≤ x.toNat ∧ x.toNat ≤ 57) ∨ x.toNat = 95 ∨ x.toNat = 46 ∨
      x.toNat = 45 ∨ x.toNat = 126 ∨ x.toNat = 43 ∨ x.toNat = 37 ∨
      x.toNat = 61 ∨ x.toNat = 38 := by
  intro x hx
  unfold urlencodePairs at hx
  rcases mem_intercalate _ hx with hsep | ⟨p, hp, hxp⟩
  · rw [show str "&" = ['&'] from rfl] at hsep
    simp at hsep
    subst hsep
    have h38 : ('&' : Char).toNat = 38 := rfl
    omega
  · rw [List.mem_map] at hp
    rcases hp with ⟨kv, _, rfl⟩
    rcases List.mem_append.mp hxp with h1 | h1
    · rcases List.mem_append.mp h1 with h2 | h2
      · have := quotePlus_char_class x h2
        omega
      · simp at h2
        subst h2
        have h61 : ('=' : Char).toNat = 61 := rfl
        omega
    · have := quotePlus_char_class x h1
      omega

theorem urlencode_char_facts {pairs : List (Str × Str)} :
    ∀ x ∈ urlencodePairs pairs, cleanChar x = true ∧ x ≠ '#' ∧ x ≠ '?' ∧
      x ≠ '/' ∧ x ≠ ':' := by
  intro x hx
  have h := urlencode_char_class pairs x hx
  refine ⟨(cleanChar_iff x).mpr (by omega), ?_, ?_, ?_, ?_⟩
  · intro e
    rw [char_eq_lit, show ('#' : Char).toNat = 35 from rfl] at e
    omega
  · intro e
    rw [char_eq_lit, show ('?' : Char).toNat = 63 from rfl] at e
    omega
  · intro e
    rw [char_eq_lit, show ('/' : Char).toNat = 47 from rfl] at e
    omega
  · intro e
    rw [char_eq_lit, show (':' : Char).toNat = 58 from rfl] at e
    omega

theorem urlencodePairs_eq_nil {pairs : List (Str × Str)}
    (h : urlencodePairs pairs = []) : pairs = [] := by
  cases pairs with
  | nil => rfl
  | cons kv t =>
      exfalso
      unfold urlencodePairs at h
      rw [List.map_cons] at h
      exact intercalate_cons_ne_nil _ _ _ (by simp) h

/-! ### Reassembling the split of a rebuilt URL -/

theorem splitScheme_nil_eq {R : Str} (h : (splitScheme [] R).1 = []) :
    splitScheme [] R = ([], R) := by
  by_cases hcol : ':' ∈ R
  · rcases dropWhile_ne_first ':' R hcol with ⟨rest, hr⟩
    cases hpre : R.takeWhile (· ≠ ':') with
    | nil =>
        have hts : R = ':' :: rest := by
          conv_lhs => rw [← List.takeWhile_append_dropWhile (· ≠ ':') R]
          rw [hr, hpre]
          rfl
        rw [hts, splitScheme_decomp_nil]
    | cons c t' =>
        have hts : R = (c :: t') ++ ':' :: rest := by
          conv_lhs => rw [← List.takeWhile_append_dropWhile (· ≠ ':') R]
          rw [hr, hpre]
        have hnc : ':' ∉ c :: t' := by
          intro hm
          have hm2 : ':' ∈ R.takeWhile (· ≠ ':') := by
            rw [hpre]
            exact hm
          have := List.mem_takeWhile_imp hm2
          simp at this
        rw [hts, splitScheme_decomp_cons _ _ _ hnc] at h ⊢
        by_cases hcond : isAsciiAlpha c = true ∧ (c :: t').all isSchemeChar = true
        · rw [if_pos hcond] at h
          exact absurd h (by simp [lowerStr])
        · rw [if_neg hcond] at h ⊢
  · exact splitScheme_no_colon hcol

theorem splitScheme_opt (A R : Str)
    (hs : A = [] ∨ (∃ c t, A = c :: t ∧ isAsciiAlpha c = true ∧
      A.all isSchemeChar = true ∧ lowerStr A = A))
    (hR : A = [] → (splitScheme [] R).1 = []) :
    splitScheme [] (if A ≠ [] then A ++ ':' :: R else R) = (A, R) := by
  rcases hs with rfl | ⟨c, t, hA, halpha, hall, hlow⟩
  · rw [if_neg (by simp)]
    exact splitScheme_nil_eq (hR rfl)
  · rw [if_pos (by rw [hA]; simp)]
    have hcolon : ':' ∉ A := by
      intro hm
      have := List.all_eq_true.mp hall ':' hm
      exact absurd this (by decide)
    rw [splitScheme_found R c t hA hcolon halpha hall, hlow]

theorem pyRStripChar_decomp (c : Char) (s : Str) :
    ∃ m, s = pyRStripChar c s ++ m ∧ ∀ a ∈ m, a = c := by
  refine ⟨(s.reverse.takeWhile (· = c)).reverse, ?_, ?_⟩
  · unfold pyRStripChar
    rw [← List.reverse_append, List.takeWhile_append_dropWhile, List.reverse_reverse]
  · intro a ha
    have := List.mem_takeWhile_imp (List.mem_reverse.mp ha)
    simpa using this

theorem pyRStripChar_head {c : Char} {s : Str} (hne : pyRStripChar c s ≠ []) :
    (pyRStripChar c s).head? = s.head? := by
  rcases pyRStripChar_decomp c s with ⟨m, hdec, _⟩
  conv_rhs => rw [hdec]
  cases hh : pyRStripChar c s with
  | nil => exact absurd hh hne
  | cons a t => simp [hh]

theorem take2_of_append {t m s : Str} (hs : s = t ++ m)
    (h : s.take 2 ≠ str "//") : t.take 2 ≠ str "//" := by
  intro he
  apply h
  cases t with
  | nil => simp [str] at he
  | cons a t2 =>
      cases t2 with
      | nil => simp [str] at he
      | cons b t3 =>
          have hab : a = '/' ∧ b = '/' := by
            simp [str] at he
            exact ⟨he.1, he.2⟩
          rw [hs]
          simp [str, hab.1, hab.2]

theorem take2_append_q {P q : Str} (h : P.take 2 ≠ str "//") :
    (P ++ '?' :: q).take 2 ≠ str "//" := by
  cases P with
  | nil =>
      intro he
      simp [str] at he
  | cons a t =>
      cases t with
      | nil =>
          intro he
          simp [str] at he
      | cons b t2 =>
          intro he
          apply h
          simp [str] at he ⊢
          exact ⟨he.1, he.2⟩

theorem subRuns_mem_keep {p : Char → Bool} {r x : Char} (hx : p x = false) :
    ∀ l : Str, x ∈ l → x ∈ subRuns p r l := by
  intro l
  induction l with
  | nil => intro h; exact absurd h (List.not_mem_nil x)
  | cons c t ih =>
      intro h
      by_cases hc : p c = true
      · have hxc : x ≠ c := fun e => by rw [e, hc] at hx; exact absurd hx (by simp)
        have hxt : x ∈ t := by
          rcases List.mem_cons.mp h with h1 | h1
          · exact absurd h1 hxc
          · exact h1
        cases t with
        | nil => exact absurd hxt (List.not_mem_nil x)
        | cons c2 t2 =>
            by_cases hc2 : p c2 = true
            · rw [subRuns_cons2_pos_pos hc hc2]
              exact ih hxt
            · rw [subRuns_cons2_pos_neg hc (by simpa using hc2)]
              exact List.mem_cons_of_mem _ (ih hxt)
      · rw [subRuns_cons_neg (by simpa using hc)]
        rcases List.mem_cons.mp h with h1 | h1
        · exact h1 ▸ List.mem_cons_self _ _
        · exact List.mem_cons_of_mem _ (ih h1)

theorem subRuns_mem_class {p : Char → Bool} {r : Char} :
    ∀ l : Str, (∃ x ∈ l, p x = true) → r ∈ subRuns p r l := by
  intro l
  induction l with
  | nil =>
      rintro ⟨x, hx, _⟩
      exact absurd hx (List.not_mem_nil x)
  | cons c t ih =>
      rintro ⟨x, hx, hpx⟩
      by_cases hc : p c = true
      · cases t with
        | nil =>
            rw [subRuns_singleton_pos hc]
            simp
        | cons c2 t2 =>
            by_cases hc2 : p c2 = true
            · rw [subRuns_cons2_pos_pos hc hc2]
              exact ih ⟨c2, List.mem_cons_self _ _, hc2⟩
            · rw [subRuns_cons2_pos_neg hc (by simpa using hc2)]
              exact List.mem_cons_self _ _
      · have hxt : x ∈ t := by
          rcases List.mem_cons.mp hx with h1 | h1
          · rw [h1] at hpx
            exact absurd hpx hc
          · exact h1
        rw [subRuns_cons_neg (by simpa using hc)]
        exact List.mem_cons_of_mem _ (ih ⟨x, hxt, hpx⟩)

theorem subRuns_append_head_nonclass {p : Char → Bool} {r : Char} {b : Str}
    (hb : ∃ d t, b = d :: t ∧ p d = false) :
    ∀ a : Str, subRuns p r (a ++ b) = subRuns p r a ++ subRuns p r b := by
  rcases hb with ⟨d, bt, rfl, hd⟩
  intro a
  induction a with
  | nil => rfl
  | cons c t ih =>
      by_cases hc : p c = true
      · cases t with
        | nil =>
            rw [show (c :: [] : Str) ++ d :: bt = c :: d :: bt by simp]
            rw [subRuns_cons2_pos_neg hc hd, subRuns_singleton_pos hc]
            rfl
        | cons c2 t2 =>
            rw [show (c :: c2 :: t2 : Str) ++ d :: bt = c :: c2 :: (t2 ++ d :: bt)
              by simp]
            rw [show (c2 :: t2 : Str) ++ d :: bt = c2 :: (t2 ++ d :: bt)
              by simp] at ih
            by_cases hc2 : p c2 = true
            · rw [subRuns_cons2_pos_pos hc hc2, subRuns_cons2_pos_pos hc hc2, ih]
            · rw [subRuns_cons2_pos_neg hc (by simpa using hc2),
                subRuns_cons2_pos_neg hc (by simpa using hc2), ih]
              rfl
      · rw [show (c :: t : Str) ++ d :: bt = c :: (t ++ d :: bt) by simp]
        rw [subRuns_cons_neg (by simpa using hc),
          subRuns_cons_neg (by simpa using hc), ih]
        rfl

theorem noScheme_collapse {s : Str} (h : (splitScheme [] s).1 = []) :
    (splitScheme [] (collapseSlashes s)).1 = [] := by
  by_cases hcol : ':' ∈ s
  · rcases dropWhile_ne_first ':' s hcol with ⟨rest, hr⟩
    cases hpre : s.takeWhile (· ≠ ':') with
    | nil =>
        have hts : s = ':' :: rest := by
          conv_lhs => rw [← List.takeWhile_append_dropWhile (· ≠ ':') s]
          rw [hr, hpre]
          rfl
        rw [hts]
        unfold collapseSlashes
        rw [subRuns_cons_neg (by simp)]
        rw [show (':' :: subRuns (· = '/') '/' rest : Str) =
          ':' :: subRuns (· = '/') '/' rest from rfl]
        rw [splitScheme_decomp_nil]
    | cons c t' =>
        have hts : s = (c :: t') ++ ':' :: rest := by
          conv_lhs => rw [← List.takeWhile_append_dropWhile (· ≠ ':') s]
          rw [hr, hpre]
        have hnc : ':' ∉ c :: t' := by
          intro hm
          have hm2 : ':' ∈ s.takeWhile (· ≠ ':') := by
            rw [hpre]
            exact hm
          have := List.mem_takeWhile_imp hm2
          simp at this
        have hcoll : collapseSlashes s =
            collapseSlashes (c :: t') ++ ':' :: collapseSlashes rest := by
          rw [hts]
          unfold collapseSlashes
          rw [subRuns_append_head_nonclass ⟨':', rest, rfl, by decide⟩ (c :: t')]
          rw [subRuns_cons_neg (by decide : (fun x => decide (x = '/')) ':' = false) rest]
        have hncc : ':' ∉ collapseSlashes (c :: t') := by
          intro hm
          exact hnc (collapse_subset _ ':' hm)
        rw [hts, splitScheme_decomp_cons _ _ _ hnc] at h
        rw [hcoll]
        cases hcp : collapseSlashes (c :: t') with
        | nil =>
            rw [List.nil_append, splitScheme_decomp_nil]
        | cons c2 t2 =>
            rw [splitScheme_decomp_cons _ _ _ (hcp ▸ hncc)]
            have hc2 : c2 = c := by
              have hh := collapse_head (c :: t')
              rw [hcp] at hh
              simpa using hh
        
            by_cases hconds : isAsciiAlpha c = true ∧ (c :: t').all isSchemeChar = true
            · rw [if_pos hconds] at h
              exact absurd h (by simp [lowerStr])
            · rw [if_neg ?_]
              intro hcond2
              apply hconds
              rcases hcond2 with ⟨ha2, hall2⟩
              constructor
              · rw [← hc2]
                exact ha2
              · rw [List.all_eq_true]
                intro x hx
                by_cases hxs : x = '/'
                · subst hxs
                  have hmem : '/' ∈ collapseSlashes (c :: t') :=
                    subRuns_mem_class _ ⟨'/', hx, by simp⟩
                  rw [hcp] at hmem
                  exact List.all_eq_true.mp hall2 '/' hmem
                · have hmem : x ∈ collapseSlashes (c :: t') :=
                    subRuns_mem_keep (by simp [hxs]) _ hx
                  rw [hcp] at hmem
                  exact List.all_eq_true.mp hall2 x hmem
  · have hcc : ':' ∉ collapseSlashes s := fun hm => hcol (collapse_subset s ':' hm)
    rw [splitScheme_no_colon hcc]

/-! ### From a clean split back through the normalizer -/

theorem urlparse_no_params {u : Str}
    (h : containsChar ';' (urlsplitD [] u).path = false) :
    urlparse u = ⟨(urlsplitD [] u).scheme, (urlsplitD [] u).netloc,
      (urlsplitD [] u).path, [], (urlsplitD [] u).query,
      (urlsplitD [] u).fragment⟩ := by
  unfold urlparse urlparseD
  rw [if_neg fun hc => by rw [h] at hc; exact absurd hc.2 (by simp)]

theorem normalize_eq_buildNorm (u : Str) (hstrip : pyStrip u = u) :
    normalize_url_for_dedupe u none =
      buildNorm (lowerStr (urlparse u).scheme) (lowerStr (urlparse u).netloc)
        (collapseSlashes (urlparse u).path)
        (urlencodePairs (pySort ((parse_qsl (urlparse u).query).filter
          fun kv => lowerStr kv.1 ∉ AUTH_QUERY_KEYS))) := by
  unfold normalize_url_for_dedupe buildNorm
  rw [hstrip]

theorem normalize_from_components (o : Str)
    (hstrip : pyStrip o = o)
    (A B C2 : Str) (pairs : List (Str × Str))
    (hsplit : urlsplitD [] o = ⟨A, B, C2, urlencodePairs pairs, []⟩)
    (hparams : containsChar ';' C2 = false)
    (hlA : lowerStr A = A) (hlB : lowerStr B = B)
    (hfix : collapseSlashes C2 = C2)
    (hfilter : ∀ kv ∈ pairs, lowerStr kv.1 ∉ AUTH_QUERY_KEYS)
    (hsort : List.Pairwise (fun a b => pairLtB b a = false) pairs) :
    normalize_url_for_dedupe o none = buildNorm A B C2 (urlencodePairs pairs) := by
  rw [normalize_eq_buildNorm o hstrip]
  have hup : urlparse o = ⟨A, B, C2, [], urlencodePairs pairs, []⟩ := by
    rw [urlparse_no_params (by rw [hsplit]; exact hparams), hsplit]
  rw [hup]
  rw [show (⟨A, B, C2, [], urlencodePairs pairs, []⟩ : ParseResult).scheme = A
    from rfl]
  rw [show (⟨A, B, C2, [], urlencodePairs pairs, []⟩ : ParseResult).netloc = B
    from rfl]
  rw [show (⟨A, B, C2, [], urlencodePairs pairs, []⟩ : ParseResult).path = C2
    from rfl]
  rw [show (⟨A, B, C2, [], urlencodePairs pairs, []⟩ : ParseResult).query =
    urlencodePairs pairs from rfl]
  rw [hlA, hlB, hfix, parse_qsl_urlencode]
  rw [List.filter_eq_self.mpr fun kv hkv => decide_eq_true (hfilter kv hkv)]
  rw [pySort_of_sorted pairs hsort]

theorem urlunparse_no_params (A B C D : Str) :
    urlunparse A B C [] D [] = urlunsplit A B C D [] := by
  unfold urlunparse
  rw [if_neg (by simp)]

theorem buildNorm_eq (A B C D : Str) :
    buildNorm A B C D =
      (if (urlunsplit A B C D []).getLast? = some '/' ∧
          (urlunsplit A B C D []).length > 1
       then pyRStripChar '/' (urlunsplit A B C D [])
       else urlunsplit A B C D []) := by
  unfold buildNorm
  rw [urlunparse_no_params]

set_option maxHeartbeats 1000000 in
theorem urlunsplit_chars (A B C D : Str) :
    ∀ x ∈ urlunsplit A B C D [],
      x ∈ A ∨ x ∈ B ∨ x ∈ C ∨ x ∈ D ∨ x = ':' ∨ x = '/' ∨ x = '?' := by
  intro x hx
  simp only [urlunsplit] at hx
  rw [if_neg (by simp : ¬ (([] : Str) ≠ []))] at hx
  repeat' split at hx
  all_goals
    try simp only [show str "//" = ['/', '/'] from rfl, List.mem_append,
      List.mem_cons, List.not_mem_nil, or_false] at hx
  all_goals tauto

theorem buildNorm_chars (A B C D : Str) :
    ∀ x ∈ buildNorm A B C D,
      x ∈ A ∨ x ∈ B ∨ x ∈ C ∨ x ∈ D ∨ x = ':' ∨ x = '/' ∨ x = '?' := by
  intro x hx
  rw [buildNorm_eq] at hx
  split at hx
  · exact urlunsplit_chars A B C D x (pyRStripChar_subset x hx)
  · exact urlunsplit_chars A B C D x hx

theorem cleanChar_ws {c : Char} (h : cleanChar c = true) :
    isPyWs c = false ∧ isC0OrSpace c = false := by
  have hc := (cleanChar_iff c).mp h
  constructor
  · cases h2 : isPyWs c with
    | false => rfl
    | true =>
        have := (isPyWs_iff c).mp h2
        omega
  · cases h2 : isC0OrSpace c with
    | false => rfl
    | true =>
        have := (isC0_iff c).mp h2
        omega

theorem cleanChar_semi {c : Char} (h : cleanChar c = true) : c ≠ ';' := by
  have hc := (cleanChar_iff c).mp h
  intro e
  rw [char_eq_lit, show (';' : Char).toNat = 59 from rfl] at e
  omega

theorem urlsplitD_with_netloc (o A B P D R Z : Str)
    (hoR : o = if A ≠ [] then A ++ ':' :: R else R)
    (hR : R = str "//" ++ B ++ Z)
    (hZ : Z = P ++ (if D ≠ [] then '?' :: D else []))
    (hs : A = [] ∨ (∃ c t, A = c :: t ∧ isAsciiAlpha c = true ∧
      A.all isSchemeChar = true ∧ lowerStr A = A))
    (hnB : ∀ c ∈ B, netlocOk c = true)
    (hPhead : P = [] ∨ ∃ t, P = '/' :: t)
    (hPq : '?' ∉ P) (hPh : '#' ∉ P) (hDh : '#' ∉ D)
    (hcu : cleanUrl o = o) :
    urlsplitD [] o = ⟨A, B, P, D, []⟩ := by
  have hZhead : Z = [] ∨ ∃ d t, Z = d :: t ∧ netlocOk d = false := by
    rcases hPhead with hP0 | ⟨t, hPt⟩
    · subst hP0
      rw [hZ, List.nil_append]
      by_cases hD : D ≠ []
      · rw [if_pos hD]
        right
        exact ⟨'?', D, rfl, by decide⟩
      · rw [if_neg hD]
        left
        rfl
    · right
      rw [hZ, hPt]
      exact ⟨'/', t ++ (if D ≠ [] then '?' :: D else []), by simp, by decide⟩
  have hRsplit : R = '/' :: '/' :: (B ++ Z) := by
    rw [hR]
    simp [str]
  have hsch : splitScheme [] o = (A, R) := by
    rw [hoR]
    apply splitScheme_opt A R hs
    intro _
    rw [hRsplit]
    exact noScheme_of_head_bad (Or.inr ⟨'/', '/' :: (B ++ Z), rfl, by decide⟩)
  have ht2 : R.take 2 = str "//" := by
    rw [hRsplit]
    rfl
  have hdrop : R.drop 2 = B ++ Z := by
    rw [hRsplit]
    rfl
  have htw : (B ++ Z).takeWhile netlocOk = B := by
    rcases hZhead with hZe | ⟨d, t, hZd, hd⟩
    · rw [hZe, List.append_nil]
      exact takeWhile_all B hnB
    · rw [hZd, takeWhile_append_all B _ hnB, List.takeWhile_cons,
        if_neg (by simp [hd])]
      simp
  have hdw : (B ++ Z).dropWhile netlocOk = Z := by
    rcases hZhead with hZe | ⟨d, t, hZd, hd⟩
    · rw [hZe, List.append_nil]
      exact List.dropWhile_eq_nil_iff.mpr hnB
    · rw [hZd, dropWhile_append_all B _ hnB, List.dropWhile_cons,
        if_neg (by simp [hd])]
  have hZhash : '#' ∉ Z := by
    rw [hZ]
    intro hm
    rcases List.mem_append.mp hm with h1 | h1
    · exact hPh h1
    · by_cases hD : D ≠ []
      · rw [if_pos hD] at h1
        rcases List.mem_cons.mp h1 with h2 | h2
        · exact absurd h2 (by decide)
        · exact hDh h2
      · rw [if_neg hD] at h1
        exact absurd h1 (List.not_mem_nil _)
  have hpf : pySplitFirst '#' Z = (Z, none) := pySplitFirst_none hZhash
  have hpq : pySplitFirst '?' Z = (P, if D ≠ [] then some D else none) := by
    rw [hZ]
    by_cases hDn : D ≠ []
    · rw [if_pos hDn, if_pos hDn]
      exact pySplitFirst_found P D hPq
    · rw [if_neg hDn, if_neg hDn, List.append_nil]
      exact pySplitFirst_none hPq
  unfold urlsplitD
  simp only [hcu, hsch, ht2, hdrop, htw, hdw, hpf, hpq]
  by_cases hDn : D ≠ []
  · simp [hDn, hpf, hpq]
  · rw [not_not] at hDn
    simp [hDn, hpf, hpq]

theorem urlsplitD_no_netloc (o A P D Z : Str)
    (hoR : o = if A ≠ [] then A ++ ':' :: Z else Z)
    (hZ : Z = P ++ (if D ≠ [] then '?' :: D else []))
    (hs : A = [] ∨ (∃ c t, A = c :: t ∧ isAsciiAlpha c = true ∧
      A.all isSchemeChar = true ∧ lowerStr A = A))
    (hP2 : P.take 2 ≠ str "//")
    (hPq : '?' ∉ P) (hPh : '#' ∉ P) (hDh : '#' ∉ D) (hDcolon : ':' ∉ D)
    (hns : A = [] → (splitScheme [] P).1 = [])
    (hcu : cleanUrl o = o) :
    urlsplitD [] o = ⟨A, [], P, D, []⟩ := by
  have hsch : splitScheme [] o = (A, Z) := by
    rw [hoR]
    apply splitScheme_opt A Z hs
    intro hA0
    rw [hZ]
    by_cases hDn : D ≠ []
    · rw [if_pos hDn]
      apply noScheme_append _ (hns hA0)
      intro hm
      rcases List.mem_cons.mp hm with h2 | h2
      · exact absurd h2 (by decide)
      · exact hDcolon h2
    · rw [if_neg hDn, List.append_nil]
      exact hns hA0
  have ht2 : (Z.take 2 = str "//") = False := by
    simp only [eq_iff_iff, iff_false]
    rw [hZ]
    by_cases hDn : D ≠ []
    · rw [if_pos hDn]
      exact take2_append_q hP2
    · rw [if_neg hDn, List.append_nil]
      exact hP2
  have hZhash : '#' ∉ Z := by
    rw [hZ]
    intro hm
    rcases List.mem_append.mp hm with h1 | h1
    · exact hPh h1
    · by_cases hD : D ≠ []
      · rw [if_pos hD] at h1
        rcases List.mem_cons.mp h1 with h2 | h2
        · exact absurd h2 (by decide)
        · exact hDh h2
      · rw [if_neg hD] at h1
        exact absurd h1 (List.not_mem_nil _)
  have hpf : pySplitFirst '#' Z = (Z, none) := pySplitFirst_none hZhash
  have hpq : pySplitFirst '?' Z = (P, if D ≠ [] then some D else none) := by
    rw [hZ]
    by_cases hDn : D ≠ []
    · rw [if_pos hDn, if_pos hDn]
      exact pySplitFirst_found P D hPq
    · rw [if_neg hDn, if_neg hDn, List.append_nil]
      exact pySplitFirst_none hPq
  unfold urlsplitD
  simp only [hcu, hsch, ht2, if_false, hpf, hpq]
  by_cases hDn : D ≠ []
  · simp [hDn, hpf, hpq]
  · rw [not_not] at hDn
    simp [hDn, hpf, hpq]

theorem urlunsplit_pos (A B C D : Str)
    (hc1 : B ≠ [] ∨ (A ≠ [] ∧ A ∈ uses_netloc ∧ C.take 2 ≠ str "//")) :
    urlunsplit A B C D [] =
      (if A ≠ [] then A ++ ':' :: (str "//" ++ B ++
         ((if C ≠ [] ∧ C.take 1 ≠ str "/" then '/' :: C else C) ++
          (if D ≠ [] then '?' :: D else [])))
       else str "//" ++ B ++
         ((if C ≠ [] ∧ C.take 1 ≠ str "/" then '/' :: C else C) ++
          (if D ≠ [] then '?' :: D else []))) := by
  simp only [urlunsplit]
  rw [if_neg (show ¬ (([] : Str) ≠ []) by simp), if_pos hc1]
  by_cases hA : A ≠ [] <;> by_cases hD : D ≠ [] <;>
    simp [hA, hD, List.append_assoc]

theorem urlunsplit_neg (A B C D : Str)
    (hc1 : ¬ (B ≠ [] ∨ (A ≠ [] ∧ A ∈ uses_netloc ∧ C.take 2 ≠ str "//"))) :
    urlunsplit A B C D [] =
      (if A ≠ [] then A ++ ':' :: (C ++ (if D ≠ [] then '?' :: D else []))
       else C ++ (if D ≠ [] then '?' :: D else [])) := by
  simp only [urlunsplit]
  rw [if_neg (show ¬ (([] : Str) ≠ []) by simp), if_neg hc1]
  by_cases hA : A ≠ [] <;> by_cases hD : D ≠ [] <;>
    simp [hA, hD, List.append_assoc]

theorem containsChar_eq_false {c : Char} {s : Str} (h : c ∉ s) :
    containsChar c s = false := by
  cases hc : containsChar c s with
  | false => rfl
  | true => exact absurd (containsChar_iff.mp hc) h

theorem getLast_opt_shape {A Z : Str} (hZ : Z ≠ []) :
    (if A ≠ [] then A ++ ':' :: Z else Z).getLast? = Z.getLast? := by
  by_cases hA : A ≠ []
  · rw [if_pos hA, show A ++ ':' :: Z = (A ++ [':']) ++ Z by simp]
    exact List.getLast?_append_of_ne_nil _ hZ
  · rw [if_neg hA]

theorem all_slash_short {C : Str} (hpC : collapseSlashes C = C)
    (hCall : ∀ a ∈ C, a = '/') : C = [] ∨ C = ['/'] := by
  cases C with
  | nil => left; rfl
  | cons c t =>
      cases t with
      | nil =>
          right
          rw [hCall c (List.mem_cons_self _ _)]
      | cons c2 t2 =>
          exfalso
          rw [collapse_fixed_iff, List.chain'_cons] at hpC
          exact hpC.1 ⟨hCall c (by simp), hCall c2 (by simp)⟩

theorem buildNorm_fixed_plain (A C D : Str) (pairs : List (Str × Str))
    (hD : D = urlencodePairs pairs)
    (hs : A = [] ∨ (∃ c t, A = c :: t ∧ isAsciiAlpha c = true ∧
      A.all isSchemeChar = true ∧ lowerStr A = A))
    (hpC : collapseSlashes C = C)
    (hcC : ∀ c ∈ C, cleanChar c = true ∧ c ≠ '#' ∧ c ≠ '?')
    (hfilter : ∀ kv ∈ pairs, lowerStr kv.1 ∉ AUTH_QUERY_KEYS)
    (hsort : List.Pairwise (fun a b => pairLtB b a = false) pairs)
    (hns : A = [] → (splitScheme [] C).1 = [])
    (hc1 : ¬ (([] : Str) ≠ [] ∨ (A ≠ [] ∧ A ∈ uses_netloc ∧ C.take 2 ≠ str "//"))) :
    normalize_url_for_dedupe (buildNorm A [] C D) none = buildNorm A [] C D := by
  have hlA : lowerStr A = A := by
    rcases hs with rfl | ⟨c, t, _, _, _, hl⟩
    · rfl
    · exact hl
  have hAfacts : ∀ c ∈ A, cleanChar c = true ∧ c ≠ '#' ∧ c ≠ '?' ∧
      c ≠ ':' ∧ c ≠ '/' := by
    intro c hc
    rcases hs with rfl | ⟨c0, t0, _, _, hall, _⟩
    · exact absurd hc (List.not_mem_nil c)
    · exact schemeChar_props (List.all_eq_true.mp hall c hc)
  have hDfacts : ∀ x ∈ D, cleanChar x = true ∧ x ≠ '#' ∧ x ≠ '?' ∧
      x ≠ '/' ∧ x ≠ ':' := by
    rw [hD]
    exact urlencode_char_facts
  have houtchars : ∀ x ∈ buildNorm A [] C D, cleanChar x = true := by
    intro x hx
    rcases buildNorm_chars A [] C D x hx with h | h | h | h | rfl | rfl | rfl
    · exact (hAfacts x h).1
    · exact absurd h (List.not_mem_nil x)
    · exact (hcC x h).1
    · exact (hDfacts x h).1
    · decide
    · decide
    · decide
  have hstrip : pyStrip (buildNorm A [] C D) = buildNorm A [] C D :=
    pyStrip_eq_self fun c hc => (cleanChar_ws (houtchars c hc)).1
  have hcub : cleanUrl (buildNorm A [] C D) = buildNorm A [] C D :=
    cleanUrl_eq_self fun c hc => cleanChar_ws (houtchars c hc)
  have hC2 : C.take 2 ≠ str "//" := collapse_fixed_no_dslash hpC
  have hCq : '?' ∉ C := fun hm => (hcC _ hm).2.2 rfl
  have hCh : '#' ∉ C := fun hm => (hcC _ hm).2.1 rfl
  have hCsemi : ';' ∉ C := fun hm => cleanChar_semi (hcC _ hm).1 rfl
  have hDh : '#' ∉ D := fun hm => (hDfacts _ hm).2.1 rfl
  have hDslash : '/' ∉ D := fun hm => (hDfacts _ hm).2.2.2.1 rfl
  have hDcolon : ':' ∉ D := fun hm => (hDfacts _ hm).2.2.2.2 rfl
  have hnw := urlunsplit_neg A [] C D hc1
  by_cases hst : (urlunsplit A [] C D []).getLast? = some '/' ∧
      (urlunsplit A [] C D []).length > 1
  · -- the trailing-slash strip fires; the query must be empty
    have hD0 : D = [] := by
      by_contra hDn
      have hql : ('?' :: D).getLast? = D.getLast? := by
        rw [show ('?' :: D : Str) = ['?'] ++ D by simp]
        exact List.getLast?_append_of_ne_nil _ hDn
      have hlast : (urlunsplit A [] C D []).getLast? = D.getLast? := by
        rw [hnw, if_pos hDn]
        rw [getLast_opt_shape (by simp : C ++ '?' :: D ≠ [])]
        rw [List.getLast?_append_of_ne_nil _ (by simp : '?' :: D ≠ []), hql]
      rw [hlast] at hst
      exact hDslash (List.mem_of_mem_getLast? hst.1)
    subst hD0
    have hpairs0 : pairs = [] := urlencodePairs_eq_nil hD.symm
    subst hpairs0
    have hnw2 : urlunsplit A [] C [] [] = (if A ≠ [] then A ++ ':' :: C else C) := by
      rw [hnw]
      by_cases hA : A ≠ [] <;> simp [hA]
    rw [hnw2] at hst
    by_cases hrs : pyRStripChar '/' C ≠ []
    · -- strip removes part of the path only
      have hout : buildNorm A [] C [] =
          (if A ≠ [] then A ++ ':' :: pyRStripChar '/' C
           else pyRStripChar '/' C) := by
        rw [buildNorm_eq, hnw2, if_pos hst]
        by_cases hA : A ≠ []
        · rw [if_pos hA, if_pos hA,
            show A ++ ':' :: C = (A ++ [':']) ++ C by simp,
            pyRStripChar_append_nonnil _ hrs]
          simp
        · rw [if_neg hA, if_neg hA]
      rw [hout] at hstrip hcub ⊢
      rcases pyRStripChar_decomp '/' C with ⟨m, hdec, _⟩
      have hsplit := urlsplitD_no_netloc _ A (pyRStripChar '/' C) []
        (pyRStripChar '/' C) rfl (by simp) hs
        (take2_of_append hdec hC2)
        (fun hm => hCq (pyRStripChar_subset _ hm))
        (fun hm => hCh (pyRStripChar_subset _ hm))
        (List.not_mem_nil _) (List.not_mem_nil _)
        (fun hA0 => noScheme_take hdec (hns hA0)) hcub
      rw [normalize_from_components _ hstrip A [] (pyRStripChar '/' C) []
        (by rw [hsplit]; rfl)
        (containsChar_eq_false fun hm => hCsemi (pyRStripChar_subset _ hm))
        hlA rfl (collapse_fixed_rstrip hpC) (by simp) (by simp)]
      rw [show urlencodePairs ([] : List (Str × Str)) = [] from rfl]
      -- rebuild
      have hc1' : ¬ (([] : Str) ≠ [] ∨ (A ≠ [] ∧ A ∈ uses_netloc ∧
          (pyRStripChar '/' C).take 2 ≠ str "//")) := by
        intro hor
        rcases hor with h0 | ⟨h1, h2, _⟩
        · exact h0 rfl
        · exact hc1 (Or.inr ⟨h1, h2, hC2⟩)
      rw [buildNorm_eq, urlunsplit_neg A [] (pyRStripChar '/' C) [] hc1']
      have hsimp : (if A ≠ [] then
          A ++ ':' :: (pyRStripChar '/' C ++ (if ([] : Str) ≠ [] then '?' :: [] else []))
        else pyRStripChar '/' C ++ (if ([] : Str) ≠ [] then '?' :: [] else [])) =
          (if A ≠ [] then A ++ ':' :: pyRStripChar '/' C
           else pyRStripChar '/' C) := by
        by_cases hA : A ≠ [] <;> simp [hA]
      rw [hsimp, if_neg ?nostrip]
      case nostrip =>
        intro hcl
        rw [getLast_opt_shape hrs] at hcl
        exact pyRStripChar_getLast_ne '/' C hcl.1
    · -- the whole path is slashes
      rw [not_not] at hrs
      have hCall := pyRStripChar_eq_nil hrs
      have hA : A ≠ [] := by
        intro hA0
        subst hA0
        rw [if_neg (by simp)] at hst
        rcases all_slash_short hpC hCall with rfl | rfl
        · simp at hst
        · have := hst.2
          simp at this
      rw [if_pos hA] at hst
      have hCone : C = ['/'] := by
        rcases all_slash_short hpC hCall with rfl | h1
        · exfalso
          have := hst.1
          rw [show A ++ ':' :: ([] : Str) = A ++ [':'] by rfl,
            List.getLast?_concat] at this
          exact absurd (Option.some.inj this) (by decide)
        · exact h1
      subst hCone
      have hout : buildNorm A [] ['/'] [] = A ++ ':' :: [] := by
        rw [buildNorm_eq, hnw2]
        simp only [if_pos hA]
        rw [if_pos hst]
        rw [show A ++ ':' :: ['/'] = (A ++ [':']) ++ ['/'] by simp]
        rw [pyRStripChar_append_all _ (by simp)]
        rw [pyRStripChar_no_strip (by rw [List.getLast?_concat]; decide)]
      rw [hout] at hstrip hcub ⊢
      have hsplit := urlsplitD_no_netloc _ A [] [] [] (by rw [if_pos hA])
        (by simp) hs (by simp [str]) (List.not_mem_nil _) (List.not_mem_nil _)
        (List.not_mem_nil _) (List.not_mem_nil _)
        (fun hA0 => absurd hA0 hA) hcub
      rw [normalize_from_components _ hstrip A [] [] []
        (by rw [hsplit]; rfl) rfl hlA rfl rfl (by simp) (by simp)]
      rw [show urlencodePairs ([] : List (Str × Str)) = [] from rfl]
      -- rebuild: A is not a netloc scheme, so the empty path stays bare
      have hAUN : A ∉ uses_netloc := by
        intro hm
        exact hc1 (Or.inr ⟨hA, hm, by simp [str]⟩)
      have hc1' : ¬ (([] : Str) ≠ [] ∨ (A ≠ [] ∧ A ∈ uses_netloc ∧
          (([] : Str)).take 2 ≠ str "//")) := by
        intro hor
        rcases hor with h0 | ⟨_, h2, _⟩
        · exact h0 rfl
        · exact hAUN h2
      rw [buildNorm_eq, urlunsplit_neg A [] [] [] hc1']
      rw [show (if A ≠ [] then
          A ++ ':' :: (([] : Str) ++ (if ([] : Str) ≠ [] then '?' :: [] else []))
        else ([] : Str) ++ (if ([] : Str) ≠ [] then '?' :: [] else [])) =
          A ++ ':' :: [] by rw [if_pos hA]; simp]
      rw [if_neg ?nostrip2]
      case nostrip2 =>
        intro hcl
        have := hcl.1
        rw [show A ++ ':' :: ([] : Str) = A ++ [':'] by rfl,
          List.getLast?_concat] at this
        exact absurd (Option.some.inj this) (by decide)
  · -- no strip: the rebuilt string reparses to the same components
    have hout : buildNorm A [] C D =
        (if A ≠ [] then A ++ ':' :: (C ++ (if D ≠ [] then '?' :: D else []))
         else C ++ (if D ≠ [] then '?' :: D else [])) := by
      rw [buildNorm_eq, if_neg hst, hnw]
    rw [hout] at hstrip hcub ⊢
    have hsplit := urlsplitD_no_netloc _ A C D
      (C ++ (if D ≠ [] then '?' :: D else [])) rfl rfl hs hC2 hCq hCh hDh
      hDcolon hns hcub
    rw [normalize_from_components _ hstrip A [] C pairs
      (by rw [hsplit, hD])
      (containsChar_eq_false hCsemi)
      hlA rfl hpC hfilter hsort]
    rw [← hD]
    -- rebuild equals the unstripped original
    rw [buildNorm_eq, hnw, if_neg ?nostrip3]
    case nostrip3 =>
      rw [← hnw]
      exact hst

theorem adj_self {P : Str} (hPhead : P = [] ∨ ∃ t, P = '/' :: t) :
    (if P ≠ [] ∧ P.take 1 ≠ str "/" then '/' :: P else P) = P := by
  rcases hPhead with rfl | ⟨t, rfl⟩
  · rw [if_neg (by simp)]
  · rw [if_neg (by simp [str])]

theorem adj_head (C : Str) :
    (if C ≠ [] ∧ C.take 1 ≠ str "/" then '/' :: C else C) = [] ∨
      ∃ t, (if C ≠ [] ∧ C.take 1 ≠ str "/" then '/' :: C else C) = '/' :: t := by
  by_cases hcnd : C ≠ [] ∧ C.take 1 ≠ str "/"
  · rw [if_pos hcnd]
    right
    exact ⟨C, rfl⟩
  · rw [if_neg hcnd]
    push_neg at hcnd
    by_cases hC0 : C = []
    · left
      exact hC0
    · right
      have h1 := hcnd hC0
      cases C with
      | nil => exact absurd rfl hC0
      | cons c t =>
          have hc : c = '/' := by
            have : List.take 1 (c :: t) = [c] := by simp
            rw [this] at h1
            have := congrArg (fun l => l.head?) h1
            simpa [str] using this
          exact ⟨t, by rw [hc]⟩

theorem adj_fix {C : Str} (hpC : collapseSlashes C = C) :
    collapseSlashes (if C ≠ [] ∧ C.take 1 ≠ str "/" then '/' :: C else C) =
      (if C ≠ [] ∧ C.take 1 ≠ str "/" then '/' :: C else C) := by
  by_cases hcnd : C ≠ [] ∧ C.take 1 ≠ str "/"
  · rw [if_pos hcnd]
    apply collapse_fixed_cons hpC
    cases C with
    | nil => simp
    | cons c t =>
        intro he
        have hc : c = '/' := by simpa using he
        exact hcnd.2 (by rw [hc]; rfl)
  · rw [if_neg hcnd]
    exact hpC

theorem adj_subset {C : Str} :
    ∀ x ∈ (if C ≠ [] ∧ C.take 1 ≠ str "/" then '/' :: C else C),
      x ∈ C ∨ x = '/' := by
  intro x hx
  by_cases hcnd : C ≠ [] ∧ C.take 1 ≠ str "/"
  · rw [if_pos hcnd] at hx
    rcases List.mem_cons.mp hx with rfl | h1
    · right
      rfl
    · left
      exact h1
  · rw [if_neg hcnd] at hx
    left
    exact hx

theorem urlunsplit_adj (A B C D : Str)
    (hC2 : C.take 2 ≠ str "//")
    (hc1 : B ≠ [] ∨ (A ≠ [] ∧ A ∈ uses_netloc)) :
    urlunsplit A B C D [] =
      urlunsplit A B (if C ≠ [] ∧ C.take 1 ≠ str "/" then '/' :: C else C) D [] := by
  have hadj2 : (if C ≠ [] ∧ C.take 1 ≠ str "/" then '/' :: C else C).take 2 ≠
      str "//" := by
    by_cases hcnd : C ≠ [] ∧ C.take 1 ≠ str "/"
    · rw [if_pos hcnd]
      cases C with
      | nil => simp [str]
      | cons c t =>
          intro he
          apply hcnd.2
          have : List.take 2 ('/' :: c :: t) = ['/', c] := by simp
          rw [this] at he
          have hc : c = '/' := by
            have := congrArg (fun l => l.drop 1) he
            simpa [str] using this
          rw [hc]
          rfl
    · rw [if_neg hcnd]
      exact hC2
  have hcond1 : B ≠ [] ∨ (A ≠ [] ∧ A ∈ uses_netloc ∧ C.take 2 ≠ str "//") := by
    rcases hc1 with h | ⟨h1, h2⟩
    exacts [Or.inl h, Or.inr ⟨h1, h2, hC2⟩]
  have hcond2 : B ≠ [] ∨ (A ≠ [] ∧ A ∈ uses_netloc ∧
      (if C ≠ [] ∧ C.take 1 ≠ str "/" then '/' :: C else C).take 2 ≠ str "//") := by
    rcases hc1 with h | ⟨h1, h2⟩
    exacts [Or.inl h, Or.inr ⟨h1, h2, hadj2⟩]
  rw [urlunsplit_pos A B C D hcond1, urlunsplit_pos A B _ D hcond2]
  rw [adj_self (adj_head C)]

theorem buildNorm_adj (A B C D : Str)
    (hC2 : C.take 2 ≠ str "//")
    (hc1 : B ≠ [] ∨ (A ≠ [] ∧ A ∈ uses_netloc)) :
    buildNorm A B C D =
      buildNorm A B (if C ≠ [] ∧ C.take 1 ≠ str "/" then '/' :: C else C) D := by
  rw [buildNorm_eq, buildNorm_eq, urlunsplit_adj A B C D hC2 hc1]

theorem buildNorm_fixed_netloc_aux (A B P D : Str) (pairs : List (Str × Str))
    (hD : D = urlencodePairs pairs)
    (hs : A = [] ∨ (∃ c t, A = c :: t ∧ isAsciiAlpha c = true ∧
      A.all isSchemeChar = true ∧ lowerStr A = A))
    (hnB : ∀ c ∈ B, netlocOk c = true ∧ cleanChar c = true)
    (hlB : lowerStr B = B)
    (hPfix : collapseSlashes P = P)
    (hPhead : P = [] ∨ ∃ t, P = '/' :: t)
    (hPclean : ∀ c ∈ P, cleanChar c = true ∧ c ≠ '#' ∧ c ≠ '?')
    (hfilter : ∀ kv ∈ pairs, lowerStr kv.1 ∉ AUTH_QUERY_KEYS)
    (hsort : List.Pairwise (fun a b => pairLtB b a = false) pairs)
    (hc1 : B ≠ [] ∨ (A ≠ [] ∧ A ∈ uses_netloc)) :
    normalize_url_for_dedupe (buildNorm A B P D) none = buildNorm A B P D := by
  have hlA : lowerStr A = A := by
    rcases hs with rfl | ⟨c, t, _, _, _, hl⟩
    · rfl
    · exact hl
  have hAfacts : ∀ c ∈ A, cleanChar c = true ∧ c ≠ '#' ∧ c ≠ '?' ∧
      c ≠ ':' ∧ c ≠ '/' := by
    intro c hc
    rcases hs with rfl | ⟨c0, t0, _, _, hall, _⟩
    · exact absurd hc (List.not_mem_nil c)
    · exact schemeChar_props (List.all_eq_true.mp hall c hc)
  have hDfacts : ∀ x ∈ D, cleanChar x = true ∧ x ≠ '#' ∧ x ≠ '?' ∧
      x ≠ '/' ∧ x ≠ ':' := by
    rw [hD]
    exact urlencode_char_facts
  have houtchars : ∀ x ∈ buildNorm A B P D, cleanChar x = true := by
    intro x hx
    rcases buildNorm_chars A B P D x hx with h | h | h | h | rfl | rfl | rfl
    · exact (hAfacts x h).1
    · exact (hnB x h).2
    · exact (hPclean x h).1
    · exact (hDfacts x h).1
    · decide
    · decide
    · decide
  have hstrip : pyStrip (buildNorm A B P D) = buildNorm A B P D :=
    pyStrip_eq_self fun c hc => (cleanChar_ws (houtchars c hc)).1
  have hcub : cleanUrl (buildNorm A B P D) = buildNorm A B P D :=
    cleanUrl_eq_self fun c hc => cleanChar_ws (houtchars c hc)
  have hP2 : P.take 2 ≠ str "//" := collapse_fixed_no_dslash hPfix
  have hPq : '?' ∉ P := fun hm => (hPclean _ hm).2.2 rfl
  have hPh : '#' ∉ P := fun hm => (hPclean _ hm).2.1 rfl
  have hPsemi : ';' ∉ P := fun hm => cleanChar_semi (hPclean _ hm).1 rfl
  have hDh : '#' ∉ D := fun hm => (hDfacts _ hm).2.1 rfl
  have hDslash : '/' ∉ D := fun hm => (hDfacts _ hm).2.2.2.1 rfl
  have hBslash : '/' ∉ B := by
    intro hm
    exact absurd (hnB '/' hm).1 (by decide)
  have hc1full : B ≠ [] ∨ (A ≠ [] ∧ A ∈ uses_netloc ∧ P.take 2 ≠ str "//") := by
    rcases hc1 with h | ⟨h1, h2⟩
    exacts [Or.inl h, Or.inr ⟨h1, h2, hP2⟩]
  have hnw : urlunsplit A B P D [] =
      (if A ≠ [] then
        A ++ ':' :: (str "//" ++ B ++ (P ++ (if D ≠ [] then '?' :: D else [])))
       else str "//" ++ B ++ (P ++ (if D ≠ [] then '?' :: D else []))) := by
    rw [urlunsplit_pos A B P D hc1full, adj_self hPhead]
  by_cases hst : (urlunsplit A B P D []).getLast? = some '/' ∧
      (urlunsplit A B P D []).length > 1
  case neg =>
    have hout : buildNorm A B P D =
        (if A ≠ [] then
          A ++ ':' :: (str "//" ++ B ++ (P ++ (if D ≠ [] then '?' :: D else [])))
         else str "//" ++ B ++ (P ++ (if D ≠ [] then '?' :: D else []))) := by
      rw [buildNorm_eq, if_neg hst, hnw]
    rw [hout] at hstrip hcub ⊢
    have hsplit := urlsplitD_with_netloc _ A B P D _ _ rfl rfl rfl hs
      (fun c hc => (hnB c hc).1) hPhead hPq hPh hDh hcub
    rw [normalize_from_components _ hstrip A B P pairs (by rw [hsplit, hD])
      (containsChar_eq_false hPsemi) hlA hlB hPfix hfilter hsort]
    rw [← hD]
    rw [buildNorm_eq, hnw, if_neg ?ns1]
    case ns1 =>
      rw [← hnw]
      exact hst
  case pos =>
    have hD0 : D = [] := by
      by_contra hDn
      have hreq : P ++ (if D ≠ [] then '?' :: D else []) = P ++ '?' :: D := by
        rw [if_pos hDn]
      have hnw' := hnw
      rw [hreq] at hnw'
      have hlast : (urlunsplit A B P D []).getLast? = D.getLast? := by
        rw [hnw', getLast_opt_shape
          (show str "//" ++ B ++ (P ++ '?' :: D) ≠ [] by simp [str])]
        rw [show str "//" ++ B ++ (P ++ '?' :: D) =
          (str "//" ++ B) ++ (P ++ '?' :: D) by rw [List.append_assoc]]
        rw [List.getLast?_append_of_ne_nil _ (by simp : P ++ '?' :: D ≠ [])]
        rw [List.getLast?_append_of_ne_nil _ (by simp : ('?' :: D : Str) ≠ [])]
        rw [show ('?' :: D : Str) = ['?'] ++ D by simp]
        rw [List.getLast?_append_of_ne_nil _ hDn]
      rw [hlast] at hst
      exact hDslash (List.mem_of_mem_getLast? hst.1)
    subst hD0
    have hpairs0 : pairs = [] := urlencodePairs_eq_nil hD.symm
    subst hpairs0
    have hnw2 : urlunsplit A B P [] [] =
        (if A ≠ [] then A ++ ':' :: (str "//" ++ B ++ P)
         else str "//" ++ B ++ P) := by
      rw [hnw]
      by_cases hA : A ≠ [] <;> simp [hA]
    rw [hnw2] at hst
    by_cases hrs : pyRStripChar '/' P ≠ []
    · have hPne : P ≠ [] := by
        intro h0
        rw [h0] at hrs
        exact hrs rfl
      have hPcons : ∃ t, P = '/' :: t := by
        rcases hPhead with h0 | h1
        · exact absurd h0 hPne
        · exact h1
      have hrshead : ∃ t, pyRStripChar '/' P = '/' :: t := by
        have hh := pyRStripChar_head hrs
        rcases hPcons with ⟨t, hPt⟩
        cases hq : pyRStripChar '/' P with
        | nil => exact absurd hq hrs
        | cons a t2 =>
            refine ⟨t2, ?_⟩
            rw [hq] at hh
            rw [hPt] at hh
            simp at hh
            rw [hh]
      have hout : buildNorm A B P [] =
          (if A ≠ [] then A ++ ':' :: (str "//" ++ B ++ pyRStripChar '/' P)
           else str "//" ++ B ++ pyRStripChar '/' P) := by
        rw [buildNorm_eq, hnw2, if_pos hst]
        by_cases hA : A ≠ []
        · rw [if_pos hA, if_pos hA]
          rw [show A ++ ':' :: (str "//" ++ B ++ P) =
            (A ++ [':'] ++ (str "//" ++ B)) ++ P by simp]
          rw [pyRStripChar_append_nonnil _ hrs]
          simp
        · rw [if_neg hA, if_neg hA]
          rw [show str "//" ++ B ++ P = (str "//" ++ B) ++ P by
            rw [List.append_assoc]]
          rw [pyRStripChar_append_nonnil _ hrs]
      rw [hout] at hstrip hcub ⊢
      have hsplit := urlsplitD_with_netloc _ A B (pyRStripChar '/' P) [] _ _
        (by by_cases hA : A ≠ [] <;> simp [hA]) rfl rfl hs
        (fun c hc => (hnB c hc).1) (Or.inr hrshead)
        (fun hm => hPq (pyRStripChar_subset _ hm))
        (fun hm => hPh (pyRStripChar_subset _ hm))
        (List.not_mem_nil _) hcub
      rw [normalize_from_components _ hstrip A B (pyRStripChar '/' P) []
        (by rw [hsplit]; rfl)
        (containsChar_eq_false fun hm => hPsemi (pyRStripChar_subset _ hm))
        hlA hlB (collapse_fixed_rstrip hPfix) (by simp) (by simp)]
      rw [show urlencodePairs ([] : List (Str × Str)) = [] from rfl]
      have hc1'' : B ≠ [] ∨ (A ≠ [] ∧ A ∈ uses_netloc ∧
          (pyRStripChar '/' P).take 2 ≠ str "//") := by
        rcases hc1 with h | ⟨h1, h2⟩
        exacts [Or.inl h,
          Or.inr ⟨h1, h2, collapse_fixed_no_dslash (collapse_fixed_rstrip hPfix)⟩]
      rw [buildNorm_eq, urlunsplit_pos A B (pyRStripChar '/' P) [] hc1'',
        adj_self (Or.inr hrshead)]
      have hshape : (if A ≠ [] then
          A ++ ':' :: (str "//" ++ B ++
            (pyRStripChar '/' P ++ (if ([] : Str) ≠ [] then '?' :: [] else [])))
        else str "//" ++ B ++
            (pyRStripChar '/' P ++ (if ([] : Str) ≠ [] then '?' :: [] else []))) =
          (if A ≠ [] then A ++ ':' :: (str "//" ++ B ++ pyRStripChar '/' P)
           else str "//" ++ B ++ pyRStripChar '/' P) := by
        by_cases hA : A ≠ [] <;> simp [hA]
      rw [hshape, if_neg ?ns2]
      case ns2 =>
        intro hcl
        rw [getLast_opt_shape
          (show str "//" ++ B ++ pyRStripChar '/' P ≠ [] by simp [str])] at hcl
        rw [List.getLast?_append_of_ne_nil _ hrs] at hcl
        exact pyRStripChar_getLast_ne '/' P hcl.1
    · rw [not_not] at hrs
      have hPall := pyRStripChar_eq_nil hrs
      by_cases hB : B ≠ []
      · -- strip stops at the netloc, which never ends in a slash
        have hBlast : (str "//" ++ B).getLast? ≠ some '/' := by
          rw [List.getLast?_append_of_ne_nil _ hB]
          intro e
          exact hBslash (List.mem_of_mem_getLast? e)
        have hout : buildNorm A B P [] =
            (if A ≠ [] then A ++ ':' :: (str "//" ++ B)
             else str "//" ++ B) := by
          rw [buildNorm_eq, hnw2, if_pos hst]
          by_cases hA : A ≠ []
          · rw [if_pos hA, if_pos hA]
            rw [show A ++ ':' :: (str "//" ++ B ++ P) =
              (A ++ [':'] ++ (str "//" ++ B)) ++ P by simp]
            rw [pyRStripChar_append_all _ hPall]
            rw [pyRStripChar_no_strip (by
              rw [List.getLast?_append_of_ne_nil _
                (show str "//" ++ B ≠ [] by simp [str])]
              exact hBlast)]
            simp
          · rw [if_neg hA, if_neg hA]
            rw [show str "//" ++ B ++ P = (str "//" ++ B) ++ P by
              rw [List.append_assoc]]
            rw [pyRStripChar_append_all _ hPall]
            exact pyRStripChar_no_strip hBlast
        rw [hout] at hstrip hcub ⊢
        have hsplit := urlsplitD_with_netloc _ A B [] [] _ _
          (by by_cases hA : A ≠ [] <;> simp [hA]) rfl rfl hs
          (fun c hc => (hnB c hc).1) (Or.inl rfl)
          (List.not_mem_nil _) (List.not_mem_nil _) (List.not_mem_nil _) hcub
        rw [normalize_from_components _ hstrip A B [] []
          (by rw [hsplit]; rfl) rfl hlA hlB rfl (by simp) (by simp)]
        rw [show urlencodePairs ([] : List (Str × Str)) = [] from rfl]
        have hc1'' : B ≠ [] ∨ (A ≠ [] ∧ A ∈ uses_netloc ∧
            (([] : Str)).take 2 ≠ str "//") := Or.inl hB
        rw [buildNorm_eq, urlunsplit_pos A B [] [] hc1'', adj_self (Or.inl rfl)]
        have hshape2 : (if A ≠ [] then
            A ++ ':' :: (str "//" ++ B ++
              (([] : Str) ++ (if ([] : Str) ≠ [] then '?' :: [] else [])))
          else str "//" ++ B ++
              (([] : Str) ++ (if ([] : Str) ≠ [] then '?' :: [] else []))) =
            (if A ≠ [] then A ++ ':' :: (str "//" ++ B) else str "//" ++ B) := by
          by_cases hA : A ≠ [] <;> simp [hA]
        rw [hshape2, if_neg ?ns3]
        case ns3 =>
          intro hcl
          rw [getLast_opt_shape
            (show str "//" ++ B ≠ [] by simp [str])] at hcl
          exact hBlast hcl.1
      · have hB0 : B = [] := by
          by_contra h
          exact hB h
        subst hB0
        rcases hc1 with h0 | ⟨hA, hAUN⟩
        · exact absurd rfl h0
        have hout : buildNorm A [] P [] = A ++ ':' :: [] := by
          rw [buildNorm_eq, hnw2, if_pos hst, if_pos hA]
          rw [show A ++ ':' :: (str "//" ++ [] ++ P) =
            (A ++ [':']) ++ ('/' :: '/' :: P) by simp [str]]
          rw [pyRStripChar_append_all _ ?hall]
          case hall =>
            intro a ha
            rcases List.mem_cons.mp ha with rfl | ha2
            · rfl
            · rcases List.mem_cons.mp ha2 with rfl | ha3
              · rfl
              · exact hPall a ha3
          rw [pyRStripChar_no_strip (by rw [List.getLast?_concat]; decide)]
        rw [hout] at hstrip hcub ⊢
        have hsplit := urlsplitD_no_netloc _ A [] [] [] (by rw [if_pos hA])
          (by simp) hs (by intro h; simp [str] at h) (List.not_mem_nil _)
          (List.not_mem_nil _) (List.not_mem_nil _) (List.not_mem_nil _)
          (fun hA0 => absurd hA0 hA) hcub
        rw [normalize_from_components _ hstrip A [] [] []
          (by rw [hsplit]; rfl) rfl hlA rfl rfl (by simp) (by simp)]
        rw [show urlencodePairs ([] : List (Str × Str)) = [] from rfl]
        have hc1'' : ([] : Str) ≠ [] ∨ (A ≠ [] ∧ A ∈ uses_netloc ∧
            (([] : Str)).take 2 ≠ str "//") :=
          Or.inr ⟨hA, hAUN, by intro h; simp [str] at h⟩
        rw [buildNorm_eq, urlunsplit_pos A [] [] [] hc1'', adj_self (Or.inl rfl)]
        have hshape3 : (if A ≠ [] then
            A ++ ':' :: (str "//" ++ [] ++
              (([] : Str) ++ (if ([] : Str) ≠ [] then '?' :: [] else [])))
          else str "//" ++ [] ++
              (([] : Str) ++ (if ([] : Str) ≠ [] then '?' :: [] else []))) =
            (A ++ [':']) ++ ['/', '/'] := by
          rw [if_pos hA]
          simp [str, show str "//" = ['/', '/'] from rfl]
        rw [hshape3, if_pos ?yst]
        case yst =>
          constructor
          · rw [List.getLast?_append_of_ne_nil _
              (by simp : (['/', '/'] : Str) ≠ [])]
            rfl
          · rw [List.length_append, List.length_append]
            simp
        rw [pyRStripChar_append_all (A ++ [':']) ?hall2]
        case hall2 =>
          intro a ha
          rcases List.mem_cons.mp ha with rfl | ha2
          · rfl
          · rcases List.mem_cons.mp ha2 with rfl | ha3
            · rfl
            · exact absurd ha3 (List.not_mem_nil a)
        rw [pyRStripChar_no_strip (by rw [List.getLast?_concat]; decide)]

theorem buildNorm_fixed_netloc (A B C D : Str) (pairs : List (Str × Str))
    (hD : D = urlencodePairs pairs)
    (hs : A = [] ∨ (∃ c t, A = c :: t ∧ isAsciiAlpha c = true ∧
      A.all isSchemeChar = true ∧ lowerStr A = A))
    (hnB : ∀ c ∈ B, netlocOk c = true ∧ cleanChar c = true)
    (hlB : lowerStr B = B)
    (hpC : collapseSlashes C = C)
    (hcC : ∀ c ∈ C, cleanChar c = true ∧ c ≠ '#' ∧ c ≠ '?')
    (hfilter : ∀ kv ∈ pairs, lowerStr kv.1 ∉ AUTH_QUERY_KEYS)
    (hsort : List.Pairwise (fun a b => pairLtB b a = false) pairs)
    (hc1 : B ≠ [] ∨ (A ≠ [] ∧ A ∈ uses_netloc)) :
    normalize_url_for_dedupe (buildNorm A B C D) none = buildNorm A B C D := by
  have hC2 := collapse_fixed_no_dslash hpC
  rw [buildNorm_adj A B C D hC2 hc1]
  exact buildNorm_fixed_netloc_aux A B _ D pairs hD hs hnB hlB
    (adj_fix hpC) (adj_head C)
    (fun c hc => by
      rcases adj_subset c hc with h | rfl
      · exact hcC c h
      · exact ⟨by decide, by decide, by decide⟩)
    hfilter hsort hc1

theorem buildNorm_fixed (A B C D : Str) (pairs : List (Str × Str))
    (hD : D = urlencodePairs pairs)
    (hs : A = [] ∨ (∃ c t, A = c :: t ∧ isAsciiAlpha c = true ∧
      A.all isSchemeChar = true ∧ lowerStr A = A))
    (hnB : ∀ c ∈ B, netlocOk c = true ∧ cleanChar c = true)
    (hlB : lowerStr B = B)
    (hpC : collapseSlashes C = C)
    (hcC : ∀ c ∈ C, cleanChar c = true ∧ c ≠ '#' ∧ c ≠ '?')
    (hfilter : ∀ kv ∈ pairs, lowerStr kv.1 ∉ AUTH_QUERY_KEYS)
    (hsort : List.Pairwise (fun a b => pairLtB b a = false) pairs)
    (hns : A = [] → B = [] → (splitScheme [] C).1 = []) :
    normalize_url_for_dedupe (buildNorm A B C D) none = buildNorm A B C D := by
  by_cases hc1 : B ≠ [] ∨ (A ≠ [] ∧ A ∈ uses_netloc)
  · exact buildNorm_fixed_netloc A B C D pairs hD hs hnB hlB hpC hcC
      hfilter hsort hc1
  · have hB0 : B = [] := by
      by_contra h
      exact hc1 (Or.inl h)
    subst hB0
    apply buildNorm_fixed_plain A C D pairs hD hs hpC hcC hfilter hsort
      (fun hA0 => hns hA0 rfl)
    intro hor
    rcases hor with h0 | ⟨h1, h2, _⟩
    · exact h0 rfl
    · exact hc1 (Or.inr ⟨h1, h2⟩)

theorem pySplitFirst_fst (c : Char) (s : Str) :
    (pySplitFirst c s).1 = s.takeWhile (· ≠ c) := by
  unfold pySplitFirst
  cases h : s.dropWhile (· ≠ c) <;> rfl

theorem collapse_chain : ∀ l : Str,
    List.Chain' (fun a b => ¬ (a = '/' ∧ b = '/')) (collapseSlashes l) := by
  intro l
  induction l with
  | nil => simp [collapseSlashes, subRuns]
  | cons c t ih =>
      unfold collapseSlashes at *
      by_cases hc : c = '/'
      · subst hc
        cases t with
        | nil =>
            rw [subRuns_singleton_pos (by simp)]
            simp
        | cons c2 t2 =>
            by_cases hc2 : c2 = '/'
            · subst hc2
              rw [subRuns_cons2_pos_pos (by simp) (by simp)]
              exact ih
            · rw [subRuns_cons2_pos_neg (by simp) (by simp [hc2])]
              have hh := collapse_head (c2 :: t2)
              unfold collapseSlashes at hh
              cases hsr : subRuns (· = '/') '/' (c2 :: t2) with
              | nil => simp
              | cons a r =>
                  rw [List.chain'_cons]
                  constructor
                  · intro hco
                    apply hc2
                    rw [hsr] at hh
                    simp at hh
                    rw [← hh]
                    exact hco.2
                  · rw [← hsr]
                    exact ih
      · rw [subRuns_cons_neg (by simp [hc])]
        cases hsr : subRuns (· = '/') '/' t with
        | nil => simp
        | cons a r =>
            rw [List.chain'_cons]
            refine ⟨fun hco => hc hco.1, ?_⟩
            rw [← hsr]
            exact ih

theorem collapse_idem (l : Str) :
    collapseSlashes (collapseSlashes l) = collapseSlashes l :=
  (collapse_fixed_iff _).mpr (collapse_chain l)

theorem splitScheme_shape (u : Str) :
    splitScheme [] u = ([], u) ∨
    ∃ c t rest, u = (c :: t) ++ ':' :: rest ∧ isAsciiAlpha c = true ∧
      (c :: t).all isSchemeChar = true ∧ ':' ∉ c :: t ∧
      splitScheme [] u = (lowerStr (c :: t), rest) := by
  by_cases hcol : ':' ∈ u
  · rcases dropWhile_ne_first ':' u hcol with ⟨rest, hr⟩
    cases hpre : u.takeWhile (· ≠ ':') with
    | nil =>
        left
        have hts : u = ':' :: rest := by
          conv_lhs => rw [← List.takeWhile_append_dropWhile (· ≠ ':') u]
          rw [hr, hpre]
          rfl
        rw [hts]
        exact splitScheme_decomp_nil rest
    | cons c t =>
        have hts : u = (c :: t) ++ ':' :: rest := by
          conv_lhs => rw [← List.takeWhile_append_dropWhile (· ≠ ':') u]
          rw [hr, hpre]
        have hnc : ':' ∉ c :: t := by
          intro hm
          have hm2 : ':' ∈ u.takeWhile (· ≠ ':') := by
            rw [hpre]
            exact hm
          have := List.mem_takeWhile_imp hm2
          simp at this
        by_cases hcond : isAsciiAlpha c = true ∧ (c :: t).all isSchemeChar = true
        · right
          refine ⟨c, t, rest, hts, hcond.1, hcond.2, hnc, ?_⟩
          rw [hts, splitScheme_decomp_cons _ _ _ hnc, if_pos hcond]
        · left
          rw [hts, splitScheme_decomp_cons _ _ _ hnc, if_neg hcond]
  · left
    exact splitScheme_no_colon hcol

theorem toLower_netlocOk {c : Char} (h : netlocOk c = true) :
    netlocOk (Char.toLower c) = true := by
  rcases toLower_range c with he | ⟨h1, h2, h3⟩
  · rw [he]
    exact h
  · rw [netlocOk_iff] at h ⊢
    omega

theorem toLower_cleanChar {c : Char} (h : cleanChar c = true) :
    cleanChar (Char.toLower c) = true := by
  rcases toLower_range c with he | ⟨h1, h2, h3⟩
  · rw [he]
    exact h
  · rw [cleanChar_iff] at h ⊢
    omega

theorem toLower_alpha {c : Char} (h : isAsciiAlpha c = true) :
    isAsciiAlpha (Char.toLower c) = true := by
  rcases toLower_range c with he | ⟨h1, h2, h3⟩
  · rw [he]
    exact h
  · rw [isAsciiAlpha_iff] at h ⊢
    omega

theorem toLower_schemeChar {c : Char} (h : isSchemeChar c = true) :
    isSchemeChar (Char.toLower c) = true := by
  rcases toLower_range c with he | ⟨h1, h2, h3⟩
  · rw [he]
    exact h
  · rw [isSchemeChar_iff] at h ⊢
    omega

theorem netlocOk_false_cases {d : Char} (hd : netlocOk d = false) :
    d = '/' ∨ d = '?' ∨ d = '#' := by
  have h1 : ¬ (d.toNat ≠ 47 ∧ d.toNat ≠ 63 ∧ d.toNat ≠ 35) := by
    intro hc
    rw [(netlocOk_iff d).mpr hc] at hd
    exact absurd hd (by simp)
  by_cases h47 : d.toNat = 47
  · left
    exact (char_eq_lit d '/').mpr (by rw [show ('/' : Char).toNat = 47 from rfl]; exact h47)
  · by_cases h63 : d.toNat = 63
    · right
      left
      exact (char_eq_lit d '?').mpr (by rw [show ('?' : Char).toNat = 63 from rfl]; exact h63)
    · right
      right
      have h35 : d.toNat = 35 := by omega
      exact (char_eq_lit d '#').mpr (by rw [show ('#' : Char).toNat = 35 from rfl]; exact h35)

theorem urlsplitD_facts (u : Str) (hcu : cleanUrl u = u) :
    (∀ x ∈ (urlsplitD [] u).netloc, netlocOk x = true ∧ x ∈ u) ∧
    (∀ x ∈ (urlsplitD [] u).path, x ∈ u ∧ x ≠ '#' ∧ x ≠ '?') ∧
    ((urlsplitD [] u).scheme = (splitScheme [] u).1) ∧
    ((urlsplitD [] u).scheme = [] → (urlsplitD [] u).netloc = [] →
      (splitScheme [] (urlsplitD [] u).path).1 = []) := by
  have hu1sub : ∀ x ∈ (splitScheme [] u).2, x ∈ u := by
    rcases splitScheme_shape u with h | ⟨c, t, rest, hts, _, _, _, h⟩
    · rw [h]
      exact fun x hx => hx
    · rw [h]
      intro x hx
      rw [hts]
      simp [hx]
  have hE : urlsplitD [] u =
      ⟨(splitScheme [] u).1,
       (if ((splitScheme [] u).2).take 2 = str "//"
        then (((splitScheme [] u).2).drop 2).takeWhile netlocOk else []),
       (pySplitFirst '?'
          (pySplitFirst '#'
            (if ((splitScheme [] u).2).take 2 = str "//"
             then (((splitScheme [] u).2).drop 2).dropWhile netlocOk
             else (splitScheme [] u).2)).1).1,
       ((pySplitFirst '?'
          (pySplitFirst '#'
            (if ((splitScheme [] u).2).take 2 = str "//"
             then (((splitScheme [] u).2).drop 2).dropWhile netlocOk
             else (splitScheme [] u).2)).1).2).getD [],
       ((pySplitFirst '#'
            (if ((splitScheme [] u).2).take 2 = str "//"
             then (((splitScheme [] u).2).drop 2).dropWhile netlocOk
             else (splitScheme [] u).2)).2).getD []⟩ := by
    unfold urlsplitD
    rw [hcu]
  have hu2sub : ∀ x ∈ (if ((splitScheme [] u).2).take 2 = str "//"
      then (((splitScheme [] u).2).drop 2).dropWhile netlocOk
      else (splitScheme [] u).2), x ∈ u := by
    intro x hx
    by_cases hmk : ((splitScheme [] u).2).take 2 = str "//"
    · rw [if_pos hmk] at hx
      exact hu1sub x ((List.drop_sublist 2 _).subset
        ((List.dropWhile_sublist _).subset hx))
    · rw [if_neg hmk] at hx
      exact hu1sub x hx
  rw [hE]
  dsimp only
  refine ⟨?_, ?_, rfl, ?_⟩
  · intro x hx
    by_cases hmk : ((splitScheme [] u).2).take 2 = str "//"
    · rw [if_pos hmk] at hx
      refine ⟨List.mem_takeWhile_imp hx, ?_⟩
      exact hu1sub x ((List.drop_sublist 2 _).subset
        ((List.takeWhile_sublist _).subset hx))
    · rw [if_neg hmk] at hx
      exact absurd hx (List.not_mem_nil x)
  · intro x hx
    rw [pySplitFirst_fst] at hx
    have hxq : x ≠ '?' := by
      have := List.mem_takeWhile_imp hx
      simpa using this
    have hx1 : x ∈ (pySplitFirst '#' _).1 := (List.takeWhile_sublist _).subset hx
    rw [pySplitFirst_fst] at hx1
    have hxh : x ≠ '#' := by
      have := List.mem_takeWhile_imp hx1
      simpa using this
    exact ⟨hu2sub x ((List.takeWhile_sublist _).subset hx1), hxh, hxq⟩
  · intro hs0 hn0
    have hspl := splitScheme_nil_eq hs0
    have hu1 : (splitScheme [] u).2 = u := by
      rw [hspl]
    rw [pySplitFirst_fst, pySplitFirst_fst]
    by_cases hmk : ((splitScheme [] u).2).take 2 = str "//"
    · rw [if_pos hmk]
      rcases dropWhile_head_prop netlocOk (((splitScheme [] u).2).drop 2) with
        hdw | ⟨d, t, hdw, hd⟩
      · rw [hdw]
        rfl
      · rw [hdw]
        rcases netlocOk_false_cases hd with rfl | rfl | rfl
        · rw [List.takeWhile_cons, if_pos (by decide),
            List.takeWhile_cons, if_pos (by decide)]
          exact noScheme_of_head_bad (Or.inr ⟨'/', _, rfl, by decide⟩)
        · rw [List.takeWhile_cons, if_pos (by decide),
            List.takeWhile_cons, if_neg (by decide)]
          rfl
        · rw [List.takeWhile_cons, if_neg (by decide)]
          rfl
    · rw [if_neg hmk]
      have hw1 : (splitScheme [] ((splitScheme [] u).2)).1 = [] := by
        rw [hu1]
        exact hs0
      have hd1 := noScheme_take
        (List.takeWhile_append_dropWhile (· ≠ '#') ((splitScheme [] u).2)).symm hw1
      exact noScheme_take
        (List.takeWhile_append_dropWhile (· ≠ '?')
          (((splitScheme [] u).2).takeWhile (· ≠ '#'))).symm hd1

theorem normalize_clean_components (u : Str)
    (hclean : ∀ c ∈ u, cleanChar c = true) :
    ∃ A B C pairs,
      normalize_url_for_dedupe u none = buildNorm A B C (urlencodePairs pairs) ∧
      (A = [] ∨ (∃ c t, A = c :: t ∧ isAsciiAlpha c = true ∧
        A.all isSchemeChar = true ∧ lowerStr A = A)) ∧
      (∀ c ∈ B, netlocOk c = true ∧ cleanChar c = true) ∧
      lowerStr B = B ∧
      collapseSlashes C = C ∧
      (∀ c ∈ C, cleanChar c = true ∧ c ≠ '#' ∧ c ≠ '?') ∧
      (∀ kv ∈ pairs, lowerStr kv.1 ∉ AUTH_QUERY_KEYS) ∧
      List.Pairwise (fun a b => pairLtB b a = false) pairs ∧
      (A = [] → B = [] → (splitScheme [] C).1 = []) := by
  have hws : ∀ c ∈ u, isPyWs c = false ∧ isC0OrSpace c = false :=
    fun c hc => cleanChar_ws (hclean c hc)
  have hstrip : pyStrip u = u := pyStrip_eq_self fun c hc => (hws c hc).1
  have hcu : cleanUrl u = u := cleanUrl_eq_self hws
  obtain ⟨hnet, hpath, hsch, hns0⟩ := urlsplitD_facts u hcu
  have hsemi : containsChar ';' (urlsplitD [] u).path = false := by
    cases hc : containsChar ';' (urlsplitD [] u).path with
    | false => rfl
    | true =>
        have hm : ';' ∈ (urlsplitD [] u).path := containsChar_iff.mp hc
        have := hclean ';' (hpath ';' hm).1
        exact absurd this (by decide)
  have hup := urlparse_no_params hsemi
  refine ⟨lowerStr (urlparse u).scheme, lowerStr (urlparse u).netloc,
    collapseSlashes (urlparse u).path,
    pySort ((parse_qsl (urlparse u).query).filter
      fun kv => lowerStr kv.1 ∉ AUTH_QUERY_KEYS),
    normalize_eq_buildNorm u hstrip, ?_, ?_, lowerStr_idem _, collapse_idem _,
    ?_, ?_, pySort_sorted _, ?_⟩
  · rw [hup]
    dsimp only
    rw [hsch]
    rcases splitScheme_shape u with h | ⟨c, t, rest, hu, ha, hall, hnc, h⟩
    · left
      rw [h]
      rfl
    · right
      rw [h]
      dsimp only
      rw [lowerStr_idem]
      refine ⟨Char.toLower c, lowerStr t, rfl, toLower_alpha ha, ?_, lowerStr_idem _⟩
      rw [List.all_eq_true]
      intro x hx
      rcases List.mem_map.mp hx with ⟨y, hy, rfl⟩
      exact toLower_schemeChar (by
        have := List.all_eq_true.mp hall
        exact this y hy)
  · rw [hup]
    dsimp only
    intro x hx
    rcases List.mem_map.mp hx with ⟨y, hy, rfl⟩
    obtain ⟨hok, hyu⟩ := hnet y hy
    exact ⟨toLower_netlocOk hok, toLower_cleanChar (hclean y hyu)⟩
  · intro x hx
    have hxp := collapse_subset _ x hx
    rw [hup] at hxp
    dsimp only at hxp
    obtain ⟨hxu, hxh, hxq⟩ := hpath x hxp
    exact ⟨hclean x hxu, hxh, hxq⟩
  · intro kv hkv
    have h1 := (pySort_mem _ kv).mp hkv
    have h2 := List.mem_filter.mp h1
    exact of_decide_eq_true h2.2
  · intro hA hB
    rw [hup] at hA hB ⊢
    dsimp only at hA hB ⊢
    have hS : (urlsplitD [] u).scheme = [] := by
      rwa [lowerStr, List.map_eq_nil_iff] at hA
    have hN : (urlsplitD [] u).netloc = [] := by
      rwa [lowerStr, List.map_eq_nil_iff] at hB
    exact noScheme_collapse (hns0 hS hN)

/-- C10 (amended): URL normalization for deduplication is idempotent on
every input string whose characters are all "clean" - no semicolon (the
params separator), no Python whitespace, and no C0-control or space
characters. For such inputs, normalizing the output of
normalize_url_for_dedupe (with no base) returns it unchanged. -/
theorem C10_idempotent_on_clean (u : Str)
    (h : ∀ c ∈ u, cleanChar c = true) :
    normalize_url_for_dedupe (normalize_url_for_dedupe u none) none =
      normalize_url_for_dedupe u none := by
  obtain ⟨A, B, C, pairs, heq, hs, hnB, hlB, hpC, hcC, hfilter, hsort, hns⟩ :=
    normalize_clean_components u h
  rw [heq]
  exact buildNorm_fixed A B C _ pairs rfl hs hnB hlB hpC hcC hfilter hsort hns

theorem C10_idempotent_on_clean_witness :
    (∀ c ∈ str "http://x/a?b=1", cleanChar c = true) ∧
    normalize_url_for_dedupe
        (normalize_url_for_dedupe (str "http://x/a?b=1") none) none =
      normalize_url_for_dedupe (str "http://x/a?b=1") none :=
  ⟨by decide, C10_idempotent_on_clean (str "http://x/a?b=1") (by decide)⟩

theorem C10_counterexample :
    normalize_url_for_dedupe (str "http://x/a;b/") none = str "http://x/a;b" ∧
    normalize_url_for_dedupe (str "http://x/a;b") none = str "http://x/a" ∧
    normalize_url_for_dedupe
        (normalize_url_for_dedupe (str "http://x/a;b/") none) none ≠
      normalize_url_for_dedupe (str "http://x/a;b/") none := by decide

end Merge
